import Mathlib

/-!
The repository instagram-rss-feed: a shallow embedding of `pkg/rss`.

The Go package `rss` (files `scraper.go`, `rssbridge.go`, `rss.go`) is embedded
as pure Lean functions.

* A Go `string` is an immutable byte sequence: `GoString := List UInt8`.
  String literals of the source are written with `lit`, their UTF-8 bytes.
* A Go call that can end in three ways (value with `err == nil`, a non-nil
  `error`, a run-time panic) returns `Result`.
* `map[string]interface{}` as produced by `encoding/json` is `JMap`, a finite
  key/value list read by `JMap.get`; `interface{}` values are `JVal`.
* The outside world (HTTP responses, the clock) and the decoders of the
  standard library (`json.Unmarshal`, `xml.Unmarshal`, `time.Parse`) are
  explicit inputs: `World` and `Lib`.
* `xml.MarshalIndent` is embedded at the types of `rss.go`: the text of the
  elements with their indentation, and the escaping of character data.
* `regexp` is embedded as a backtracking matcher (`Re.run`) with Go's
  leftmost-first semantics over a small pattern syntax that covers every
  pattern of the package.
-/

namespace Rss

/-! ## Strings -/

/-- A Go string: a sequence of bytes. -/
abbrev GoString := List UInt8

/-- The bytes (UTF-8) of a source-code string literal. -/
def lit (s : String) : GoString := s.data.flatMap String.utf8EncodeChar

/-- The verb `%d` of `fmt.Sprintf` at a non-negative integer. -/
def fmtNat (n : Nat) : GoString := lit (Nat.repr n)

/-- The verb `%d` of `fmt.Sprintf` at an `int`. -/
def fmtInt : Int → GoString
  | Int.ofNat n => fmtNat n
  | Int.negSucc n => lit "-" ++ fmtNat (n + 1)

/-- The verb `%06b` of `fmt.Sprintf` at a non-negative integer: base 2, padded
with zeros on the left to width 6. -/
def fmtBin06 (n : Nat) : GoString :=
  let digits := lit (String.mk (Nat.toDigits 2 n))
  List.replicate (6 - digits.length) 48 ++ digits

/-- Whether `pre` starts `s`: `strings.HasPrefix(s, pre)`. -/
def startsWith (s pre : GoString) : Bool := pre.isPrefixOf s

/-- Byte offset of the first occurrence of `sep` in `s`: `strings.Index`,
with `none` for the result `-1`. -/
def stringsIndex : GoString → GoString → Option Nat
  | [], sep => if sep = [] then some 0 else none
  | c :: t, sep =>
    if startsWith (c :: t) sep then some 0
    else (stringsIndex t sep).map (· + 1)

/-- Substring test: `strings.Contains(s, sub)`. -/
def stringsContains (s sub : GoString) : Bool := (stringsIndex s sub).isSome

/-- The loop of `strings.Split` for a non-empty separator: cut at the first
occurrence, continue after it. `fuel` bounds the number of cuts. -/
def splitLoop (sep : GoString) : Nat → GoString → List GoString
  | 0, s => [s]
  | fuel + 1, s =>
    match stringsIndex s sep with
    | none => [s]
    | some m => s.take m :: splitLoop sep fuel (s.drop (m + sep.length))

/-- The call `strings.Split(s, sep)` for a non-empty separator `sep`. -/
def stringsSplit (s sep : GoString) : List GoString := splitLoop sep s.length s

/-- The call `strings.ReplaceAll(s, old, new)` for a one-byte `old`. -/
def replaceByte (old : UInt8) (new : GoString) (s : GoString) : GoString :=
  s.flatMap fun c => if c = old then new else [c]

/-- The call `strings.Join(parts, sep)`. -/
def stringsJoin (sep : GoString) : List GoString → GoString
  | [] => []
  | [a] => a
  | a :: b :: rest => a ++ sep ++ stringsJoin sep (b :: rest)

/-! ## `regexp`: patterns and leftmost-first matching -/

/-- The character classes used by the patterns of the package. On bytes:
`.` is any byte but the newline, `\s` is `[\t\n\f\r ]`, `\w` is `[0-9A-Za-z_]`.
(A multi-byte rune is matched by `.` byte after byte; since every pattern
continues with an ASCII byte after `.*?`, the matches are the same.) -/
inductive Cls where
  | any
  | space
  | word
  deriving DecidableEq, Repr

/-- Membership of a byte in a class. -/
def Cls.test : Cls → UInt8 → Bool
  | Cls.any, c => c != 10
  | Cls.space, c => c == 9 || c == 10 || c == 12 || c == 13 || c == 32
  | Cls.word, c =>
    (48 ≤ c && c ≤ 57) || (65 ≤ c && c ≤ 90) || c == 95 || (97 ≤ c && c ≤ 122)

/-- Regular expressions, as far as the package uses them: a literal byte, a
class, concatenation, alternation, `r*` (greedy) and `r*?` (not greedy), a
capturing group with its number, and the empty pattern. A non-capturing group
`(?:r)` is `r` itself. -/
inductive Re where
  | eps
  | byte (b : UInt8)
  | cls (c : Cls)
  | cat (a b : Re)
  | alt (a b : Re)
  | star (r : Re) (greedy : Bool)
  | group (i : Nat) (r : Re)
  deriving Repr

/-- A literal string as a pattern. -/
def Re.str : GoString → Re
  | [] => Re.eps
  | c :: t => Re.cat (Re.byte c) (Re.str t)

/-- A sequence of patterns. -/
def Re.seq : List Re → Re
  | [] => Re.eps
  | r :: rs => Re.cat r (Re.seq rs)

/-- The pattern `r+`. -/
def Re.plus (r : Re) : Re := Re.cat r (Re.star r true)

/-- The number of capturing groups, `regexp.NumSubexp`. -/
def Re.numSubexp : Re → Nat
  | Re.eps => 0
  | Re.byte _ => 0
  | Re.cls _ => 0
  | Re.cat a b => a.numSubexp + b.numSubexp
  | Re.alt a b => a.numSubexp + b.numSubexp
  | Re.star r _ => r.numSubexp
  | Re.group _ r => r.numSubexp + 1

/-- The iteration of a starred pattern whose body is run by `step`. The greedy
form prefers one more round, the other form prefers to stop. A round must
consume input; `fuel` bounds the number of rounds. -/
def starLoop {R : Type}
    (step : GoString → List GoString → (GoString → List GoString → Option R) → Option R)
    (greedy : Bool) :
    Nat → GoString → List GoString → (GoString → List GoString → Option R) → Option R
  | 0, s, caps, k => k s caps
  | fuel + 1, s, caps, k =>
    if greedy then
      match step s caps (fun s1 caps1 =>
          if s1.length < s.length then starLoop step greedy fuel s1 caps1 k else none) with
      | some res => some res
      | none => k s caps
    else
      match k s caps with
      | some res => some res
      | none => step s caps (fun s1 caps1 =>
          if s1.length < s.length then starLoop step greedy fuel s1 caps1 k else none)

/-- Backtracking matcher: `r.run s caps k` matches `r` at the head of `s` and
hands the remaining input and the captured groups to the continuation `k`;
alternatives are tried in priority order, which is the leftmost-first rule
of `regexp`. -/
def Re.run {R : Type} :
    Re → GoString → List GoString → (GoString → List GoString → Option R) → Option R
  | Re.eps, s, caps, k => k s caps
  | Re.byte b, s, caps, k =>
    match s with
    | c :: t => if c = b then k t caps else none
    | [] => none
  | Re.cls cl, s, caps, k =>
    match s with
    | c :: t => if cl.test c then k t caps else none
    | [] => none
  | Re.cat a b, s, caps, k => a.run s caps (fun s1 caps1 => b.run s1 caps1 k)
  | Re.alt a b, s, caps, k =>
    match a.run s caps k with
    | some res => some res
    | none => b.run s caps k
  | Re.star r greedy, s, caps, k =>
    starLoop (fun s0 caps0 k0 => r.run s0 caps0 k0) greedy s.length s caps k
  | Re.group i r, s, caps, k =>
    r.run s caps (fun s1 caps1 => k s1 (caps1.set i (s.take (s.length - s1.length))))

/-- A match of `r` that starts exactly at the head of `s`: the submatch list
(whole match first, then the groups) and the input after the match. -/
def Re.matchHere (r : Re) (s : GoString) : Option (List GoString × GoString) :=
  r.run s (List.replicate (r.numSubexp + 1) [])
    (fun rest caps => some (caps.set 0 (s.take (s.length - rest.length)), rest))

/-- The leftmost match of `r` in `s`: the text before the match, the submatch
list and the input after the match. -/
def Re.search (r : Re) : GoString → Option (GoString × List GoString × GoString)
  | [] => (r.matchHere []).map fun m => ([], m.1, m.2)
  | c :: t =>
    match r.matchHere (c :: t) with
    | some m => some ([], m.1, m.2)
    | none => (r.search t).map fun m => (c :: m.1, m.2.1, m.2.2)

/-- The method `FindStringSubmatch`: the submatch list of the leftmost match,
`none` for the nil result. -/
def Re.FindStringSubmatch (r : Re) (s : GoString) : Option (List GoString) :=
  (r.search s).map fun m => m.2.1

/-- The loop of `FindAllStringSubmatch(s, -1)`: successive matches, each search
starting where the previous match ended. No pattern of the package matches
the empty string; the loop stops should a match consume nothing. -/
def findAllLoop (r : Re) : Nat → GoString → List (List GoString)
  | 0, _ => []
  | fuel + 1, s =>
    match r.search s with
    | none => []
    | some (_, m, rest) =>
      if rest.length < s.length then m :: findAllLoop r fuel rest else [m]

/-- The method `FindAllStringSubmatch(s, -1)`. -/
def Re.FindAllStringSubmatch (r : Re) (s : GoString) : List (List GoString) :=
  findAllLoop r s.length s

/-- The loop of `ReplaceAllStringFunc`: the text before each match is copied,
the match is replaced by `repl` of its text, and the search goes on after
the match; the rest of the input is copied at the end. -/
def replaceAllLoop (r : Re) (repl : GoString → GoString) : Nat → GoString → GoString
  | 0, s => s
  | fuel + 1, s =>
    match r.search s with
    | none => s
    | some (pre, m, rest) =>
      if rest.length < s.length then
        pre ++ repl (m.headD []) ++ replaceAllLoop r repl fuel rest
      else s

/-- The method `ReplaceAllStringFunc(s, repl)`. -/
def Re.ReplaceAllStringFunc (r : Re) (s : GoString) (repl : GoString → GoString) :
    GoString :=
  replaceAllLoop r repl s.length s

/-! ## Results, time, numbers -/

/-- How a Go call ends: a value with a nil error, a non-nil error, or a
run-time panic (index out of range). -/
inductive Result (α : Type) where
  | ok (val : α)
  | err
  | panic
  deriving DecidableEq, Repr

/-- Sequencing of calls: an error or a panic of the first ends the whole. -/
def Result.bind {α β : Type} : Result α → (α → Result β) → Result β
  | Result.ok a, f => f a
  | Result.err, _ => Result.err
  | Result.panic, _ => Result.panic

instance : Monad Result where
  pure := Result.ok
  bind := Result.bind

/-- The index expression `xs[i]`: it panics when `i` is out of range. -/
def index {α : Type} (xs : List α) (i : Nat) : Result α :=
  match xs.get? i with
  | some x => Result.ok x
  | none => Result.panic

/-- The slice expression `s[lo:hi]`: it panics unless `lo ≤ hi ≤ len(s)`. -/
def slice (s : GoString) (lo hi : Nat) : Result GoString :=
  if lo ≤ hi ∧ hi ≤ s.length then Result.ok ((s.drop lo).take (hi - lo)) else Result.panic

/-- An instant (`time.Time`), in nanoseconds relative to the Unix epoch. -/
structure Time where
  unixNano : Int
  deriving DecidableEq, Repr

/-- The zero value `time.Time{}`: January 1, year 1, 00:00:00 UTC. -/
def Time.zero : Time := ⟨-62135596800 * 1000000000⟩

/-- The call `time.Unix(sec, 0)`. -/
def Time.unix (sec : Int) : Time := ⟨sec * 1000000000⟩

/-- The call `t.Add(d)` for a duration `d` in nanoseconds. -/
def Time.add (t : Time) (d : Int) : Time := ⟨t.unixNano + d⟩

/-- The constant `time.Hour`, in nanoseconds. -/
def hour : Int := 3600 * 1000000000

/-- A finite `float64`, the value `mant * 2 ^ exp` (every JSON number decodes
to a finite value). -/
structure Float64 where
  mant : Int
  exp : Int
  deriving DecidableEq, Repr

/-- The number `f` with its fraction discarded (rounding towards zero), as an
integer of any size. -/
def Float64.trunc (f : Float64) : Int :=
  match f.exp with
  | Int.ofNat e => f.mant * 2 ^ e
  | Int.negSucc e => Int.tdiv f.mant (2 ^ (e + 1))

/-- The conversions `int(f)` and `int64(f)` on a 64-bit platform: the fraction
is discarded, and the result is a 64-bit integer. When the truncated value
does not fit 64 bits Go leaves the result to the implementation; the model
takes what the `amd64` compiler gives, the least 64-bit integer. -/
def Float64.toInt (f : Float64) : Int :=
  if -2 ^ 63 ≤ f.trunc ∧ f.trunc < 2 ^ 63 then f.trunc else -2 ^ 63

/-! ## Data model -/

/-- The struct `Post` of `scraper.go`. -/
structure Post where
  ID : GoString
  Code : GoString
  Caption : GoString
  ImageURL : GoString
  VideoURL : GoString
  PostURL : GoString
  Timestamp : Time
  IsVideo : Bool
  Likes : Int
  Comments : Int
  deriving DecidableEq, Repr

/-- The zero value `Post{}`. -/
def Post.zero : Post :=
  { ID := [], Code := [], Caption := [], ImageURL := [], VideoURL := [],
    PostURL := [], Timestamp := Time.zero, IsVideo := false, Likes := 0,
    Comments := 0 }

/-- A decoded JSON value, an `interface{}` as `encoding/json` produces it. -/
inductive JVal where
  | null
  | bool (b : Bool)
  | num (f : Float64)
  | str (s : GoString)
  | arr (xs : List JVal)
  | obj (kvs : List (GoString × JVal))

/-- A decoded JSON object, `map[string]interface{}`. -/
abbrev JMap := List (GoString × JVal)

/-- The map read `m[key]`: `none` when the key is absent. -/
def JMap.get : JMap → GoString → Option JVal
  | [], _ => none
  | (k, v) :: rest, key => if k = key then some v else JMap.get rest key

/-- The type assertion `v.(string)` on a map read. -/
def asString : Option JVal → Option GoString
  | some (JVal.str s) => some s
  | _ => none

/-- The type assertion `v.(bool)` on a map read. -/
def asBool : Option JVal → Option Bool
  | some (JVal.bool b) => some b
  | _ => none

/-- The type assertion `v.(float64)` on a map read. -/
def asFloat : Option JVal → Option Float64
  | some (JVal.num f) => some f
  | _ => none

/-- The type assertion `v.(map[string]interface{})` on a map read. -/
def asMap : Option JVal → Option JMap
  | some (JVal.obj kvs) => some kvs
  | _ => none

/-- The type assertion `v.([]interface{})` on a map read. -/
def asSlice : Option JVal → Option (List JVal)
  | some (JVal.arr xs) => some xs
  | _ => none

/-- The struct `AtomLink` of `rssbridge.go`. -/
structure AtomLink where
  Href : GoString
  Rel : GoString
  Type_ : GoString
  deriving DecidableEq, Repr

/-- The struct `AtomContent`. -/
structure AtomContent where
  Type_ : GoString
  Text : GoString
  deriving DecidableEq, Repr

/-- The struct `AtomAuthor`. -/
structure AtomAuthor where
  Name : GoString
  deriving DecidableEq, Repr

/-- The struct `AtomEntry`. -/
structure AtomEntry where
  ID : GoString
  Title : GoString
  Link : List AtomLink
  Updated : GoString
  Content : AtomContent
  Author : AtomAuthor
  deriving DecidableEq, Repr

/-- The struct `AtomFeed` (without the `XMLName` marker). -/
structure AtomFeed where
  Title : GoString
  Link : List AtomLink
  Updated : GoString
  Entries : List AtomEntry
  deriving DecidableEq, Repr

/-! ## `scraper.go`: the media-record normalizer and the fallback generator -/

/-- The function `parseMediaData` of `scraper.go`: the record starts as `Post{}`
and each `if v, ok := data[key].(T); ok` block updates it in turn. -/
def parseMediaData (data : JMap) : Post :=
  let post := Post.zero
  let post := match asString (data.get (lit "id")) with
    | some id => { post with ID := id }
    | none => post
  let post := match asString (data.get (lit "shortcode")) with
    | some shortcode =>
      { post with Code := shortcode,
                  PostURL := lit "https://www.instagram.com/p/" ++ shortcode ++ lit "/" }
    | none => post
  let post := match asString (data.get (lit "display_url")) with
    | some displayURL => { post with ImageURL := displayURL }
    | none => post
  let post := match asBool (data.get (lit "is_video")) with
    | some isVideo => { post with IsVideo := isVideo }
    | none => post
  let post := match asString (data.get (lit "video_url")) with
    | some videoURL => { post with VideoURL := videoURL }
    | none => post
  let post := match asFloat (data.get (lit "taken_at_timestamp")) with
    | some timestamp => { post with Timestamp := Time.unix timestamp.toInt }
    | none => post
  let post := match asMap (data.get (lit "edge_media_to_caption")) with
    | some captionEdges =>
      match asSlice (captionEdges.get (lit "edges")) with
      | some (first :: _) =>
        match asMap (some first) with
        | some edge =>
          match asMap (edge.get (lit "node")) with
          | some node =>
            match asString (node.get (lit "text")) with
            | some text => { post with Caption := text }
            | none => post
          | none => post
        | none => post
      | _ => post
    | none => post
  let post := match asMap (data.get (lit "edge_liked_by")) with
    | some likes =>
      match asFloat (likes.get (lit "count")) with
      | some count => { post with Likes := count.toInt }
      | none => post
    | none => post
  let post := match asMap (data.get (lit "edge_media_to_comment")) with
    | some comments =>
      match asFloat (comments.get (lit "count")) with
      | some count => { post with Comments := count.toInt }
      | none => post
    | none => post
  post

/-- The record that `generateDummyPosts` stores at index `i`. -/
def dummyPost (username : GoString) (baseTime : Time) (i : Nat) : Post :=
  { ID := lit "dummy_" ++ fmtNat (i + 1),
    Code := lit "ABC123DE" ++ fmtNat (i + 1),
    Caption := lit "Sample Instagram post " ++ fmtNat (i + 1) ++ lit " from @" ++ username
      ++ lit " #instagram #photo",
    ImageURL := lit "https://via.placeholder.com/640x640/f" ++ fmtBin06 (i + 1) ++ lit "4/"
      ++ username ++ fmtNat (i + 1),
    PostURL := lit "https://www.instagram.com/p/ABC123DE" ++ fmtNat (i + 1) ++ lit "/",
    VideoURL := [],
    Timestamp := baseTime.add (-(i : Int) * hour * 24),
    IsVideo := false,
    Likes := 1000 + (i : Int) * 100,
    Comments := 50 + (i : Int) * 10 }

/-- The loop `for i := 0; i < 8; i++ { posts[i] = ... }` of `generateDummyPosts`:
`n` iterations remain, the next index is `i`. -/
def dummyLoop (username : GoString) (baseTime : Time) : Nat → Nat → List Post → List Post
  | 0, _, posts => posts
  | n + 1, i, posts =>
    if i < 8 then dummyLoop username baseTime n (i + 1) (posts.set i (dummyPost username baseTime i))
    else posts

/-- The function `generateDummyPosts` of `scraper.go`; `baseTime` is the reading
of `time.Now()`. -/
def generateDummyPosts (username : GoString) (baseTime : Time) : List Post :=
  dummyLoop username baseTime 8 0 (List.replicate 8 Post.zero)

/-! ## `scraper.go`: the page parsers -/

/-- The decoders of the standard library, taken as given functions. `none` is
a non-nil error. `jsonUnmarshal` is `json.Unmarshal` into a
`map[string]interface{}`, `xmlUnmarshal` is `xml.Unmarshal` into an `AtomFeed`,
`parseRFC3339` is `time.Parse(time.RFC3339, ·)`. -/
structure Lib where
  jsonUnmarshal : GoString → Option JMap
  xmlUnmarshal : GoString → Option AtomFeed
  parseRFC3339 : GoString → Option Time

/-- The pattern `\s*`. -/
def spaces : Re := Re.star (Re.cls Cls.space) true

/-- The pattern `{.*?}`: an opening brace (byte 123), as few bytes of the line
as possible, a closing brace (byte 125). -/
def braced : Re := Re.seq [Re.byte 123, Re.star (Re.cls Cls.any) false, Re.byte 125]

/-- The pattern `(?:"shortcode_media":\s*{.*?})(?:,|})` of `extractPostsFromHTML`;
both of its groups are non-capturing. -/
def jsonPattern : Re :=
  Re.cat (Re.seq [Re.str (lit "\"shortcode_media\":"), spaces, braced])
    (Re.alt (Re.byte 44) (Re.byte 125))

/-- The list `patterns` of `extractFromSharedData`:

* `window\._sharedData\s*=\s*({.*?});`
* `"ProfilePage"\s*:\s*({.*?})\[`
* `"\?*","owner"\s*:\s*{.*?},"media".*?\s*:\s*{.*?},"edges":\s*\[\s*{.*?}\s*\]`
* `"shortcode_media"\s*:\s*{.*?},`

Bytes: `=` 61, `;` 59, `:` 58, `[` 91, `]` 93, `"` 34, `?` 63, `,` 44. -/
def patterns : List Re :=
  [ Re.seq [Re.str (lit "window._sharedData"), spaces, Re.byte 61, spaces,
      Re.group 1 braced, Re.byte 59],
    Re.seq [Re.str (lit "\"ProfilePage\""), spaces, Re.byte 58, spaces,
      Re.group 1 braced, Re.byte 91],
    Re.seq [Re.byte 34, Re.star (Re.byte 63) true, Re.str (lit "\",\"owner\""), spaces,
      Re.byte 58, spaces, braced, Re.str (lit ",\"media\""),
      Re.star (Re.cls Cls.any) false, spaces, Re.byte 58, spaces, braced,
      Re.str (lit ",\"edges\":"), spaces, Re.byte 91, spaces, braced, spaces, Re.byte 93],
    Re.seq [Re.str (lit "\"shortcode_media\""), spaces, Re.byte 58, spaces, braced,
      Re.byte 44] ]

/-- The loop `for i, edge := range edges` of `parseSharedData`; `i` is the index
of the head of the remaining edges. -/
def edgesLoop : List JVal → Nat → List Post → List Post
  | [], _, posts => posts
  | edge :: rest, i, posts =>
    if i ≥ 8 then posts
    else
      match asMap (some edge) with
      | none => edgesLoop rest (i + 1) posts
      | some edgeMap =>
        match asMap (edgeMap.get (lit "node")) with
        | none => edgesLoop rest (i + 1) posts
        | some node =>
          let post := parseMediaData node
          if post.Code ≠ [] then edgesLoop rest (i + 1) (posts ++ [post])
          else edgesLoop rest (i + 1) posts

/-- The function `parseSharedData` of `scraper.go`. -/
def parseSharedData (data : JMap) : Result (List Post) :=
  let posts : List Post := []
  match asMap (data.get (lit "entry_data")) with
  | none => Result.ok posts
  | some entryData =>
    match asSlice (entryData.get (lit "ProfilePage")) with
    | none => Result.ok posts
    | some [] => Result.ok posts
    | some (first :: _) =>
      match asMap (some first) with
      | none => Result.ok posts
      | some pageData =>
        match asMap (pageData.get (lit "graphql")) with
        | none => Result.ok posts
        | some graphql =>
          match asMap (graphql.get (lit "user")) with
          | none => Result.ok posts
          | some user =>
            match asMap (user.get (lit "edge_owner_to_timeline_media")) with
            | none => Result.ok posts
            | some timeline =>
              match asSlice (timeline.get (lit "edges")) with
              | none => Result.ok posts
              | some edges => Result.ok (edgesLoop edges 0 posts)

/-- The loop `for _, pattern := range patterns` of `extractFromSharedData`. -/
def sharedDataLoop (lib : Lib) (html : GoString) : List Re → Result (List Post)
  | [] => Result.ok []
  | pattern :: rest =>
    match pattern.FindStringSubmatch html with
    | none => sharedDataLoop lib html rest
    | some ms =>
      match index ms 1 with
      | Result.ok fragment =>
        match lib.jsonUnmarshal fragment with
        | none => sharedDataLoop lib html rest
        | some data =>
          match parseSharedData data with
          | Result.ok posts =>
            if posts.length > 0 then Result.ok posts else sharedDataLoop lib html rest
          | Result.err => sharedDataLoop lib html rest
          | Result.panic => Result.panic
      | _ => Result.panic

/-- The function `extractFromSharedData` of `scraper.go`. -/
def extractFromSharedData (lib : Lib) (html : GoString) : Result (List Post) :=
  sharedDataLoop lib html patterns

/-- The loop `for i, match := range matches` of `extractPostsFromHTML`. -/
def matchesLoop (lib : Lib) : List (List GoString) → Nat → List Post → Result (List Post)
  | [], _, posts => Result.ok posts
  | m :: rest, i, posts =>
    if i ≥ 8 then Result.ok posts
    else
      match index m 1 with
      | Result.ok fragment =>
        match lib.jsonUnmarshal fragment with
        | none => matchesLoop lib rest (i + 1) posts
        | some mediaData =>
          let post := parseMediaData mediaData
          if post.Code ≠ [] then matchesLoop lib rest (i + 1) (posts ++ [post])
          else matchesLoop lib rest (i + 1) posts
      | _ => Result.panic

/-- The function `extractPostsFromHTML` of `scraper.go`. -/
def extractPostsFromHTML (lib : Lib) (html : GoString) : Result (List Post) :=
  let ms := jsonPattern.FindAllStringSubmatch html
  if ms.length ≤ 0 then extractFromSharedData lib html
  else matchesLoop lib ms 0 []

/-! ## `rssbridge.go`: the feed-proxy strategy -/

/-- The function `extractIDFromAtomEntry`. -/
def extractIDFromAtomEntry (entry : AtomEntry) : Result GoString :=
  let id := entry.ID
  if stringsContains id (lit "/") then
    let parts := stringsSplit id (lit "/")
    index parts (parts.length - 1)
  else Result.ok id

/-- The loop `for _, link := range entry.Link` of `extractLinkFromAtomEntry`. -/
def linkLoop : List AtomLink → GoString
  | [] => []
  | link :: rest =>
    if link.Rel = lit "alternate" ∨ link.Rel = [] then link.Href else linkLoop rest

/-- The function `extractLinkFromAtomEntry`. -/
def extractLinkFromAtomEntry (entry : AtomEntry) : GoString := linkLoop entry.Link

/-- The function `extractImageURLFromContent`. -/
def extractImageURLFromContent (content : GoString) : Result GoString :=
  match stringsIndex content (lit "<img") with
  | none => Result.ok []
  | some found =>
    let imgStart := found + (lit "<img").length
    match slice content imgStart content.length with
    | Result.ok tail =>
      match stringsIndex tail (lit ">") with
      | none => Result.ok []
      | some imgEnd => slice content imgStart (imgStart + imgEnd)
    | _ => Result.panic

/-- The function `extractShortcodeFromURL`. -/
def extractShortcodeFromURL (postURL : GoString) : Result GoString :=
  if stringsContains postURL (lit "/p/") then
    let parts := stringsSplit postURL (lit "/p/")
    if parts.length > 1 then
      match index parts 1 with
      | Result.ok second => index (stringsSplit second (lit "/")) 0
      | _ => Result.panic
    else Result.ok []
  else Result.ok []

/-- The function `convertAtomEntryToPost`; `now` is the reading of `time.Now()`
used when `entry.Updated` does not parse. -/
def convertAtomEntryToPost (lib : Lib) (now : Time) (entry : AtomEntry)
    (_username : GoString) : Result Post := do
  let id ← extractIDFromAtomEntry entry
  let post : Post :=
    { Post.zero with ID := id, Caption := entry.Title, PostURL := extractLinkFromAtomEntry entry }
  let post : Post :=
    match lib.parseRFC3339 entry.Updated with
    | some timestamp => { post with Timestamp := timestamp }
    | none => { post with Timestamp := now }
  let imageURL ← extractImageURLFromContent entry.Content.Text
  let post : Post := { post with ImageURL := imageURL }
  let post : Post :=
    { post with IsVideo := stringsContains entry.Content.Text (lit "video")
                  || stringsContains entry.Content.Text (lit ".mp4") }
  let code ← extractShortcodeFromURL post.PostURL
  let post : Post := { post with Code := code }
  let post : Post := { post with Likes := 0 }
  let post : Post := { post with Comments := 0 }
  pure post

/-- The loop `for i := 0; i < maxPosts; i++` of `parseAtomFeed`: `n` is
`maxPosts - i`, the number of rounds left; `clock i` is the reading of
`time.Now()` during round `i`. -/
def entriesLoop (lib : Lib) (clock : Nat → Time) (entries : List AtomEntry)
    (username : GoString) : Nat → Nat → List Post → Result (List Post)
  | 0, _, posts => Result.ok posts
  | n + 1, i, posts =>
    match index entries i with
    | Result.ok entry =>
      match convertAtomEntryToPost lib (clock i) entry username with
      | Result.ok post => entriesLoop lib clock entries username n (i + 1) (posts ++ [post])
      | _ => Result.panic
    | _ => Result.panic

/-- The function `parseAtomFeed`. -/
def parseAtomFeed (lib : Lib) (clock : Nat → Time) (xmlData : GoString)
    (username : GoString) : Result (List Post) :=
  match lib.xmlUnmarshal xmlData with
  | none => Result.err
  | some feed =>
    let posts : List Post := []
    let maxPosts := 8
    let maxPosts := if feed.Entries.length < maxPosts then feed.Entries.length else maxPosts
    entriesLoop lib clock feed.Entries username maxPosts 0 posts

/-- The variable `rssBridgeServers`. -/
def rssBridgeServers : List GoString :=
  [ lit "https://rss-bridge.org/bridge01/",
    lit "https://wtf.roflcopter.fr/rss-bridge/",
    lit "https://rssbridge.flossboxin.org.in/" ]

/-- How one HTTP GET ends: `http.NewRequest` fails, `client.Do` fails, or a
response arrives with a status code and a body (`none` when `io.ReadAll`
fails). -/
inductive HttpOutcome where
  | requestError
  | transportError
  | response (status : Nat) (body : Option GoString)
  deriving DecidableEq, Repr

/-- The world outside the process during one run: the outcome of the request
to each proxy endpoint (by server and username) and to the profile page (by
username), and the readings of the clock: `entryClock server i` while entry
`i` of the feed of `server` is converted, `fallbackClock` inside
`generateDummyPosts`. -/
structure World where
  bridge : GoString → GoString → HttpOutcome
  profile : GoString → HttpOutcome
  entryClock : GoString → Nat → Time
  fallbackClock : Time

/-- The function `tryRSSBridgeServer`. -/
def tryRSSBridgeServer (lib : Lib) (w : World) (server username : GoString) :
    Result (List Post) :=
  match w.bridge server username with
  | HttpOutcome.requestError => Result.err
  | HttpOutcome.transportError => Result.err
  | HttpOutcome.response status body =>
    if status ≠ 200 then Result.err
    else
      match body with
      | none => Result.err
      | some xmlData => parseAtomFeed lib (w.entryClock server) xmlData username

/-- The loop `for _, server := range rssBridgeServers` of `FetchFromRSSBridge`. -/
def serversLoop (lib : Lib) (w : World) (username : GoString) :
    List GoString → Result (List Post)
  | [] => Result.err
  | server :: rest =>
    match tryRSSBridgeServer lib w server username with
    | Result.ok posts =>
      if posts.length > 0 then Result.ok posts else serversLoop lib w username rest
    | Result.err => serversLoop lib w username rest
    | Result.panic => Result.panic

/-- The function `FetchFromRSSBridge`. -/
def FetchFromRSSBridge (lib : Lib) (w : World) (username : GoString) : Result (List Post) :=
  serversLoop lib w username rssBridgeServers

/-- What `FetchInstagramFeed` does once the proxy strategy has not succeeded:
the direct fetch of the profile page, with the fallback generator behind it. -/
def directFetch (lib : Lib) (w : World) (username : GoString) : Result (List Post) :=
  match w.profile username with
  | HttpOutcome.requestError => Result.ok (generateDummyPosts username w.fallbackClock)
  | HttpOutcome.transportError => Result.ok (generateDummyPosts username w.fallbackClock)
  | HttpOutcome.response _ none => Result.ok (generateDummyPosts username w.fallbackClock)
  | HttpOutcome.response _ (some body) =>
    match extractPostsFromHTML lib body with
    | Result.ok posts =>
      if posts.length = 0 then Result.ok (generateDummyPosts username w.fallbackClock)
      else Result.ok posts
    | Result.err => Result.ok (generateDummyPosts username w.fallbackClock)
    | Result.panic => Result.panic

/-- The function `FetchInstagramFeed` of `scraper.go`. -/
def FetchInstagramFeed (lib : Lib) (w : World) (username : GoString) : Result (List Post) :=
  match FetchFromRSSBridge lib w username with
  | Result.ok posts =>
    if posts.length > 0 then Result.ok posts else directFetch lib w username
  | Result.err => directFetch lib w username
  | Result.panic => Result.panic

/-! ## `rss.go`: the feed serializer, item by item -/

/-- The struct `Enclosure` of `rss.go`. -/
structure Enclosure where
  URL : GoString
  Length : GoString
  Type_ : GoString
  deriving DecidableEq, Repr

/-- The struct `Item` of `rss.go`. `PubDate` holds the instant whose text
`post.Timestamp.Format(time.RFC1123Z)` the Go field holds. -/
structure Item where
  Title : GoString
  Link : GoString
  Description : GoString
  PubDate : Time
  GUID : GoString
  Enclosure : Enclosure
  deriving DecidableEq, Repr

/-- The function `html.EscapeString`: the five bytes `&`, `'`, `<`, `>`, `"` are
replaced by `&amp;`, `&#39;`, `&lt;`, `&gt;`, `&#34;`. -/
def htmlEscapeString (s : GoString) : GoString :=
  s.flatMap fun c =>
    if c = 38 then lit "&amp;"
    else if c = 39 then lit "&#39;"
    else if c = 60 then lit "&lt;"
    else if c = 62 then lit "&gt;"
    else if c = 34 then lit "&#34;"
    else [c]

/-- The call `strings.TrimPrefix(s, pre)`. -/
def trimStart (s pre : GoString) : GoString :=
  if startsWith s pre then s.drop pre.length else s

/-- The pattern `#(\w+)` of `convertHashtags` (`#` is byte 35). -/
def hashtagRegex : Re := Re.cat (Re.byte 35) (Re.group 1 (Re.plus (Re.cls Cls.word)))

/-- The pattern `@(\w+)` of `convertMentions` (`@` is byte 64). -/
def mentionRegex : Re := Re.cat (Re.byte 64) (Re.group 1 (Re.plus (Re.cls Cls.word)))

/-- The function `convertHashtags`. -/
def convertHashtags (text : GoString) : GoString :=
  hashtagRegex.ReplaceAllStringFunc text fun m =>
    let hashtag := trimStart m (lit "#")
    lit "<a href=\"https://www.instagram.com/explore/tags/" ++ hashtag ++ lit "\">#"
      ++ hashtag ++ lit "</a>"

/-- The function `convertMentions`. -/
def convertMentions (text : GoString) : GoString :=
  mentionRegex.ReplaceAllStringFunc text fun m =>
    let username := trimStart m (lit "@")
    lit "<a href=\"https://www.instagram.com/" ++ username ++ lit "\">@"
      ++ username ++ lit "</a>"

/-- Width in bytes of a white-space rune (`unicode.IsSpace`) at the head of
`s`, `0` when there is none: the ASCII bytes `\t \n \v \f \r` and the space,
U+0085, U+00A0, U+1680, U+2000 to U+200A, U+2028, U+2029, U+202F, U+205F and
U+3000 in UTF-8. -/
def spaceWidth : GoString → Nat
  | [] => 0
  | c :: t =>
    if c = 9 ∨ c = 10 ∨ c = 11 ∨ c = 12 ∨ c = 13 ∨ c = 32 then 1
    else
      match c, t with
      | 0xC2, d :: _ => if d = 0x85 ∨ d = 0xA0 then 2 else 0
      | 0xE1, d :: e :: _ => if d = 0x9A ∧ e = 0x80 then 3 else 0
      | 0xE2, d :: e :: _ =>
        if d = 0x80 ∧ ((0x80 ≤ e ∧ e ≤ 0x8A) ∨ e = 0xA8 ∨ e = 0xA9 ∨ e = 0xAF) then 3
        else if d = 0x81 ∧ e = 0x9F then 3
        else 0
      | 0xE3, d :: e :: _ => if d = 0x80 ∧ e = 0x80 then 3 else 0
      | _, _ => 0

/-- The scan of `strings.Fields`: `skip` bytes of a white-space rune are still to
be passed, `cur` is the field read so far. -/
def fieldsLoop : Nat → GoString → GoString → List GoString
  | _, cur, [] => if cur = [] then [] else [cur]
  | skip + 1, cur, _ :: t => fieldsLoop skip cur t
  | 0, cur, c :: t =>
    if spaceWidth (c :: t) = 0 then fieldsLoop 0 (cur ++ [c]) t
    else if cur = [] then fieldsLoop (spaceWidth (c :: t) - 1) [] t
    else cur :: fieldsLoop (spaceWidth (c :: t) - 1) [] t

/-- The call `strings.Fields(s)`: the maximal runs of bytes between white
space. -/
def stringsFields (s : GoString) : List GoString := fieldsLoop 0 [] s

/-- The loop `for _, word := range words` of `createItemTitle`. -/
def cleanLoop : List GoString → List GoString → List GoString
  | [], cleanWords => cleanWords
  | word :: rest, cleanWords =>
    if !startsWith word (lit "#") && !startsWith word (lit "@") then
      cleanLoop rest (cleanWords ++ [word])
    else cleanLoop rest cleanWords

/-- The function `createItemTitle`. -/
def createItemTitle (post : Post) : Result GoString := do
  let lines := stringsSplit post.Caption (lit "\n")
  let title ← index lines 0
  let title ←
    if title.length > 50 then do
      let head ← slice title 0 50
      pure (head ++ lit "...")
    else pure title
  let words := stringsFields title
  let cleanWords := cleanLoop words []
  if cleanWords.length > 0 then pure (stringsJoin (lit " ") cleanWords)
  else pure []

/-- The function `createItemDescription`: `desc` is the `strings.Builder`, each
step appends what `desc.WriteString` is given. -/
def createItemDescription (post : Post) : GoString :=
  let desc : GoString := []
  let desc :=
    if post.IsVideo = true ∧ post.VideoURL ≠ [] then
      desc ++ (lit "<video controls style=\"max-width:100%;height:auto;\"><source src=\""
        ++ htmlEscapeString post.VideoURL
        ++ lit "\" type=\"video/mp4\">Your browser does not support the video tag.</video><br><br>")
    else if post.ImageURL ≠ [] then
      desc ++ (lit "<img src=\"" ++ htmlEscapeString post.ImageURL
        ++ lit "\" alt=\"Instagram post\" style=\"max-width:100%;height:auto;\"><br><br>")
    else desc
  let desc :=
    if post.Caption ≠ [] then
      let caption := htmlEscapeString post.Caption
      let caption := convertHashtags caption
      let caption := convertMentions caption
      let caption := replaceByte 10 (lit "<br>") caption
      desc ++ (lit "<p>" ++ caption ++ lit "</p>")
    else desc
  let desc := desc ++ lit "<!-- comments -->"
  let desc := desc ++ (lit "<small>👍 " ++ fmtInt post.Likes ++ lit " likes • 💬 "
    ++ fmtInt post.Comments ++ lit " comments</small><br>")
  let desc := desc ++ (lit "<small>🔗 <a href=\"" ++ post.PostURL
    ++ lit "\">View on Instagram</a></small>")
  desc

/-- The function `createRSSItem`. The zero value of `Item.Enclosure` is the
enclosure with three empty strings. -/
def createRSSItem (post : Post) : Result Item := do
  let title ← createItemTitle post
  let description := createItemDescription post
  let item : Item :=
    { Title := title,
      Link := post.PostURL,
      Description := description,
      PubDate := post.Timestamp,
      GUID := post.PostURL,
      Enclosure := { URL := [], Length := [], Type_ := [] } }
  let item : Item :=
    if post.IsVideo = true ∧ post.VideoURL ≠ [] then
      { item with Enclosure := { URL := post.VideoURL, Type_ := lit "video/mp4", Length := lit "0" } }
    else if post.ImageURL ≠ [] then
      { item with Enclosure := { URL := post.ImageURL, Type_ := lit "image/jpeg", Length := lit "0" } }
    else item
  pure item

/-! ## Specification-side definitions -/

/-- The text of the `node` of the first element of
`edge_media_to_caption.edges`, if all of it is there with the right types. -/
def captionText (m : JMap) : Option GoString := do
  let captionEdges ← asMap (m.get (lit "edge_media_to_caption"))
  let edges ← asSlice (captionEdges.get (lit "edges"))
  let first ← edges.head?
  let edge ← asMap (some first)
  let node ← asMap (edge.get (lit "node"))
  asString (node.get (lit "text"))

/-- The number under `count` of the object under `key`. -/
def countOf (m : JMap) (key : GoString) : Option Float64 := do
  let o ← asMap (m.get key)
  asFloat (o.get (lit "count"))

/-- The rational number that `f` stands for. -/
def Float64.value (f : Float64) : ℚ := f.mant * (2 : ℚ) ^ f.exp

/-- A rational number rounded towards zero. -/
def truncate (q : ℚ) : Int := if 0 ≤ q then ⌊q⌋ else ⌈q⌉

/-- The field mapping of the media-record normalizer, key by key: each field
is read from its own key and is the zero value when the key is missing or of
the wrong type. -/
def mediaRecord (m : JMap) : Post :=
  { ID := (asString (m.get (lit "id"))).getD [],
    Code := (asString (m.get (lit "shortcode"))).getD [],
    Caption := (captionText m).getD [],
    ImageURL := (asString (m.get (lit "display_url"))).getD [],
    VideoURL := (asString (m.get (lit "video_url"))).getD [],
    PostURL :=
      match asString (m.get (lit "shortcode")) with
      | some s => lit "https://www.instagram.com/p/" ++ s ++ lit "/"
      | none => [],
    Timestamp :=
      match asFloat (m.get (lit "taken_at_timestamp")) with
      | some f => Time.unix f.toInt
      | none => Time.zero,
    IsVideo := (asBool (m.get (lit "is_video"))).getD false,
    Likes := ((countOf m (lit "edge_liked_by")).map Float64.toInt).getD 0,
    Comments := ((countOf m (lit "edge_media_to_comment")).map Float64.toInt).getD 0 }

/-- The edge list at the end of the path `entry_data` → `ProfilePage[0]` →
`graphql` → `user` → `edge_owner_to_timeline_media` → `edges`; `none` when a
step is absent or wrongly typed. -/
def timelineEdges (d : JMap) : Option (List JVal) := do
  let entryData ← asMap (d.get (lit "entry_data"))
  let profilePage ← asSlice (entryData.get (lit "ProfilePage"))
  let first ← profilePage.head?
  let pageData ← asMap (some first)
  let graphql ← asMap (pageData.get (lit "graphql"))
  let user ← asMap (graphql.get (lit "user"))
  let timeline ← asMap (user.get (lit "edge_owner_to_timeline_media"))
  asSlice (timeline.get (lit "edges"))

/-- The post of an edge: the edge is an object, its `node` is an object, and
the normalized node has a non-empty `Code`. -/
def edgePost (edge : JVal) : Option Post := do
  let edgeMap ← asMap (some edge)
  let node ← asMap (edgeMap.get (lit "node"))
  if (parseMediaData node).Code ≠ [] then some (parseMediaData node) else none

/-- A post that stems from a media record with a non-empty string `shortcode`:
its `Code` is that string and its `PostURL` the permalink built from it. -/
def FromShortcode (p : Post) : Prop :=
  ∃ m s, p = parseMediaData m ∧ m.get (lit "shortcode") = some (JVal.str s) ∧ s ≠ [] ∧
    p.Code = s ∧ p.PostURL = lit "https://www.instagram.com/p/" ++ s ++ lit "/"

/-- A matcher step hands to its continuation as many capture slots as it was
given. -/
def KeepsSlots
    (step : GoString → List GoString →
      (GoString → List GoString → Option (List GoString × GoString)) →
      Option (List GoString × GoString)) : Prop :=
  ∀ s caps k res, step s caps k = some res →
    ∃ s1 caps1, caps1.length = caps.length ∧ k s1 caps1 = some res

/-! ## Sample inputs -/

/-- Decoders that reject every document. -/
def noDecoders : Lib :=
  { jsonUnmarshal := fun _ => none, xmlUnmarshal := fun _ => none, parseRFC3339 := fun _ => none }

/-- A profile page that embeds one media block:
`{"shortcode_media":{"shortcode":"Cx1"}}`. -/
def mediaPage : GoString :=
  lit "\x7b\"shortcode_media\":\x7b\"shortcode\":\"Cx1\"\x7d\x7d"

/-- A page on which only the last pattern of `extractFromSharedData` matches:
`"shortcode_media" : {"shortcode":"Cx1"},`. -/
def spacedMediaPage : GoString :=
  lit "\"shortcode_media\" : \x7b\"shortcode\":\"Cx1\"\x7d,"

/-- A world in which no proxy endpoint can be reached and the profile page is
`mediaPage`. -/
def bridgesDownWorld : World :=
  { bridge := fun _ _ => HttpOutcome.transportError,
    profile := fun _ => HttpOutcome.response 200 (some mediaPage),
    entryClock := fun _ _ => ⟨0⟩,
    fallbackClock := ⟨0⟩ }

/-- A media record of a still image. -/
def stillPost : JMap :=
  [(lit "shortcode", JVal.str (lit "Cx1")), (lit "is_video", JVal.bool false),
   (lit "display_url", JVal.str (lit "https://cdn.example/a.jpg"))]

/-- A media record with counts: 12.5 likes (`25 * 2 ^ (-1)`), 3 comments, taken
at second 1700000000. -/
def countedMedia : JMap :=
  [(lit "shortcode", JVal.str (lit "Cx2")),
   (lit "taken_at_timestamp", JVal.num ⟨1700000000, 0⟩),
   (lit "edge_liked_by", JVal.obj [(lit "count", JVal.num ⟨25, -1⟩)]),
   (lit "edge_media_to_comment", JVal.obj [(lit "count", JVal.num ⟨3, 0⟩)])]

/-- A full-page blob with two timeline edges, the second without `shortcode`. -/
def profileData : JMap :=
  [(lit "entry_data", JVal.obj
    [(lit "ProfilePage", JVal.arr
      [JVal.obj [(lit "graphql", JVal.obj
        [(lit "user", JVal.obj
          [(lit "edge_owner_to_timeline_media", JVal.obj
            [(lit "edges", JVal.arr
              [JVal.obj [(lit "node", JVal.obj stillPost)],
               JVal.obj [(lit "node", JVal.obj [(lit "id", JVal.str (lit "2"))])]])])])])]])])]

/-- Decoders that read every JSON fragment as `profileData`. -/
def blobDecoders : Lib :=
  { jsonUnmarshal := fun _ => some profileData, xmlUnmarshal := fun _ => none,
    parseRFC3339 := fun _ => none }

/-- A legacy page: `window._sharedData = {};`. -/
def sharedDataPage : GoString := lit "window._sharedData = \x7b\x7d;"

/-- An entry with one link of relation `alternate`. -/
def sampleEntry : AtomEntry :=
  { ID := lit "https://www.instagram.com/p/Cx1/",
    Title := lit "Hello #world",
    Link := [{ Href := lit "https://www.instagram.com/p/Cx1/", Rel := lit "alternate",
               Type_ := [] }],
    Updated := lit "2024-01-01T00:00:00Z",
    Content := { Type_ := lit "html", Text := lit "<img src=\"a.jpg\">" },
    Author := { Name := lit "nasa" } }

/-- A feed of one entry. -/
def sampleFeed : AtomFeed :=
  { Title := lit "nasa", Link := [], Updated := [], Entries := [sampleEntry] }

/-- Decoders that read every XML document as `sampleFeed`. -/
def sampleLib : Lib :=
  { jsonUnmarshal := fun _ => none,
    xmlUnmarshal := fun _ => some sampleFeed,
    parseRFC3339 := fun _ => none }

/-- A world where only the second proxy endpoint answers. -/
def secondServerWorld : World :=
  { bridge := fun server _ =>
      if server = lit "https://wtf.roflcopter.fr/rss-bridge/" then
        HttpOutcome.response 200 (some (lit "<feed/>"))
      else HttpOutcome.transportError,
    profile := fun _ => HttpOutcome.transportError,
    entryClock := fun _ _ => ⟨0⟩,
    fallbackClock := ⟨0⟩ }

/-- An entry without any link. -/
def bareEntry : AtomEntry :=
  { ID := lit "tag:1", Title := lit "Hello", Link := [], Updated := [],
    Content := { Type_ := [], Text := [] }, Author := { Name := [] } }

/-- Decoders that read every XML document as a feed of the one entry
`bareEntry`. -/
def bareLib : Lib :=
  { jsonUnmarshal := fun _ => none,
    xmlUnmarshal := fun _ => some { Title := [], Link := [], Updated := [], Entries := [bareEntry] },
    parseRFC3339 := fun _ => none }

/-- A video post whose video address is unknown but whose image address is
known. -/
def mutedVideo : Post :=
  { Post.zero with IsVideo := true, ImageURL := lit "https://cdn.example/a.jpg" }

/-! ## `rss.go`: the feed document -/

/-- The struct `Channel` of `rss.go`. `LastBuildDate` holds the instant whose
text `time.Now().Format(time.RFC1123Z)` the Go field holds. -/
structure Channel where
  Title : GoString
  Link : GoString
  Description : GoString
  Language : GoString
  LastBuildDate : Time
  Generator : GoString
  Items : List Item
  deriving DecidableEq, Repr

/-- The struct `RSS` of `rss.go` (without the `XMLName` marker). -/
structure RSS where
  Version : GoString
  Channel : Channel
  deriving DecidableEq, Repr

/-- The loop `for _, post := range posts` of `GenerateRSSFeed`; `items` is
`rss.Channel.Items`. -/
def itemsLoop : List Post → List Item → Result (List Item)
  | [], items => Result.ok items
  | post :: rest, items =>
    match createRSSItem post with
    | Result.ok item => itemsLoop rest (items ++ [item])
    | _ => Result.panic

/-- The constant `xmlHeader` of `GenerateRSSFeed`. -/
def xmlHeader : GoString := lit "<?xml version=\"1.0\" encoding=\"UTF-8\"?>\n"

/-! ## `encoding/xml`: the encoder at the types of `rss.go` -/

/-- The result `(RuneError, 1)` of `utf8.DecodeRune` at a byte that starts no
valid encoding. -/
def runeError : Nat × Nat := (0xFFFD, 1)

/-- The end of `utf8.DecodeRune` for a four-byte encoding: `p0`, `b1`, `b2` are
the bytes read, the fourth byte must lie in `0x80..0xBF`. -/
def decodeRune4 (p0 b1 b2 : Nat) : GoString → Nat × Nat
  | [] => runeError
  | c3 :: _ =>
    if c3.toNat < 0x80 ∨ 0xBF < c3.toNat then runeError
    else
      ((p0 - 0xF0) * 262144 + (b1 - 0x80) * 4096 + (b2 - 0x80) * 64 + (c3.toNat - 0x80), 4)

/-- The function `utf8.DecodeRune` from the third byte on. -/
def decodeRune3 (p0 b1 : Nat) : GoString → Nat × Nat
  | [] => runeError
  | c2 :: t2 =>
    if c2.toNat < 0x80 ∨ 0xBF < c2.toNat then runeError
    else if p0 < 0xF0 then ((p0 - 0xE0) * 4096 + (b1 - 0x80) * 64 + (c2.toNat - 0x80), 3)
    else decodeRune4 p0 b1 c2.toNat t2

/-- The function `utf8.DecodeRune` from the second byte on: that byte must lie
in the range that the first byte admits (`0xA0..0xBF` after `0xE0`,
`0x80..0x9F` after `0xED`, `0x90..0xBF` after `0xF0`, `0x80..0x8F` after `0xF4`,
else `0x80..0xBF`). -/
def decodeRune2 (p0 : Nat) : GoString → Nat × Nat
  | [] => runeError
  | c1 :: t1 =>
    if c1.toNat < (if p0 = 0xE0 then 0xA0 else if p0 = 0xF0 then 0x90 else 0x80)
        ∨ (if p0 = 0xED then 0x9F else if p0 = 0xF4 then 0x8F else 0xBF) < c1.toNat then
      runeError
    else if p0 < 0xE0 then ((p0 - 0xC0) * 64 + (c1.toNat - 0x80), 2)
    else decodeRune3 p0 c1.toNat t1

/-- The function `utf8.DecodeRune` at the head of `s`: the code point and the
number of bytes of its encoding; `(0xFFFD, 1)` for a byte that starts no valid
encoding, `(0xFFFD, 0)` for the empty string. The payload bits are added up
(`p0 & 0x1F` is `p0 - 0xC0` for the first byte of a two-byte encoding, and so
on). -/
def decodeRune : GoString → Nat × Nat
  | [] => (0xFFFD, 0)
  | c0 :: t =>
    if c0.toNat < 0x80 then (c0.toNat, 1)
    else if c0.toNat < 0xC2 ∨ 0xF4 < c0.toNat then runeError
    else decodeRune2 c0.toNat t

/-- The function `isInCharacterRange` of `encoding/xml`: the code points that
an XML document may hold. -/
def isInCharacterRange (r : Nat) : Bool :=
  r == 0x09 || r == 0x0A || r == 0x0D || (0x20 ≤ r && r ≤ 0xD7FF)
    || (0xE000 ≤ r && r ≤ 0xFFFD) || (0x10000 ≤ r && r ≤ 0x10FFFF)

/-- One round of the loop of `printer.EscapeString`: what is written for the
rune at the head of `s`, and the width of that rune. The eight special
characters are written as references, a code point outside the character
range of XML, and a byte that decodes to nothing, as U+FFFD; every other rune
is copied. -/
def escapeRune (s : GoString) : GoString × Nat :=
  let r := (decodeRune s).1
  let width := (decodeRune s).2
  if r = 34 then (lit "&#34;", width)
  else if r = 39 then (lit "&#39;", width)
  else if r = 38 then (lit "&amp;", width)
  else if r = 60 then (lit "&lt;", width)
  else if r = 62 then (lit "&gt;", width)
  else if r = 9 then (lit "&#x9;", width)
  else if r = 10 then (lit "&#xA;", width)
  else if r = 13 then (lit "&#xD;", width)
  else if isInCharacterRange r = false ∨ (r = 0xFFFD ∧ width = 1) then ([0xEF, 0xBF, 0xBD], width)
  else (s.take width, width)

/-- The loop `for i := 0; i < len(s); ` of `printer.EscapeString`; `fuel` bounds
the number of rounds. -/
def xmlEscapeLoop : Nat → GoString → GoString
  | 0, _ => []
  | _ + 1, [] => []
  | fuel + 1, c :: t =>
    (escapeRune (c :: t)).1 ++ xmlEscapeLoop fuel ((c :: t).drop (escapeRune (c :: t)).2)

/-- The method `printer.EscapeString` of `encoding/xml`, which writes the
character data and the attribute values of a marshalled document. -/
def xmlEscape (s : GoString) : GoString := xmlEscapeLoop s.length s

/-- The method `printer.writeIndent` for the indentation `"    "` at a start
tag of depth `depth`, or at the end tag of an element with child elements: a
line break and four spaces for each level. -/
def xmlIndent (depth : Nat) : GoString := 10 :: List.replicate (4 * depth) 32

/-- A string field marshalled as an element: the start tag on a new line, the
escaped text, and the end tag on the same line. -/
def xmlTextElement (depth : Nat) (name text : GoString) : GoString :=
  xmlIndent depth ++ lit "<" ++ name ++ lit ">" ++ xmlEscape text ++ lit "</" ++ name ++ lit ">"

/-- The field `Enclosure` of an item: a struct is never left out, its three
strings are attributes, and the end tag follows the start tag. -/
def xmlEnclosure (e : Enclosure) : GoString :=
  xmlIndent 3 ++ lit "<enclosure url=\"" ++ xmlEscape e.URL ++ lit "\" length=\""
    ++ xmlEscape e.Length ++ lit "\" type=\"" ++ xmlEscape e.Type_ ++ lit "\"></enclosure>"

/-- An element of the slice `Items`; `format` gives the text that the string
field `PubDate` holds. -/
def xmlItem (format : Time → GoString) (item : Item) : GoString :=
  xmlIndent 2 ++ lit "<item>"
    ++ xmlTextElement 3 (lit "title") item.Title
    ++ xmlTextElement 3 (lit "link") item.Link
    ++ xmlTextElement 3 (lit "description") item.Description
    ++ xmlTextElement 3 (lit "pubDate") (format item.PubDate)
    ++ xmlTextElement 3 (lit "guid") item.GUID
    ++ xmlEnclosure item.Enclosure
    ++ xmlIndent 2 ++ lit "</item>"

/-- The call `xml.MarshalIndent(rss, "", "    ")` at the type `RSS`: the element
`rss` with the attribute `version`, its child `channel`, the six string
fields of the channel and one element `item` for each item. No value of
these types makes the encoder fail. -/
def xmlMarshalIndent (format : Time → GoString) (rss : RSS) : Option GoString :=
  some (lit "<rss version=\"" ++ xmlEscape rss.Version ++ lit "\">"
    ++ xmlIndent 1 ++ lit "<channel>"
    ++ xmlTextElement 2 (lit "title") rss.Channel.Title
    ++ xmlTextElement 2 (lit "link") rss.Channel.Link
    ++ xmlTextElement 2 (lit "description") rss.Channel.Description
    ++ xmlTextElement 2 (lit "language") rss.Channel.Language
    ++ xmlTextElement 2 (lit "lastBuildDate") (format rss.Channel.LastBuildDate)
    ++ xmlTextElement 2 (lit "generator") rss.Channel.Generator
    ++ rss.Channel.Items.flatMap (xmlItem format)
    ++ xmlIndent 1 ++ lit "</channel>"
    ++ xmlIndent 0 ++ lit "</rss>")

/-- The function `GenerateRSSFeed` of `rss.go`; `now` is the reading of
`time.Now()` and `format t` the text of `t.Format(time.RFC1123Z)`. -/
def GenerateRSSFeed (format : Time → GoString) (posts : List Post)
    (username : GoString) (now : Time) : Result GoString :=
  let rss : RSS :=
    { Version := lit "2.0",
      Channel :=
        { Title := username ++ lit "'s Instagram Feed",
          Link := lit "https://www.instagram.com/" ++ username ++ lit "/",
          Description := lit "Latest 8 posts from @" ++ username ++ lit " Instagram account",
          Language := lit "en-us",
          LastBuildDate := now,
          Generator := lit "Instagram RSS",
          Items := [] } }
  match itemsLoop posts rss.Channel.Items with
  | Result.ok items =>
    let rss : RSS := { rss with Channel := { rss.Channel with Items := items } }
    match xmlMarshalIndent format rss with
    | none => Result.err
    | some output => Result.ok (xmlHeader ++ output)
  | _ => Result.panic

/-! ## Reading a feed document back -/

/-- A piece of an XML text: a tag (what stands between `<` and `>`) or the
character data between two tags. -/
inductive XmlToken where
  | tag (name : GoString)
  | text (data : GoString)
  deriving DecidableEq, Repr

/-- The pieces of an XML text, in order; `inTag` says whether a `<` is open,
`cur` is the piece read so far. An empty run of character data is no
piece. -/
def xmlScan : Bool → GoString → GoString → List XmlToken
  | true, _, [] => []
  | false, cur, [] => if cur = [] then [] else [XmlToken.text cur]
  | true, cur, c :: t =>
    if c = 62 then XmlToken.tag cur :: xmlScan false [] t else xmlScan true (cur ++ [c]) t
  | false, cur, c :: t =>
    if c = 60 then
      (if cur = [] then [] else [XmlToken.text cur]) ++ xmlScan true [] t
    else xmlScan false (cur ++ [c]) t

/-- The digits of a character reference as a number, `none` when a byte is no
digit of the base. -/
def parseDigits (base : Nat) : Nat → GoString → Option Nat
  | acc, [] => some acc
  | acc, c :: t =>
    let d :=
      if 48 ≤ c.toNat ∧ c.toNat ≤ 57 then c.toNat - 48
      else if 65 ≤ c.toNat ∧ c.toNat ≤ 70 then c.toNat - 55
      else if 97 ≤ c.toNat ∧ c.toNat ≤ 102 then c.toNat - 87
      else base
    if d < base then parseDigits base (acc * base + d) t else none

/-- The text that a reference `&name;` stands for: the five named references
of XML and the numeric references `&#N;` and `&#xH;`. -/
def entityText (name : GoString) : Option GoString :=
  if name = lit "lt" then some (lit "<")
  else if name = lit "gt" then some (lit ">")
  else if name = lit "amp" then some (lit "&")
  else if name = lit "apos" then some (lit "'")
  else if name = lit "quot" then some (lit "\"")
  else
    match name with
    | 35 :: 120 :: c :: digits =>
      (parseDigits 16 0 (c :: digits)).map fun n => String.utf8EncodeChar (Char.ofNat n)
    | 35 :: c :: digits =>
      (parseDigits 10 0 (c :: digits)).map fun n => String.utf8EncodeChar (Char.ofNat n)
    | _ => none

/-- Character data with its references replaced by what they stand for;
`ref` is the name of the reference being read. A `&` without `;` and an
unknown reference stay as they are. -/
def xmlUnescapeLoop : Option GoString → GoString → GoString
  | none, [] => []
  | some name, [] => 38 :: name
  | none, c :: t => if c = 38 then xmlUnescapeLoop (some []) t else c :: xmlUnescapeLoop none t
  | some name, c :: t =>
    if c = 59 then
      (match entityText name with
        | some data => data
        | none => 38 :: name ++ [59]) ++ xmlUnescapeLoop none t
    else xmlUnescapeLoop (some (name ++ [c])) t

/-- The character data that an escaped text stands for. -/
def xmlUnescape (s : GoString) : GoString := xmlUnescapeLoop none s

/-- The texts of the elements `field` that are children of an element `item`,
in document order: `inItem` says whether an `item` is open, `cur` is the text
of the open element `field`. -/
def readLoop (field : GoString) : Bool → Option GoString → List XmlToken → List GoString
  | _, _, [] => []
  | inItem, cur, XmlToken.text data :: rest =>
    match cur with
    | some acc => readLoop field inItem (some (acc ++ xmlUnescape data)) rest
    | none => readLoop field inItem none rest
  | inItem, cur, XmlToken.tag name :: rest =>
    if name = lit "item" then readLoop field true none rest
    else if name = lit "/item" then readLoop field false none rest
    else if inItem = true ∧ name = field then readLoop field inItem (some []) rest
    else if name = lit "/" ++ field then
      match cur with
      | some acc => acc :: readLoop field inItem none rest
      | none => readLoop field inItem none rest
    else readLoop field inItem cur rest

/-- Re-reading a feed document: the texts of the elements `field` of its
items. -/
def readItemFields (field : GoString) (document : GoString) : List GoString :=
  readLoop field false none (xmlScan false [] document)

/-- Re-reading a feed document: the number of its elements `item`. -/
def readItemCount (document : GoString) : Nat :=
  (xmlScan false [] document).countP fun token => token = XmlToken.tag (lit "item")

/-- A text that `printer.EscapeString` writes without a replacement character:
every byte is part of a valid UTF-8 encoding of a code point that XML may
hold. -/
def xmlLegalLoop : Nat → GoString → Bool
  | 0, _ => true
  | _ + 1, [] => true
  | fuel + 1, c :: t =>
    (isInCharacterRange (decodeRune (c :: t)).1
      && !((decodeRune (c :: t)).1 == 0xFFFD && (decodeRune (c :: t)).2 == 1))
    && xmlLegalLoop fuel ((c :: t).drop (decodeRune (c :: t)).2)

/-- The texts without a byte or code point that XML cannot hold. -/
def xmlLegal (s : GoString) : Bool := xmlLegalLoop s.length s

/-- The piece that a run of character data gives: none when the run is
empty. -/
def textToken (data : GoString) : List XmlToken :=
  if data = [] then [] else [XmlToken.text data]

/-- The pieces of a segment: character data followed by a tag. -/
def segmentTokens (seg : GoString × GoString) : List XmlToken :=
  textToken seg.1 ++ [XmlToken.tag seg.2]

/-- The text of a list of segments: each is its character data followed by
its tag between `<` and `>`. -/
def renderSegments (segs : List (GoString × GoString)) : GoString :=
  segs.flatMap fun seg => seg.1 ++ 60 :: seg.2 ++ [62]

/-- The two segments of a string field marshalled as an element. -/
def textSegments (depth : Nat) (name text : GoString) : List (GoString × GoString) :=
  [(xmlIndent depth, name), (xmlEscape text, 47 :: name)]

/-- The tag of the element `enclosure` with its three attributes. -/
def enclosureTag (e : Enclosure) : GoString :=
  lit "enclosure url=\"" ++ xmlEscape e.URL ++ lit "\" length=\""
    ++ xmlEscape e.Length ++ lit "\" type=\"" ++ xmlEscape e.Type_ ++ lit "\""

/-- The segments of a marshalled item. -/
def itemSegments (format : Time → GoString) (item : Item) : List (GoString × GoString) :=
  [(xmlIndent 2, lit "item")]
    ++ textSegments 3 (lit "title") item.Title
    ++ textSegments 3 (lit "link") item.Link
    ++ textSegments 3 (lit "description") item.Description
    ++ textSegments 3 (lit "pubDate") (format item.PubDate)
    ++ textSegments 3 (lit "guid") item.GUID
    ++ [(xmlIndent 3, enclosureTag item.Enclosure), ([], lit "/enclosure"),
        (xmlIndent 2, lit "/item")]

/-- The segments of a feed document before its items: the XML header, the
start tags of `rss` and `channel`, and the six string fields of the
channel. -/
def channelSegments (format : Time → GoString) (rss : RSS) : List (GoString × GoString) :=
  [([], lit "?xml version=\"1.0\" encoding=\"UTF-8\"?"),
   ([10], lit "rss version=\"" ++ xmlEscape rss.Version ++ lit "\""),
   (xmlIndent 1, lit "channel")]
    ++ textSegments 2 (lit "title") rss.Channel.Title
    ++ textSegments 2 (lit "link") rss.Channel.Link
    ++ textSegments 2 (lit "description") rss.Channel.Description
    ++ textSegments 2 (lit "language") rss.Channel.Language
    ++ textSegments 2 (lit "lastBuildDate") (format rss.Channel.LastBuildDate)
    ++ textSegments 2 (lit "generator") rss.Channel.Generator

/-- The segments of a feed document. -/
def documentSegments (format : Time → GoString) (rss : RSS) : List (GoString × GoString) :=
  channelSegments format rss
    ++ rss.Channel.Items.flatMap (itemSegments format)
    ++ [(xmlIndent 1, lit "/channel"), (xmlIndent 0, lit "/rss")]

/-! ## Specification-side definitions, continued -/

/-- The feed document of a channel with the given items: the value of `rss`
that `GenerateRSSFeed` hands to the marshaller. -/
def feedDocument (username : GoString) (now : Time) (items : List Item) : RSS :=
  { Version := lit "2.0",
    Channel :=
      { Title := username ++ lit "'s Instagram Feed",
        Link := lit "https://www.instagram.com/" ++ username ++ lit "/",
        Description := lit "Latest 8 posts from @" ++ username ++ lit " Instagram account",
        Language := lit "en-us",
        LastBuildDate := now,
        Generator := lit "Instagram RSS",
        Items := items } }

/-- The links of the items of a feed document, in order. -/
def itemLinks (doc : RSS) : List GoString := doc.Channel.Items.map fun item => item.Link

/-- The unique identifiers of the items of a feed document, in order. -/
def itemGUIDs (doc : RSS) : List GoString := doc.Channel.Items.map fun item => item.GUID

/-- A link counts as the permalink of its entry: its relation is `alternate`
or empty. -/
def isEntryLink (link : AtomLink) : Bool :=
  decide (link.Rel = lit "alternate" ∨ link.Rel = [])

/-! ## Sample inputs, continued -/

/-- An entry whose first link has an empty relation and whose second link has
the relation `alternate`. -/
def twoLinkEntry : AtomEntry :=
  { ID := lit "tag:2", Title := lit "Hello",
    Link := [{ Href := lit "https://example.com/self", Rel := [], Type_ := [] },
             { Href := lit "https://www.instagram.com/p/Cx1/", Rel := lit "alternate",
               Type_ := [] }],
    Updated := [], Content := { Type_ := [], Text := [] }, Author := { Name := [] } }

/-- A post whose caption has an apostrophe and no hashtag. -/
def apostrophePost : Post := { Post.zero with Caption := lit "it's" }

/-- A post whose permalink holds the control character U+0001, from the
shortcode `"\u0001"`. -/
def controlPost : Post :=
  { Post.zero with Code := [1], PostURL := lit "https://www.instagram.com/p/" ++ [1] ++ lit "/" }

/-- A post whose permalink holds the replacement character U+FFFD where
`controlPost` has U+0001. -/
def replacementPost : Post :=
  { Post.zero with
    Code := [1],
    PostURL := lit "https://www.instagram.com/p/" ++ [0xEF, 0xBF, 0xBD] ++ lit "/" }

/-- A time format for the samples: every instant is written `T`. -/
def sampleFormat : Time → GoString := fun _ => lit "T"

/-- The first line of a caption: its bytes before the first newline. -/
def firstLine (caption : GoString) : GoString := caption.takeWhile fun c => c != 10

/-- Truncation of a title line: a line longer than 50 bytes is cut after 50
bytes and the marker `...` is added. -/
def truncateTitle (line : GoString) : GoString :=
  if line.length > 50 then line.take 50 ++ lit "..." else line

/-- A token that begins with `#` or `@`. -/
def isTag (word : GoString) : Bool := startsWith word (lit "#") || startsWith word (lit "@")

/-- The white-space delimited tokens of a line that do not begin with `#` or
`@`, in their order, joined by single spaces. -/
def stripTags (line : GoString) : GoString :=
  stringsJoin (lit " ") ((stringsFields line).filter fun word => !isTag word)

/-- A run of bytes without white space, whatever follows it: at no position
of `word` does a white-space rune start when `word` is followed by the end of
the text or by a space. -/
def IsField (word : GoString) : Prop :=
  word ≠ [] ∧
  ∀ k, k < word.length → ∀ rest : GoString, (rest = [] ∨ rest.head? = some 32) →
    spaceWidth (word.drop k ++ rest) = 0

/-- A caption of 26 characters and 52 bytes. -/
def accentCaption : String := "éééééééééééééééééééééééééé"

/-- A caption of 52 characters and 53 bytes whose 50th character has two
bytes. -/
def straddleCaption : String := "aaaaaaaaaaaaaaaaaaaaaaaaaaaaaaaaaaaaaaaaaaaaaaaaaébc"

/-! ## Hashtag and mention links -/

/-- The pattern `b(\w+)` for a marker byte `b`: `hashtagRegex` is `tagRegex 35`
and `mentionRegex` is `tagRegex 64`. -/
def tagRegex (b : UInt8) : Re := Re.cat (Re.byte b) (Re.group 1 (Re.plus (Re.cls Cls.word)))

/-- The link that the body shows for the hashtag `#w`. -/
def hashtagLink (w : GoString) : GoString :=
  lit "<a href=\"https://www.instagram.com/explore/tags/" ++ w ++ lit "\">#" ++ w ++ lit "</a>"

/-- The link that the body shows for the mention `@w`. -/
def mentionLink (w : GoString) : GoString :=
  lit "<a href=\"https://www.instagram.com/" ++ w ++ lit "\">@" ++ w ++ lit "</a>"

/-- A text that is empty or begins with a byte outside `[0-9A-Za-z_]`. -/
def Stops (s : GoString) : Prop := ∀ c, s.head? = some c → Cls.word.test c = false

/-- A post whose caption has a hashtag and a mention. -/
def taggedPost : Post := { Post.zero with Caption := lit "Hello #world @friend" }

/-! ## Lemmas -/

theorem parseMediaData_eq (m : JMap) : parseMediaData m = mediaRecord m := by
  unfold parseMediaData mediaRecord captionText countOf
  generalize asString (m.get (lit "id")) = a1
  generalize asString (m.get (lit "shortcode")) = a2
  generalize asString (m.get (lit "display_url")) = a3
  generalize asBool (m.get (lit "is_video")) = a4
  generalize asString (m.get (lit "video_url")) = a5
  generalize asFloat (m.get (lit "taken_at_timestamp")) = a6
  generalize asMap (m.get (lit "edge_liked_by")) = a8
  generalize asMap (m.get (lit "edge_media_to_comment")) = a9
  generalize asMap (m.get (lit "edge_media_to_caption")) = a7
  have tail : ∀ q : Post,
      (let post := q
       let post := match a7 with
        | some captionEdges =>
          match asSlice (captionEdges.get (lit "edges")) with
          | some (first :: _) =>
            match asMap (some first) with
            | some edge =>
              match asMap (edge.get (lit "node")) with
              | some node =>
                match asString (node.get (lit "text")) with
                | some text => { post with Caption := text }
                | none => post
              | none => post
            | none => post
          | _ => post
        | none => post
       let post := match a8 with
        | some likes =>
          match asFloat (likes.get (lit "count")) with
          | some count => { post with Likes := count.toInt }
          | none => post
        | none => post
       let post := match a9 with
        | some comments =>
          match asFloat (comments.get (lit "count")) with
          | some count => { post with Comments := count.toInt }
          | none => post
        | none => post
       post) =
      { q with
        Caption := (do
          let captionEdges ← a7
          let edges ← asSlice (captionEdges.get (lit "edges"))
          let first ← edges.head?
          let edge ← asMap (some first)
          let node ← asMap (edge.get (lit "node"))
          asString (node.get (lit "text"))).getD q.Caption,
        Likes := (Option.map Float64.toInt (do
          let o ← a8
          asFloat (o.get (lit "count")))).getD q.Likes,
        Comments := (Option.map Float64.toInt (do
          let o ← a9
          asFloat (o.get (lit "count")))).getD q.Comments } := by
    intro q
    rcases a7 with _ | ce <;> rcases a8 with _ | lk <;> rcases a9 with _ | cm
    all_goals dsimp only [bind, Option.bind]
    all_goals try generalize asFloat (lk.get (lit "count")) = b8
    all_goals try generalize asFloat (cm.get (lit "count")) = b9
    all_goals try rcases b8 with _ | b8
    all_goals try rcases b9 with _ | b9
    all_goals try rfl
    all_goals generalize asSlice (ce.get (lit "edges")) = sl
    all_goals rcases sl with _ | _ | ⟨first, rest⟩
    all_goals try rfl
    all_goals dsimp only [List.head?]
    all_goals generalize asMap (some first) = ed
    all_goals rcases ed with _ | ed
    all_goals try rfl
    all_goals dsimp only []
    all_goals generalize asMap (ed.get (lit "node")) = nd
    all_goals rcases nd with _ | nd
    all_goals try rfl
    all_goals dsimp only []
    all_goals generalize asString (nd.get (lit "text")) = tx
    all_goals rcases tx with _ | tx
    all_goals rfl
  cases a1 <;> cases a2 <;> cases a3 <;> cases a4 <;> cases a5 <;> cases a6 <;>
    exact (tail _).trans rfl

theorem edgesLoop_eq (edges : List JVal) (i : Nat) (posts : List Post) :
    edgesLoop edges i posts = posts ++ (edges.take (8 - i)).filterMap edgePost := by
  induction edges generalizing i posts with
  | nil => simp [edgesLoop]
  | cons edge rest ih =>
    unfold edgesLoop
    by_cases hi : i ≥ 8
    · have : 8 - i = 0 := by omega
      simp [hi, this]
    · have h8 : 8 - i = (8 - (i + 1)) + 1 := by omega
      rw [if_neg hi, h8, List.take_succ_cons]
      simp only [List.filterMap_cons, edgePost, bind, Option.bind]
      rcases asMap (some edge) with _ | edgeMap
      · simp [ih]
      · dsimp only []
        rcases asMap (edgeMap.get (lit "node")) with _ | node
        · simp [ih]
        · dsimp only []
          by_cases hc : (parseMediaData node).Code = []
          · simp [hc, ih]
          · simp [hc, ih]

theorem parseSharedData_spec (d : JMap) :
    parseSharedData d =
      Result.ok (match timelineEdges d with
        | none => []
        | some edges => (edges.take 8).filterMap edgePost) ∧
    ∀ posts, parseSharedData d = Result.ok posts → posts.length ≤ 8 := by
  have main : parseSharedData d =
      Result.ok (match timelineEdges d with
        | none => []
        | some edges => (edges.take 8).filterMap edgePost) := by
    unfold parseSharedData timelineEdges
    dsimp only [bind, Option.bind]
    rcases asMap (d.get (lit "entry_data")) with _ | entryData
    · rfl
    dsimp only []
    rcases asSlice (entryData.get (lit "ProfilePage")) with _ | _ | ⟨first, _⟩
    · rfl
    · rfl
    dsimp only [List.head?]
    rcases asMap (some first) with _ | pageData
    · rfl
    dsimp only []
    rcases asMap (pageData.get (lit "graphql")) with _ | graphql
    · rfl
    dsimp only []
    rcases asMap (graphql.get (lit "user")) with _ | user
    · rfl
    dsimp only []
    rcases asMap (user.get (lit "edge_owner_to_timeline_media")) with _ | timeline
    · rfl
    dsimp only []
    rcases asSlice (timeline.get (lit "edges")) with _ | edges
    · rfl
    dsimp only []
    rw [edgesLoop_eq]
    rfl
  refine ⟨main, ?_⟩
  intro posts h
  rw [main] at h
  injection h with h
  subst h
  split
  · simp
  · exact (List.length_filterMap_le _ _).trans (by simp)

theorem starLoop_keepsSlots
    (step : GoString → List GoString → (GoString → List GoString → Option (List GoString × GoString)) →
      Option (List GoString × GoString))
    (hstep : KeepsSlots step) (greedy : Bool) (fuel : Nat) :
    KeepsSlots (starLoop step greedy fuel) := by
  induction fuel with
  | zero =>
    intro s caps k res h
    exact ⟨s, caps, rfl, h⟩
  | succ n ih =>
    intro s caps k res h
    unfold starLoop at h
    have more : ∀ res1, step s caps (fun s1 caps1 =>
          if s1.length < s.length then starLoop step greedy n s1 caps1 k else none) = some res1 →
        ∃ s1 caps1, caps1.length = caps.length ∧ k s1 caps1 = some res1 := by
      intro res1 h1
      obtain ⟨s1, caps1, hl, hk⟩ := hstep _ _ _ _ h1
      by_cases hlt : s1.length < s.length
      · rw [if_pos hlt] at hk
        obtain ⟨s2, caps2, hl2, hk2⟩ := ih _ _ _ _ hk
        exact ⟨s2, caps2, hl2.trans hl, hk2⟩
      · rw [if_neg hlt] at hk
        cases hk
    cases greedy
    · simp only [Bool.false_eq_true, if_false] at h
      split at h
      · rename_i r1 hr
        cases h
        exact ⟨s, caps, rfl, hr⟩
      · exact more _ h
    · simp only [if_true] at h
      split at h
      · rename_i r1 hr
        cases h
        exact more _ hr
      · exact ⟨s, caps, rfl, h⟩

theorem run_keepsSlots (r : Re) : KeepsSlots (fun s caps k => r.run s caps k) := by
  induction r with
  | eps =>
    intro s caps k res h
    exact ⟨s, caps, rfl, h⟩
  | byte b =>
    intro s caps k res h
    cases s with
    | nil => simp [Re.run] at h
    | cons c t =>
      simp only [Re.run] at h
      split at h
      · exact ⟨t, caps, rfl, h⟩
      · cases h
  | cls cl =>
    intro s caps k res h
    cases s with
    | nil => simp [Re.run] at h
    | cons c t =>
      simp only [Re.run] at h
      split at h
      · exact ⟨t, caps, rfl, h⟩
      · cases h
  | cat a b iha ihb =>
    intro s caps k res h
    simp only [Re.run] at h
    obtain ⟨s1, caps1, hl1, h1⟩ := iha _ _ _ _ h
    obtain ⟨s2, caps2, hl2, h2⟩ := ihb _ _ _ _ h1
    exact ⟨s2, caps2, hl2.trans hl1, h2⟩
  | alt a b iha ihb =>
    intro s caps k res h
    simp only [Re.run] at h
    split at h
    · rename_i r1 hr
      cases h
      exact iha _ _ _ _ hr
    · exact ihb _ _ _ _ h
  | star r greedy ih =>
    intro s caps k res h
    simp only [Re.run] at h
    exact starLoop_keepsSlots _ ih greedy _ _ _ _ _ h
  | group i r ih =>
    intro s caps k res h
    simp only [Re.run] at h
    obtain ⟨s1, caps1, hl1, h1⟩ := ih _ _ _ _ h
    exact ⟨s1, _, by simpa using hl1, h1⟩

theorem matchHere_length (r : Re) (s : GoString) (m : List GoString × GoString)
    (h : r.matchHere s = some m) : m.1.length = r.numSubexp + 1 := by
  unfold Re.matchHere at h
  obtain ⟨s1, caps1, hl, hk⟩ := run_keepsSlots r _ _ _ _ h
  cases hk
  simpa using hl

theorem search_length (r : Re) (s : GoString) (m : GoString × List GoString × GoString)
    (h : r.search s = some m) : m.2.1.length = r.numSubexp + 1 := by
  induction s generalizing m with
  | nil =>
    simp only [Re.search, Option.map_eq_some'] at h
    obtain ⟨a, ha, rfl⟩ := h
    exact matchHere_length r _ _ ha
  | cons c t ih =>
    simp only [Re.search] at h
    split at h
    · rename_i a ha
      cases h
      exact matchHere_length r _ _ ha
    · simp only [Option.map_eq_some'] at h
      obtain ⟨a, ha, rfl⟩ := h
      exact ih a ha

theorem FindStringSubmatch_length (r : Re) (s : GoString) (ms : List GoString)
    (h : r.FindStringSubmatch s = some ms) : ms.length = r.numSubexp + 1 := by
  simp only [Re.FindStringSubmatch, Option.map_eq_some'] at h
  obtain ⟨a, ha, rfl⟩ := h
  exact search_length r _ _ ha

theorem findAllLoop_length (r : Re) (fuel : Nat) (s : GoString) :
    ∀ m ∈ findAllLoop r fuel s, m.length = r.numSubexp + 1 := by
  induction fuel generalizing s with
  | zero => simp [findAllLoop]
  | succ n ih =>
    intro m hm
    unfold findAllLoop at hm
    split at hm
    · simp at hm
    · rename_i pre m0 rest hs
      have h0 := search_length r _ _ hs
      split at hm
      · rcases List.mem_cons.1 hm with rfl | hm
        · exact h0
        · exact ih _ _ hm
      · simp only [List.mem_singleton] at hm
        subst hm
        exact h0

theorem FindAllStringSubmatch_length (r : Re) (s : GoString) :
    ∀ m ∈ r.FindAllStringSubmatch s, m.length = r.numSubexp + 1 :=
  findAllLoop_length r _ _

theorem jsonPattern_numSubexp : jsonPattern.numSubexp = 0 := by decide

theorem extractPostsFromHTML_eq (lib : Lib) (html : GoString) :
    extractPostsFromHTML lib html =
      if (jsonPattern.FindAllStringSubmatch html).length ≤ 0 then extractFromSharedData lib html
      else Result.panic := by
  unfold extractPostsFromHTML
  dsimp only []
  split
  · rfl
  · rename_i hlen
    have hall := FindAllStringSubmatch_length jsonPattern html
    generalize jsonPattern.FindAllStringSubmatch html = ms at hall hlen
    cases ms with
    | nil => simp at hlen
    | cons m rest =>
      have hm : m.length = 1 := by
        have := hall m (List.mem_cons_self _ _)
        rw [jsonPattern_numSubexp] at this
        exact this
      unfold matchesLoop
      have hidx : index m 1 = Result.panic := by
        unfold index
        rw [List.get?_eq_none.2 (by omega)]
      simp [hidx]

theorem startsWith_length (s pre : GoString) (h : startsWith s pre = true) :
    pre.length ≤ s.length := by
  unfold startsWith at h
  exact (List.isPrefixOf_iff_prefix.1 h).length_le

theorem stringsIndex_bound (s sep : GoString) (i : Nat) (h : stringsIndex s sep = some i) :
    i + sep.length ≤ s.length := by
  induction s generalizing i with
  | nil =>
    unfold stringsIndex at h
    split at h
    · rename_i hs
      cases h
      simp [hs]
    · cases h
  | cons c t ih =>
    unfold stringsIndex at h
    split at h
    · rename_i hs
      cases h
      simpa using startsWith_length _ _ hs
    · simp only [Option.map_eq_some'] at h
      obtain ⟨j, hj, rfl⟩ := h
      have := ih j hj
      simp only [List.length_cons]
      omega

theorem splitLoop_ne_nil (sep : GoString) (fuel : Nat) (s : GoString) :
    splitLoop sep fuel s ≠ [] := by
  cases fuel with
  | zero => simp [splitLoop]
  | succ n =>
    unfold splitLoop
    split <;> simp

theorem stringsSplit_ne_nil (s sep : GoString) : stringsSplit s sep ≠ [] :=
  splitLoop_ne_nil _ _ _

theorem index_ok {α : Type} (xs : List α) (i : Nat) (h : i < xs.length) :
    index xs i = Result.ok (xs.get ⟨i, h⟩) := by
  unfold index
  rw [List.get?_eq_get h]

theorem index_total {α : Type} (xs : List α) (i : Nat) (h : i < xs.length) :
    ∃ x, index xs i = Result.ok x := ⟨_, index_ok xs i h⟩

theorem extractIDFromAtomEntry_total (entry : AtomEntry) :
    ∃ id, extractIDFromAtomEntry entry = Result.ok id := by
  unfold extractIDFromAtomEntry
  dsimp only []
  split
  · apply index_total
    have := List.length_pos.2 (stringsSplit_ne_nil entry.ID (lit "/"))
    omega
  · exact ⟨_, rfl⟩

theorem slice_ok (s : GoString) (lo hi : Nat) (h : lo ≤ hi ∧ hi ≤ s.length) :
    slice s lo hi = Result.ok ((s.drop lo).take (hi - lo)) := by
  unfold slice
  rw [if_pos h]

theorem extractImageURLFromContent_total (content : GoString) :
    ∃ url, extractImageURLFromContent content = Result.ok url := by
  unfold extractImageURLFromContent
  split
  · exact ⟨_, rfl⟩
  · rename_i found hfound
    have hb := stringsIndex_bound _ _ _ hfound
    dsimp only []
    rw [slice_ok _ _ _ ⟨hb, le_refl _⟩]
    dsimp only []
    split
    · exact ⟨_, rfl⟩
    · rename_i imgEnd hEnd
      have hb2 := stringsIndex_bound _ _ _ hEnd
      simp only [List.length_take, List.length_drop] at hb2
      refine ⟨_, slice_ok _ _ _ ⟨by omega, ?_⟩⟩
      have : (lit ">").length = 1 := by decide
      omega

theorem extractShortcodeFromURL_total (postURL : GoString) :
    ∃ code, extractShortcodeFromURL postURL = Result.ok code := by
  unfold extractShortcodeFromURL
  dsimp only []
  split
  · split
    · rename_i hlen
      rw [index_ok _ _ hlen]
      dsimp only []
      apply index_total
      exact List.length_pos.2 (stringsSplit_ne_nil _ _)
    · exact ⟨_, rfl⟩
  · exact ⟨_, rfl⟩

theorem convertAtomEntryToPost_total (lib : Lib) (now : Time) (entry : AtomEntry)
    (username : GoString) :
    ∃ p, convertAtomEntryToPost lib now entry username = Result.ok p ∧
      p.PostURL = extractLinkFromAtomEntry entry ∧ p.Caption = entry.Title := by
  obtain ⟨id, hid⟩ := extractIDFromAtomEntry_total entry
  obtain ⟨url, hurl⟩ := extractImageURLFromContent_total entry.Content.Text
  obtain ⟨code, hcode⟩ := extractShortcodeFromURL_total (extractLinkFromAtomEntry entry)
  unfold convertAtomEntryToPost
  simp only [bind, Result.bind, hid, hurl]
  cases lib.parseRFC3339 entry.Updated <;>
    simp only [hcode] <;> exact ⟨_, rfl, rfl, rfl⟩

theorem entriesLoop_spec (lib : Lib) (clock : Nat → Time) (entries : List AtomEntry)
    (username : GoString) (n i : Nat) (posts : List Post) (h : i + n ≤ entries.length) :
    ∃ more, entriesLoop lib clock entries username n i posts = Result.ok (posts ++ more) ∧
      more.length = n ∧
      ∀ j, j < n → ∃ e p, entries.get? (i + j) = some e ∧ more.get? j = some p ∧
        convertAtomEntryToPost lib (clock (i + j)) e username = Result.ok p := by
  induction n generalizing i posts with
  | zero => exact ⟨[], by simp [entriesLoop], rfl, by intro j hj; omega⟩
  | succ n ih =>
    have hi : i < entries.length := by omega
    obtain ⟨p, hp, _⟩ := convertAtomEntryToPost_total lib (clock i) (entries.get ⟨i, hi⟩) username
    obtain ⟨more, hmore, hlen, hall⟩ := ih (i + 1) (posts ++ [p]) (by omega)
    refine ⟨p :: more, ?_, by simp [hlen], ?_⟩
    · unfold entriesLoop
      rw [index_ok _ _ hi]
      simp only [hp, hmore, List.append_assoc, List.singleton_append]
    · intro j hj
      cases j with
      | zero => exact ⟨_, p, List.get?_eq_get hi, rfl, hp⟩
      | succ j =>
        obtain ⟨e, q, he, hq, hc⟩ := hall j (by omega)
        refine ⟨e, q, ?_, by simpa using hq, ?_⟩
        · rw [← he]; congr 1; omega
        · rw [← hc]; congr 2; omega

theorem parseAtomFeed_spec (lib : Lib) (clock : Nat → Time) (xmlData username : GoString)
    (feed : AtomFeed) (hxml : lib.xmlUnmarshal xmlData = some feed) :
    ∃ posts, parseAtomFeed lib clock xmlData username = Result.ok posts ∧
      posts.length = min feed.Entries.length 8 ∧
      ∀ j, j < min feed.Entries.length 8 → ∃ e p, feed.Entries.get? j = some e ∧
        posts.get? j = some p ∧
        convertAtomEntryToPost lib (clock j) e username = Result.ok p := by
  unfold parseAtomFeed
  rw [hxml]
  dsimp only []
  have hmin : (if feed.Entries.length < 8 then feed.Entries.length else 8)
      = min feed.Entries.length 8 := by
    split <;> omega
  rw [hmin]
  obtain ⟨more, hmore, hlen, hall⟩ :=
    entriesLoop_spec lib clock feed.Entries username (min feed.Entries.length 8) 0 []
      (by omega)
  refine ⟨more, by simpa using hmore, hlen, ?_⟩
  intro j hj
  simpa using hall j hj

theorem asString_eq_some (v : Option JVal) (s : GoString) (h : asString v = some s) :
    v = some (JVal.str s) := by
  unfold asString at h
  split at h
  · cases h; rfl
  · cases h

theorem fromShortcode_of_code (m : JMap) (h : (parseMediaData m).Code ≠ []) :
    FromShortcode (parseMediaData m) := by
  rw [parseMediaData_eq] at h ⊢
  simp only [mediaRecord] at h
  cases hs : asString (m.get (lit "shortcode")) with
  | none => simp [hs] at h
  | some s =>
    rw [hs] at h
    refine ⟨m, s, (parseMediaData_eq m).symm, asString_eq_some _ _ hs, by simpa using h, ?_, ?_⟩
    · simp [mediaRecord, hs]
    · simp [mediaRecord, hs]

theorem edgePost_fromShortcode (edge : JVal) (p : Post) (h : edgePost edge = some p) :
    FromShortcode p := by
  unfold edgePost at h
  simp only [bind, Option.bind] at h
  generalize asMap (some edge) = o1 at h
  rcases o1 with _ | edgeMap
  · cases h
  · dsimp only [] at h
    generalize asMap (edgeMap.get (lit "node")) = o2 at h
    rcases o2 with _ | node
    · cases h
    · dsimp only [] at h
      split at h
      · rename_i hc
        cases h
        exact fromShortcode_of_code _ hc
      · cases h

theorem parseSharedData_fromShortcode (d : JMap) (posts : List Post)
    (h : parseSharedData d = Result.ok posts) : ∀ p ∈ posts, FromShortcode p := by
  rw [(parseSharedData_spec d).1] at h
  injection h with h
  subst h
  intro p hp
  split at hp
  · simp at hp
  · obtain ⟨edge, _, he⟩ := List.mem_filterMap.1 hp
    exact edgePost_fromShortcode edge p he

theorem sharedDataLoop_fromShortcode (lib : Lib) (html : GoString) (pats : List Re)
    (posts : List Post) (h : sharedDataLoop lib html pats = Result.ok posts) :
    ∀ p ∈ posts, FromShortcode p := by
  induction pats with
  | nil =>
    simp only [sharedDataLoop] at h
    injection h with h
    subst h
    simp
  | cons pat rest ih =>
    unfold sharedDataLoop at h
    split at h
    · exact ih h
    · split at h
      · split at h
        · exact ih h
        · split at h
          · rename_i ps hps
            split at h
            · injection h with h
              subst h
              exact parseSharedData_fromShortcode _ _ hps
            · exact ih h
          · exact ih h
          · cases h
      · cases h

theorem matchesLoop_fromShortcode (lib : Lib) (ms : List (List GoString)) (i : Nat)
    (acc posts : List Post) (h : matchesLoop lib ms i acc = Result.ok posts)
    (hacc : ∀ p ∈ acc, FromShortcode p) : ∀ p ∈ posts, FromShortcode p := by
  induction ms generalizing i acc with
  | nil =>
    simp only [matchesLoop] at h
    injection h with h
    subst h
    exact hacc
  | cons m rest ih =>
    unfold matchesLoop at h
    split at h
    · injection h with h
      subst h
      exact hacc
    · split at h
      · split at h
        · exact ih _ _ h hacc
        · dsimp only [] at h
          split at h
          · rename_i hc
            refine ih _ _ h ?_
            intro p hp
            rcases List.mem_append.1 hp with hp | hp
            · exact hacc p hp
            · simp only [List.mem_singleton] at hp
              subst hp
              exact fromShortcode_of_code _ hc
          · exact ih _ _ h hacc
      · cases h

theorem extractPostsFromHTML_fromShortcode (lib : Lib) (html : GoString) (posts : List Post)
    (h : extractPostsFromHTML lib html = Result.ok posts) : ∀ p ∈ posts, FromShortcode p := by
  unfold extractPostsFromHTML at h
  dsimp only [] at h
  split at h
  · exact sharedDataLoop_fromShortcode lib html _ posts h
  · exact matchesLoop_fromShortcode lib _ _ _ posts h (by simp)

theorem createItemTitle_total (post : Post) : ∃ title, createItemTitle post = Result.ok title := by
  unfold createItemTitle
  have hpos := List.length_pos.2 (stringsSplit_ne_nil post.Caption (lit "\n"))
  simp only [bind, Result.bind, index_ok _ _ hpos]
  split
  · rename_i hlen
    rw [slice_ok _ _ _ ⟨Nat.zero_le _, by omega⟩]
    simp only [pure]
    split <;> exact ⟨_, rfl⟩
  · simp only [pure]
    split <;> exact ⟨_, rfl⟩

/-- The enclosure that `createRSSItem` sets for a post, by the two tests of the
source. -/
theorem createRSSItem_enclosure_eq (post : Post) :
    ∃ item, createRSSItem post = Result.ok item ∧
      item.Link = post.PostURL ∧ item.GUID = post.PostURL ∧
      item.Description = createItemDescription post ∧
      item.Enclosure =
        if post.IsVideo = true ∧ post.VideoURL ≠ [] then
          { URL := post.VideoURL, Length := lit "0", Type_ := lit "video/mp4" }
        else if post.ImageURL ≠ [] then
          { URL := post.ImageURL, Length := lit "0", Type_ := lit "image/jpeg" }
        else { URL := [], Length := [], Type_ := [] } := by
  obtain ⟨title, ht⟩ := createItemTitle_total post
  unfold createRSSItem
  simp only [bind, Result.bind, ht, pure]
  split
  · exact ⟨_, rfl, rfl, rfl, rfl, rfl⟩
  · split <;> exact ⟨_, rfl, rfl, rfl, rfl, rfl⟩

theorem lit_video_tag : lit "<video" = [60, 118, 105, 100, 101, 111] := by decide

theorem lit_img_tag : lit "<img" = [60, 105, 109, 103] := by decide

theorem lit_img_src : lit "<img src=\"" = [60, 105, 109, 103, 32, 115, 114, 99, 61, 34] := by
  decide

theorem lit_par : lit "<p>" = [60, 112, 62] := by decide

theorem lit_comments : lit "<!-- comments -->" =
    [60, 33, 45, 45, 32, 99, 111, 109, 109, 101, 110, 116, 115, 32, 45, 45, 62] := by decide

theorem parseAtomFeed_ne_panic (lib : Lib) (clock : Nat → Time) (xmlData username : GoString) :
    parseAtomFeed lib clock xmlData username ≠ Result.panic := by
  cases hx : lib.xmlUnmarshal xmlData with
  | none => simp [parseAtomFeed, hx]
  | some feed =>
    obtain ⟨posts, hp, _⟩ := parseAtomFeed_spec lib clock xmlData username feed hx
    simp [hp]

theorem tryRSSBridgeServer_ne_panic (lib : Lib) (w : World) (server username : GoString) :
    tryRSSBridgeServer lib w server username ≠ Result.panic := by
  unfold tryRSSBridgeServer
  cases w.bridge server username with
  | requestError => simp
  | transportError => simp
  | response status body =>
    dsimp only []
    split
    · simp
    · cases body with
      | none => simp
      | some xmlData => exact parseAtomFeed_ne_panic _ _ _ _

theorem serversLoop_first_success (lib : Lib) (w : World) (username server : GoString)
    (pre post : List GoString) (posts : List Post)
    (hearlier : ∀ s ∈ pre, ∀ ps, tryRSSBridgeServer lib w s username = Result.ok ps → ps = [])
    (hok : tryRSSBridgeServer lib w server username = Result.ok posts)
    (hne : posts ≠ []) :
    serversLoop lib w username (pre ++ server :: post) = Result.ok posts := by
  induction pre with
  | nil =>
    simp only [List.nil_append, serversLoop, hok]
    rw [if_pos (List.length_pos.2 hne)]
  | cons s rest ih =>
    have hrest := ih (fun s1 hs1 => hearlier s1 (List.mem_cons_of_mem _ hs1))
    simp only [List.cons_append, serversLoop]
    cases ht : tryRSSBridgeServer lib w s username with
    | ok ps =>
      have := hearlier s (List.mem_cons_self _ _) ps ht
      subst this
      simpa using hrest
    | err => simpa using hrest
    | panic => exact absurd ht (tryRSSBridgeServer_ne_panic lib w s username)

theorem generateDummyPosts_length (username : GoString) (t : Time) :
    (generateDummyPosts username t).length = 8 := rfl

theorem parseAtomFeed_length (lib : Lib) (clock : Nat → Time) (xmlData username : GoString)
    (posts : List Post) (h : parseAtomFeed lib clock xmlData username = Result.ok posts) :
    posts.length ≤ 8 := by
  cases hx : lib.xmlUnmarshal xmlData with
  | none => simp [parseAtomFeed, hx] at h
  | some feed =>
    obtain ⟨ps, hp, hlen, _⟩ := parseAtomFeed_spec lib clock xmlData username feed hx
    rw [hp] at h
    injection h with h
    subst h
    omega

theorem tryRSSBridgeServer_length (lib : Lib) (w : World) (server username : GoString)
    (posts : List Post) (h : tryRSSBridgeServer lib w server username = Result.ok posts) :
    posts.length ≤ 8 := by
  unfold tryRSSBridgeServer at h
  cases hb : w.bridge server username with
  | requestError => rw [hb] at h; cases h
  | transportError => rw [hb] at h; cases h
  | response status body =>
    rw [hb] at h
    dsimp only [] at h
    split at h
    · cases h
    · cases body with
      | none => cases h
      | some xmlData => exact parseAtomFeed_length _ _ _ _ _ h

theorem serversLoop_length (lib : Lib) (w : World) (username : GoString)
    (servers : List GoString) (posts : List Post)
    (h : serversLoop lib w username servers = Result.ok posts) :
    1 ≤ posts.length ∧ posts.length ≤ 8 := by
  induction servers with
  | nil => simp [serversLoop] at h
  | cons s rest ih =>
    unfold serversLoop at h
    split at h
    · rename_i ps hps
      split at h
      · rename_i hpos
        injection h with h
        subst h
        exact ⟨hpos, tryRSSBridgeServer_length lib w s username _ hps⟩
      · exact ih h
    · exact ih h
    · cases h

theorem sharedDataLoop_length (lib : Lib) (html : GoString) (pats : List Re)
    (posts : List Post) (h : sharedDataLoop lib html pats = Result.ok posts) :
    posts.length ≤ 8 := by
  induction pats with
  | nil =>
    simp only [sharedDataLoop] at h
    injection h with h
    subst h
    simp
  | cons pat rest ih =>
    unfold sharedDataLoop at h
    split at h
    · exact ih h
    · split at h
      · split at h
        · exact ih h
        · split at h
          · rename_i ps hps
            split at h
            · injection h with h
              subst h
              exact (parseSharedData_spec _).2 _ hps
            · exact ih h
          · exact ih h
          · cases h
      · cases h

theorem extractPostsFromHTML_length (lib : Lib) (html : GoString) (posts : List Post)
    (h : extractPostsFromHTML lib html = Result.ok posts) : posts.length ≤ 8 := by
  rw [extractPostsFromHTML_eq] at h
  split at h
  · exact sharedDataLoop_length lib html _ posts h
  · cases h

theorem directFetch_cases (lib : Lib) (w : World) (username : GoString) :
    directFetch lib w username = Result.panic ∨
      ∃ posts, directFetch lib w username = Result.ok posts ∧
        1 ≤ posts.length ∧ posts.length ≤ 8 := by
  have hd : 1 ≤ (generateDummyPosts username w.fallbackClock).length ∧
      (generateDummyPosts username w.fallbackClock).length ≤ 8 := by
    rw [generateDummyPosts_length]; omega
  unfold directFetch
  split
  · exact Or.inr ⟨_, rfl, hd⟩
  · exact Or.inr ⟨_, rfl, hd⟩
  · exact Or.inr ⟨_, rfl, hd⟩
  · split
    · rename_i ps hps
      split
      · exact Or.inr ⟨_, rfl, hd⟩
      · rename_i hne
        exact Or.inr ⟨_, rfl, by omega, extractPostsFromHTML_length lib _ _ hps⟩
    · exact Or.inr ⟨_, rfl, hd⟩
    · exact Or.inl rfl

/-- Apart from the panic, `FetchInstagramFeed` returns between 1 and 8 posts
and no error. -/
theorem FetchInstagramFeed_cases (lib : Lib) (w : World) (username : GoString) :
    FetchInstagramFeed lib w username = Result.panic ∨
      ∃ posts, FetchInstagramFeed lib w username = Result.ok posts ∧
        1 ≤ posts.length ∧ posts.length ≤ 8 := by
  unfold FetchInstagramFeed
  split
  · rename_i ps hps
    split
    · exact Or.inr ⟨_, rfl, serversLoop_length lib w username _ _ hps⟩
    · exact directFetch_cases lib w username
  · exact directFetch_cases lib w username
  · exact Or.inl rfl

theorem linkLoop_eq_nil (links : List AtomLink)
    (h : ∀ l ∈ links, l.Rel ≠ lit "alternate" ∧ l.Rel ≠ []) : linkLoop links = [] := by
  induction links with
  | nil => rfl
  | cons l rest ih =>
    unfold linkLoop
    have hl := h l (List.mem_cons_self _ _)
    rw [if_neg (by simp [hl.1, hl.2])]
    exact ih (fun l1 h1 => h l1 (List.mem_cons_of_mem _ h1))

theorem parseAtomFeed_postURLs (lib : Lib) (clock : Nat → Time) (xmlData username : GoString)
    (feed : AtomFeed) (hxml : lib.xmlUnmarshal xmlData = some feed) :
    ∃ posts, parseAtomFeed lib clock xmlData username = Result.ok posts ∧
      posts.map (fun p => p.PostURL) = (feed.Entries.take 8).map extractLinkFromAtomEntry := by
  obtain ⟨posts, hp, hlen, hall⟩ := parseAtomFeed_spec lib clock xmlData username feed hxml
  refine ⟨posts, hp, ?_⟩
  apply List.ext_get?
  intro j
  by_cases hj : j < min feed.Entries.length 8
  · obtain ⟨e, p, he, hpj, hc⟩ := hall j hj
    obtain ⟨q, hq, hurl, _⟩ := convertAtomEntryToPost_total lib (clock j) e username
    rw [hq] at hc
    injection hc with hc
    subst hc
    have h8 : j < 8 := by omega
    simp only [List.get?_eq_getElem?] at he hpj
    simp [List.getElem?_map, hpj, List.getElem?_take, h8, he, hurl]
  · have h1 : (posts.map (fun p => p.PostURL)).length ≤ j := by
      simp only [List.length_map]; omega
    have h2 : ((feed.Entries.take 8).map extractLinkFromAtomEntry).length ≤ j := by
      simp only [List.length_map, List.length_take]; omega
    rw [List.get?_eq_none.2 h1, List.get?_eq_none.2 h2]

theorem generateDummyPosts_eq (username : GoString) (t : Time) :
    generateDummyPosts username t = (List.range 8).map (dummyPost username t) := rfl

/-- On a page where only the last pattern of `extractFromSharedData` matches,
`matches[1]` panics as well: that pattern has no capturing group either. -/
theorem extractFromSharedData_panics_on_spaced_page (lib : Lib) :
    extractFromSharedData lib spacedMediaPage = Result.panic := by
  rfl

/-! ## Lemmas on the conversion of `float64` -/

theorem Float64.trunc_eq (f : Float64) : f.trunc = truncate f.value := by
  obtain ⟨m, e⟩ := f
  unfold Float64.trunc Float64.value truncate
  cases e with
  | ofNat k =>
    have hv : (m : ℚ) * (2 : ℚ) ^ (Int.ofNat k) = ((m * 2 ^ k : Int) : ℚ) := by
      simp [zpow_natCast]
    dsimp only
    rw [hv]
    split
    · exact (Int.floor_intCast _).symm
    · exact (Int.ceil_intCast _).symm
  | negSucc k =>
    have hv : (m : ℚ) * (2 : ℚ) ^ (Int.negSucc k) = (m : ℚ) / ((2 ^ (k + 1) : ℕ) : ℚ) := by
      rw [zpow_negSucc]
      push_cast
      rw [div_eq_mul_inv]
    dsimp only
    rw [hv]
    have hd : (0 : Int) < 2 ^ (k + 1) := by positivity
    have hcast : (((2 ^ (k + 1) : ℕ) : Int)) = 2 ^ (k + 1) := by push_cast; rfl
    by_cases hm : 0 ≤ m
    · have hq : (0 : ℚ) ≤ (m : ℚ) / ((2 ^ (k + 1) : ℕ) : ℚ) := by
        apply div_nonneg
        · exact_mod_cast hm
        · positivity
      rw [if_pos hq, Rat.floor_intCast_div_natCast, hcast,
        Int.tdiv_eq_ediv hm (le_of_lt hd)]
    · have hm2 : m < 0 := not_le.1 hm
      have hq : ¬ (0 : ℚ) ≤ (m : ℚ) / ((2 ^ (k + 1) : ℕ) : ℚ) := by
        rw [not_le]
        apply div_neg_of_neg_of_pos
        · exact_mod_cast hm2
        · positivity
      rw [if_neg hq]
      have hceil : ⌈(m : ℚ) / ((2 ^ (k + 1) : ℕ) : ℚ)⌉
          = -⌊((-m : Int) : ℚ) / ((2 ^ (k + 1) : ℕ) : ℚ)⌋ := by
        rw [Int.cast_neg, neg_div, Int.floor_neg, neg_neg]
      rw [hceil, Rat.floor_intCast_div_natCast, hcast,
        ← Int.tdiv_eq_ediv (by omega) (le_of_lt hd), Int.neg_tdiv, neg_neg]

theorem Float64.toInt_range (f : Float64) : -2 ^ 63 ≤ f.toInt ∧ f.toInt < 2 ^ 63 := by
  unfold Float64.toInt
  split
  · assumption
  · constructor <;> norm_num

theorem Float64.toInt_eq (f : Float64)
    (h : -2 ^ 63 ≤ truncate f.value ∧ truncate f.value < 2 ^ 63) :
    f.toInt = truncate f.value := by
  unfold Float64.toInt
  rw [Float64.trunc_eq, if_pos h]

theorem truncate_intCast (n : Int) : truncate (n : ℚ) = n := by
  unfold truncate
  split
  · exact Int.floor_intCast _
  · exact Int.ceil_intCast _

/-! ## Lemmas on the feed document, the proxy loop and the entry links -/

theorem itemsLoop_spec (posts : List Post) (items : List Item) :
    ∃ more, itemsLoop posts items = Result.ok (items ++ more) ∧
      more.length = posts.length ∧
      more.map (fun item => item.Link) = posts.map (fun p => p.PostURL) ∧
      more.map (fun item => item.GUID) = posts.map (fun p => p.PostURL) := by
  induction posts generalizing items with
  | nil => exact ⟨[], by simp [itemsLoop], rfl, rfl, rfl⟩
  | cons post rest ih =>
    obtain ⟨item, hitem, hlink, hguid, _, _⟩ := createRSSItem_enclosure_eq post
    obtain ⟨more, hmore, hlen, hl, hg⟩ := ih (items ++ [item])
    refine ⟨item :: more, ?_, by simp [hlen], by simp [hl, hlink], by simp [hg, hguid]⟩
    unfold itemsLoop
    simp only [hitem, hmore, List.append_assoc, List.singleton_append]

/-! ## Lemmas on the XML encoder and on re-reading a document -/

theorem decodeRune_cons (c0 : UInt8) (t : GoString) :
    decodeRune (c0 :: t) =
      if c0.toNat < 0x80 then (c0.toNat, 1)
      else if c0.toNat < 0xC2 ∨ 0xF4 < c0.toNat then runeError
      else decodeRune2 c0.toNat t := rfl

theorem decodeRune2_cons (p0 : Nat) (c1 : UInt8) (t1 : GoString) :
    decodeRune2 p0 (c1 :: t1) =
      if c1.toNat < (if p0 = 0xE0 then 0xA0 else if p0 = 0xF0 then 0x90 else 0x80)
          ∨ (if p0 = 0xED then 0x9F else if p0 = 0xF4 then 0x8F else 0xBF) < c1.toNat then
        runeError
      else if p0 < 0xE0 then ((p0 - 0xC0) * 64 + (c1.toNat - 0x80), 2)
      else decodeRune3 p0 c1.toNat t1 := rfl

theorem decodeRune3_cons (p0 b1 : Nat) (c2 : UInt8) (t2 : GoString) :
    decodeRune3 p0 b1 (c2 :: t2) =
      if c2.toNat < 0x80 ∨ 0xBF < c2.toNat then runeError
      else if p0 < 0xF0 then ((p0 - 0xE0) * 4096 + (b1 - 0x80) * 64 + (c2.toNat - 0x80), 3)
      else decodeRune4 p0 b1 c2.toNat t2 := rfl

theorem decodeRune4_cons (p0 b1 b2 : Nat) (c3 : UInt8) (t3 : GoString) :
    decodeRune4 p0 b1 b2 (c3 :: t3) =
      if c3.toNat < 0x80 ∨ 0xBF < c3.toNat then runeError
      else
        ((p0 - 0xF0) * 262144 + (b1 - 0x80) * 4096 + (b2 - 0x80) * 64 + (c3.toNat - 0x80), 4) :=
  rfl

theorem runeError_fst : 128 ≤ runeError.1 := by decide

theorem runeError_snd : runeError.2 = 1 := rfl

theorem decodeRune_ascii (c : UInt8) (t : GoString) (h : c.toNat < 128) :
    decodeRune (c :: t) = (c.toNat, 1) := by
  rw [decodeRune_cons, if_pos h]

theorem decodeRune4_spec (p0 b1 b2 : Nat) (t : GoString) (hp : 0xF0 ≤ p0)
    (hb : p0 = 0xF0 → 0x90 ≤ b1) (hb1 : 0x80 ≤ b1) (hb2 : 0x80 ≤ b2) :
    128 ≤ (decodeRune4 p0 b1 b2 t).1 ∧
    ((decodeRune4 p0 b1 b2 t).2 = 1 ∨
      ((decodeRune4 p0 b1 b2 t).2 = 4 ∧ ∃ c3 t3, t = c3 :: t3 ∧ 128 ≤ c3.toNat)) := by
  cases t with
  | nil => exact ⟨runeError_fst, Or.inl rfl⟩
  | cons c3 t3 =>
    rw [decodeRune4_cons]
    split_ifs with h
    · exact ⟨runeError_fst, Or.inl rfl⟩
    · refine ⟨?_, Or.inr ⟨rfl, c3, t3, rfl, by omega⟩⟩
      dsimp only
      by_cases h0 : p0 = 0xF0
      · have := hb h0
        omega
      · omega

theorem decodeRune3_spec (p0 b1 : Nat) (t : GoString) (hp : 0xE0 ≤ p0)
    (hb : p0 = 0xE0 → 0xA0 ≤ b1) (hb4 : p0 = 0xF0 → 0x90 ≤ b1) (hb1 : 0x80 ≤ b1) :
    128 ≤ (decodeRune3 p0 b1 t).1 ∧
    ((decodeRune3 p0 b1 t).2 = 1 ∨
      ((decodeRune3 p0 b1 t).2 = 3 ∧ ∃ c2 t2, t = c2 :: t2 ∧ 128 ≤ c2.toNat) ∨
      ((decodeRune3 p0 b1 t).2 = 4 ∧ ∃ c2 c3 t3, t = c2 :: c3 :: t3 ∧ 128 ≤ c2.toNat
        ∧ 128 ≤ c3.toNat)) := by
  cases t with
  | nil => exact ⟨runeError_fst, Or.inl rfl⟩
  | cons c2 t2 =>
    rw [decodeRune3_cons]
    split_ifs with h h3
    · exact ⟨runeError_fst, Or.inl rfl⟩
    · refine ⟨?_, Or.inr (Or.inl ⟨rfl, c2, t2, rfl, by omega⟩)⟩
      dsimp only
      by_cases h0 : p0 = 0xE0
      · have := hb h0
        omega
      · omega
    · obtain ⟨h1, h2⟩ := decodeRune4_spec p0 b1 c2.toNat t2 (by omega) hb4 hb1 (by omega)
      refine ⟨h1, ?_⟩
      rcases h2 with h2 | ⟨h2, c3, t3, ht, hc3⟩
      · exact Or.inl h2
      · exact Or.inr (Or.inr ⟨h2, c2, c3, t3, by rw [ht], by omega, hc3⟩)

theorem decodeRune2_spec (p0 : Nat) (t : GoString) (hp : 0xC2 ≤ p0) :
    128 ≤ (decodeRune2 p0 t).1 ∧
    ((decodeRune2 p0 t).2 = 1 ∨
      ∃ bytes rest, t = bytes ++ rest ∧ (decodeRune2 p0 t).2 = bytes.length + 1 ∧
        ∀ b ∈ bytes, 128 ≤ b.toNat) := by
  cases t with
  | nil => exact ⟨runeError_fst, Or.inl rfl⟩
  | cons c1 t1 =>
    rw [decodeRune2_cons]
    have hlo : 0x80 ≤ (if p0 = 0xE0 then 0xA0 else if p0 = 0xF0 then 0x90 else 0x80)
        ∧ (p0 = 0xE0 → (if p0 = 0xE0 then 0xA0 else if p0 = 0xF0 then 0x90 else 0x80) = 0xA0)
        ∧ (p0 = 0xF0 → (if p0 = 0xE0 then 0xA0 else if p0 = 0xF0 then 0x90 else 0x80) = 0x90) := by
      split_ifs <;> omega
    generalize (if p0 = 0xE0 then 0xA0 else if p0 = 0xF0 then 0x90 else 0x80) = lo at hlo ⊢
    generalize (if p0 = 0xED then 0x9F else if p0 = 0xF4 then 0x8F else 0xBF) = hi
    obtain ⟨hlo1, hloE, hloF⟩ := hlo
    by_cases h : c1.toNat < lo ∨ hi < c1.toNat
    · rw [if_pos h]
      exact ⟨runeError_fst, Or.inl rfl⟩
    · rw [if_neg h]
      have hc1 : 128 ≤ c1.toNat := by omega
      by_cases h2 : p0 < 0xE0
      · rw [if_pos h2]
        refine ⟨by dsimp only; omega, Or.inr ⟨[c1], t1, rfl, rfl, ?_⟩⟩
        intro b hb
        simp only [List.mem_singleton] at hb
        rw [hb]
        exact hc1
      · rw [if_neg h2]
        have hE : p0 = 0xE0 → 0xA0 ≤ c1.toNat := by
          intro h0
          have := hloE h0
          omega
        have hF : p0 = 0xF0 → 0x90 ≤ c1.toNat := by
          intro h0
          have := hloF h0
          omega
        obtain ⟨h1, h3⟩ := decodeRune3_spec p0 c1.toNat t1 (by omega) hE hF hc1
        refine ⟨h1, ?_⟩
        rcases h3 with h3 | ⟨h3, c2, t2, ht, hc2⟩ | ⟨h3, c2, c3, t3, ht, hc2, hc3⟩
        · exact Or.inl h3
        · refine Or.inr ⟨[c1, c2], t2, by rw [ht]; rfl, by rw [h3]; rfl, ?_⟩
          intro b hb
          simp only [List.mem_cons, List.mem_singleton, List.mem_nil_iff, or_false] at hb
          rcases hb with rfl | rfl <;> assumption
        · refine Or.inr ⟨[c1, c2, c3], t3, by rw [ht]; rfl, by rw [h3]; rfl, ?_⟩
          intro b hb
          simp only [List.mem_cons, List.mem_singleton, List.mem_nil_iff, or_false] at hb
          rcases hb with rfl | rfl | rfl <;> assumption

/-- A rune that starts with a byte from `0x80` on: its code point is not ASCII,
and the bytes it takes are all from `0x80` on. -/
theorem decodeRune_high (c : UInt8) (t : GoString) (h : 128 ≤ c.toNat) :
    128 ≤ (decodeRune (c :: t)).1 ∧
    ∃ bytes rest, c :: t = bytes ++ rest ∧ (decodeRune (c :: t)).2 = bytes.length ∧
      bytes ≠ [] ∧ ∀ b ∈ bytes, 128 ≤ b.toNat := by
  rw [decodeRune_cons, if_neg (by omega)]
  split_ifs with h2
  · refine ⟨runeError_fst, [c], t, rfl, rfl, List.cons_ne_nil _ _, ?_⟩
    intro b hb
    simp only [List.mem_singleton] at hb
    rw [hb]
    exact h
  · obtain ⟨h1, h3⟩ := decodeRune2_spec c.toNat t (by omega)
    refine ⟨h1, ?_⟩
    rcases h3 with h3 | ⟨bytes, rest, ht, hw, hb⟩
    · refine ⟨[c], t, rfl, h3, List.cons_ne_nil _ _, ?_⟩
      intro b hb
      simp only [List.mem_singleton] at hb
      rw [hb]
      exact h
    · refine ⟨c :: bytes, rest, by rw [ht]; rfl, by rw [hw]; rfl, List.cons_ne_nil _ _, ?_⟩
      intro b hb2
      rcases List.mem_cons.1 hb2 with rfl | hb2
      · exact h
      · exact hb b hb2

theorem toNat_eq (c : UInt8) (n : UInt8) (h : c.toNat = n.toNat) : c = n := by
  apply UInt8.eq_of_val_eq
  apply Fin.ext
  exact h

theorem xmlLegalLoop_succ (fuel : Nat) (c : UInt8) (t : GoString) :
    xmlLegalLoop (fuel + 1) (c :: t) =
      ((isInCharacterRange (decodeRune (c :: t)).1
        && !((decodeRune (c :: t)).1 == 0xFFFD && (decodeRune (c :: t)).2 == 1))
      && xmlLegalLoop fuel ((c :: t).drop (decodeRune (c :: t)).2)) := rfl

theorem xmlEscapeLoop_succ (fuel : Nat) (c : UInt8) (t : GoString) :
    xmlEscapeLoop (fuel + 1) (c :: t) =
      (escapeRune (c :: t)).1 ++ xmlEscapeLoop fuel ((c :: t).drop (escapeRune (c :: t)).2) :=
  rfl

theorem xmlUnescapeLoop_copy (bytes tail : GoString) (h : (38 : UInt8) ∉ bytes) :
    xmlUnescapeLoop none (bytes ++ tail) = bytes ++ xmlUnescapeLoop none tail := by
  induction bytes with
  | nil => rfl
  | cons c t ih =>
    have hc : c ≠ 38 := fun hc => h (by rw [hc]; exact List.mem_cons_self _ _)
    have ht := ih (fun hx => h (List.mem_cons_of_mem _ hx))
    show (if c = 38 then xmlUnescapeLoop (some []) (t ++ tail)
      else c :: xmlUnescapeLoop none (t ++ tail)) = _
    rw [if_neg hc, ht]
    rfl

theorem high_bytes_free (bytes : GoString) (h : ∀ b ∈ bytes, 128 ≤ b.toNat) (x : UInt8)
    (hx : x.toNat < 128) : x ∉ bytes := by
  intro hmem
  have := h x hmem
  omega

/-- The outcome of one round of the escaping, by the code point and the width
of the rune. -/
theorem escapeRune_eq (s : GoString) (r width : Nat) (h : decodeRune s = (r, width)) :
    escapeRune s =
      if r = 34 then (lit "&#34;", width)
      else if r = 39 then (lit "&#39;", width)
      else if r = 38 then (lit "&amp;", width)
      else if r = 60 then (lit "&lt;", width)
      else if r = 62 then (lit "&gt;", width)
      else if r = 9 then (lit "&#x9;", width)
      else if r = 10 then (lit "&#xA;", width)
      else if r = 13 then (lit "&#xD;", width)
      else if isInCharacterRange r = false ∨ (r = 0xFFFD ∧ width = 1) then
        ([0xEF, 0xBF, 0xBD], width)
      else (s.take width, width) := by
  unfold escapeRune
  rw [h]

theorem escapeRune_width (s : GoString) : (escapeRune s).2 = (decodeRune s).2 := by
  rw [escapeRune_eq s (decodeRune s).1 (decodeRune s).2 rfl]
  split_ifs <;> rfl

theorem legal_iff (r width : Nat) :
    (isInCharacterRange r && !(r == 0xFFFD && width == 1)) = true ↔
      ¬ (isInCharacterRange r = false ∨ (r = 0xFFFD ∧ width = 1)) := by
  cases hr : isInCharacterRange r
  · simp
  · simp
    tauto

/-- The text written in one round: a reference, the replacement character, or
the bytes of the rune. -/
theorem escapeRune_out (s : GoString) :
    (escapeRune s).1 ∈ [lit "&#34;", lit "&#39;", lit "&amp;", lit "&lt;", lit "&gt;",
      lit "&#x9;", lit "&#xA;", lit "&#xD;", [0xEF, 0xBF, 0xBD]] ∨
    ((escapeRune s).1 = s.take (decodeRune s).2 ∧
      (decodeRune s).1 ≠ 34 ∧ (decodeRune s).1 ≠ 39 ∧ (decodeRune s).1 ≠ 38 ∧
      (decodeRune s).1 ≠ 60 ∧ (decodeRune s).1 ≠ 62) := by
  rw [escapeRune_eq s (decodeRune s).1 (decodeRune s).2 rfl]
  by_cases h1 : (decodeRune s).1 = 34
  · rw [if_pos h1]; exact Or.inl (by simp)
  rw [if_neg h1]
  by_cases h2 : (decodeRune s).1 = 39
  · rw [if_pos h2]; exact Or.inl (by simp)
  rw [if_neg h2]
  by_cases h3 : (decodeRune s).1 = 38
  · rw [if_pos h3]; exact Or.inl (by simp)
  rw [if_neg h3]
  by_cases h4 : (decodeRune s).1 = 60
  · rw [if_pos h4]; exact Or.inl (by simp)
  rw [if_neg h4]
  by_cases h5 : (decodeRune s).1 = 62
  · rw [if_pos h5]; exact Or.inl (by simp)
  rw [if_neg h5]
  by_cases h6 : (decodeRune s).1 = 9
  · rw [if_pos h6]; exact Or.inl (by simp)
  rw [if_neg h6]
  by_cases h7 : (decodeRune s).1 = 10
  · rw [if_pos h7]; exact Or.inl (by simp)
  rw [if_neg h7]
  by_cases h8 : (decodeRune s).1 = 13
  · rw [if_pos h8]; exact Or.inl (by simp)
  rw [if_neg h8]
  by_cases h9 : isInCharacterRange (decodeRune s).1 = false
      ∨ ((decodeRune s).1 = 0xFFFD ∧ (decodeRune s).2 = 1)
  · rw [if_pos h9]; exact Or.inl (by simp)
  rw [if_neg h9]
  exact Or.inr ⟨rfl, h1, h2, h3, h4, h5⟩

theorem decodeRune_bytes (c : UInt8) (t : GoString) :
    ∃ bytes rest, c :: t = bytes ++ rest ∧ (decodeRune (c :: t)).2 = bytes.length ∧
      bytes ≠ [] ∧
      ((bytes = [c] ∧ (decodeRune (c :: t)).1 = c.toNat) ∨ ∀ b ∈ bytes, 128 ≤ b.toNat) := by
  by_cases hc : c.toNat < 128
  · have hd := decodeRune_ascii c t hc
    exact ⟨[c], t, rfl, by rw [hd]; rfl, List.cons_ne_nil _ _, Or.inl ⟨rfl, by rw [hd]⟩⟩
  · obtain ⟨_, bytes, rest, hsplit, hwidth, hne, hbytes⟩ := decodeRune_high c t (by omega)
    exact ⟨bytes, rest, hsplit, hwidth, hne, Or.inr hbytes⟩

theorem unescape_refs (tail : GoString) :
    xmlUnescapeLoop none (lit "&#34;" ++ tail) = [34] ++ xmlUnescapeLoop none tail ∧
    xmlUnescapeLoop none (lit "&#39;" ++ tail) = [39] ++ xmlUnescapeLoop none tail ∧
    xmlUnescapeLoop none (lit "&amp;" ++ tail) = [38] ++ xmlUnescapeLoop none tail ∧
    xmlUnescapeLoop none (lit "&lt;" ++ tail) = [60] ++ xmlUnescapeLoop none tail ∧
    xmlUnescapeLoop none (lit "&gt;" ++ tail) = [62] ++ xmlUnescapeLoop none tail ∧
    xmlUnescapeLoop none (lit "&#x9;" ++ tail) = [9] ++ xmlUnescapeLoop none tail ∧
    xmlUnescapeLoop none (lit "&#xA;" ++ tail) = [10] ++ xmlUnescapeLoop none tail ∧
    xmlUnescapeLoop none (lit "&#xD;" ++ tail) = [13] ++ xmlUnescapeLoop none tail :=
  ⟨rfl, rfl, rfl, rfl, rfl, rfl, rfl, rfl⟩

/-- One round of the escaping: the text written has no `<` and no `>`, the
round takes at least one byte, and when the rune is written without
replacement, reading the text back gives the bytes taken. -/
theorem escapeRune_spec (c : UInt8) (t : GoString) :
    (60 : UInt8) ∉ (escapeRune (c :: t)).1 ∧ (62 : UInt8) ∉ (escapeRune (c :: t)).1 ∧
    ∃ bytes rest, c :: t = bytes ++ rest ∧ (escapeRune (c :: t)).2 = bytes.length ∧
      bytes ≠ [] ∧
      ((isInCharacterRange (decodeRune (c :: t)).1
          && !((decodeRune (c :: t)).1 == 0xFFFD && (decodeRune (c :: t)).2 == 1)) = true →
        ∀ tail, xmlUnescapeLoop none ((escapeRune (c :: t)).1 ++ tail)
          = bytes ++ xmlUnescapeLoop none tail) := by
  obtain ⟨bytes, rest, hsplit, hwidth, hne, hbytes⟩ := decodeRune_bytes c t
  have htake : (c :: t).take (decodeRune (c :: t)).2 = bytes := by
    rw [hwidth, hsplit]
    exact List.take_left _ _
  have hw : (escapeRune (c :: t)).2 = bytes.length := by rw [escapeRune_width, hwidth]
  have heq := escapeRune_eq (c :: t) (decodeRune (c :: t)).1 (decodeRune (c :: t)).2 rfl
  -- the code point is an ASCII special exactly when the rune is that byte
  have hspecial : ∀ n : UInt8, n.toNat < 128 → (decodeRune (c :: t)).1 = n.toNat →
      bytes = [n] := by
    intro n hn hr
    rcases hbytes with ⟨hb, hr2⟩ | hb
    · rw [hr2] at hr
      rw [hb, toNat_eq c n hr]
    · exfalso
      have hc : 128 ≤ c.toNat := by
        cases bytes with
        | nil => exact absurd rfl hne
        | cons b0 bs =>
          have h0 : c = b0 := by
            have := congrArg List.head? hsplit
            simpa using this
          rw [h0]
          exact hb b0 (List.mem_cons_self _ _)
      have := (decodeRune_high c t hc).1
      omega
  have main : ((60 : UInt8) ∉ (escapeRune (c :: t)).1 ∧ (62 : UInt8) ∉ (escapeRune (c :: t)).1) ∧
      ((isInCharacterRange (decodeRune (c :: t)).1
          && !((decodeRune (c :: t)).1 == 0xFFFD && (decodeRune (c :: t)).2 == 1)) = true →
        ∀ tail, xmlUnescapeLoop none ((escapeRune (c :: t)).1 ++ tail)
          = bytes ++ xmlUnescapeLoop none tail) := by
    by_cases h1 : (decodeRune (c :: t)).1 = 34
    · have ho : (escapeRune (c :: t)).1 = lit "&#34;" := by rw [heq, if_pos h1]
      rw [ho, hspecial 34 (by decide) h1]
      exact ⟨⟨by decide, by decide⟩, fun _ tail => (unescape_refs tail).1⟩
    by_cases h2 : (decodeRune (c :: t)).1 = 39
    · have ho : (escapeRune (c :: t)).1 = lit "&#39;" := by rw [heq, if_neg h1, if_pos h2]
      rw [ho, hspecial 39 (by decide) h2]
      exact ⟨⟨by decide, by decide⟩, fun _ tail => (unescape_refs tail).2.1⟩
    by_cases h3 : (decodeRune (c :: t)).1 = 38
    · have ho : (escapeRune (c :: t)).1 = lit "&amp;" := by
        rw [heq, if_neg h1, if_neg h2, if_pos h3]
      rw [ho, hspecial 38 (by decide) h3]
      exact ⟨⟨by decide, by decide⟩, fun _ tail => (unescape_refs tail).2.2.1⟩
    by_cases h4 : (decodeRune (c :: t)).1 = 60
    · have ho : (escapeRune (c :: t)).1 = lit "&lt;" := by
        rw [heq, if_neg h1, if_neg h2, if_neg h3, if_pos h4]
      rw [ho, hspecial 60 (by decide) h4]
      exact ⟨⟨by decide, by decide⟩, fun _ tail => (unescape_refs tail).2.2.2.1⟩
    by_cases h5 : (decodeRune (c :: t)).1 = 62
    · have ho : (escapeRune (c :: t)).1 = lit "&gt;" := by
        rw [heq, if_neg h1, if_neg h2, if_neg h3, if_neg h4, if_pos h5]
      rw [ho, hspecial 62 (by decide) h5]
      exact ⟨⟨by decide, by decide⟩, fun _ tail => (unescape_refs tail).2.2.2.2.1⟩
    by_cases h6 : (decodeRune (c :: t)).1 = 9
    · have ho : (escapeRune (c :: t)).1 = lit "&#x9;" := by
        rw [heq, if_neg h1, if_neg h2, if_neg h3, if_neg h4, if_neg h5, if_pos h6]
      rw [ho, hspecial 9 (by decide) h6]
      exact ⟨⟨by decide, by decide⟩, fun _ tail => (unescape_refs tail).2.2.2.2.2.1⟩
    by_cases h7 : (decodeRune (c :: t)).1 = 10
    · have ho : (escapeRune (c :: t)).1 = lit "&#xA;" := by
        rw [heq, if_neg h1, if_neg h2, if_neg h3, if_neg h4, if_neg h5, if_neg h6, if_pos h7]
      rw [ho, hspecial 10 (by decide) h7]
      exact ⟨⟨by decide, by decide⟩, fun _ tail => (unescape_refs tail).2.2.2.2.2.2.1⟩
    by_cases h8 : (decodeRune (c :: t)).1 = 13
    · have ho : (escapeRune (c :: t)).1 = lit "&#xD;" := by
        rw [heq, if_neg h1, if_neg h2, if_neg h3, if_neg h4, if_neg h5, if_neg h6, if_neg h7,
          if_pos h8]
      rw [ho, hspecial 13 (by decide) h8]
      exact ⟨⟨by decide, by decide⟩, fun _ tail => (unescape_refs tail).2.2.2.2.2.2.2⟩
    by_cases h9 : isInCharacterRange (decodeRune (c :: t)).1 = false
        ∨ ((decodeRune (c :: t)).1 = 0xFFFD ∧ (decodeRune (c :: t)).2 = 1)
    · have ho : (escapeRune (c :: t)).1 = [0xEF, 0xBF, 0xBD] := by
        rw [heq, if_neg h1, if_neg h2, if_neg h3, if_neg h4, if_neg h5, if_neg h6, if_neg h7,
          if_neg h8, if_pos h9]
      rw [ho]
      refine ⟨⟨by decide, by decide⟩, fun hlegal _ => ?_⟩
      exact absurd h9 ((legal_iff _ _).1 hlegal)
    · have ho : (escapeRune (c :: t)).1 = bytes := by
        rw [heq, if_neg h1, if_neg h2, if_neg h3, if_neg h4, if_neg h5, if_neg h6, if_neg h7,
          if_neg h8, if_neg h9]
        exact htake
      rw [ho]
      have hfree : ∀ n : UInt8, n.toNat < 128 → (decodeRune (c :: t)).1 ≠ n.toNat →
          n ∉ bytes := by
        intro n hn hr
        rcases hbytes with ⟨hb, hr2⟩ | hb
        · rw [hb]
          intro hmem
          simp only [List.mem_singleton] at hmem
          apply hr
          rw [hr2, hmem]
        · exact high_bytes_free bytes hb n hn
      exact ⟨⟨hfree 60 (by decide) h4, hfree 62 (by decide) h5⟩,
        fun _ tail => xmlUnescapeLoop_copy bytes tail (hfree 38 (by decide) h3)⟩
  exact ⟨main.1.1, main.1.2, bytes, rest, hsplit, hw, hne, main.2⟩

theorem xmlEscapeLoop_free (fuel : Nat) :
    ∀ s : GoString, (60 : UInt8) ∉ xmlEscapeLoop fuel s ∧ (62 : UInt8) ∉ xmlEscapeLoop fuel s := by
  induction fuel with
  | zero => intro s; exact ⟨by simp [xmlEscapeLoop], by simp [xmlEscapeLoop]⟩
  | succ n ih =>
    intro s
    cases s with
    | nil => exact ⟨by simp [xmlEscapeLoop], by simp [xmlEscapeLoop]⟩
    | cons c t =>
      rw [xmlEscapeLoop_succ]
      obtain ⟨h60, h62, _⟩ := escapeRune_spec c t
      have := ih ((c :: t).drop (escapeRune (c :: t)).2)
      simp only [List.mem_append, not_or]
      exact ⟨⟨h60, this.1⟩, ⟨h62, this.2⟩⟩

/-- The escaped text has no `<` and no `>`. -/
theorem xmlEscape_free (s : GoString) :
    (60 : UInt8) ∉ xmlEscape s ∧ (62 : UInt8) ∉ xmlEscape s :=
  xmlEscapeLoop_free s.length s

theorem xmlUnescape_escapeLoop (fuel : Nat) :
    ∀ s : GoString, s.length ≤ fuel → xmlLegalLoop fuel s = true →
      xmlUnescapeLoop none (xmlEscapeLoop fuel s) = s := by
  induction fuel with
  | zero =>
    intro s hs _
    have : s = [] := List.length_eq_zero.1 (by omega)
    subst this
    rfl
  | succ n ih =>
    intro s hs hlegal
    cases s with
    | nil => rfl
    | cons c t =>
      rw [xmlLegalLoop_succ, Bool.and_eq_true] at hlegal
      obtain ⟨hhead, htail⟩ := hlegal
      obtain ⟨_, _, bytes, rest, hsplit, hw, hne, hun⟩ := escapeRune_spec c t
      rw [xmlEscapeLoop_succ, hun hhead]
      have hdrop : (c :: t).drop (escapeRune (c :: t)).2 = rest := by
        rw [hw, hsplit]
        exact List.drop_left _ _
      have hdrop2 : (c :: t).drop (decodeRune (c :: t)).2 = rest := by
        rw [← escapeRune_width]
        exact hdrop
      rw [hdrop2] at htail
      have hlen : rest.length ≤ n := by
        have h1 := congrArg List.length hsplit
        simp only [List.length_cons, List.length_append] at h1 hs
        have h2 : 0 < bytes.length := List.length_pos.2 hne
        omega
      rw [hdrop, ih rest hlen htail, hsplit]

/-- Reading an escaped text back gives the text, when it has no byte or code
point that XML cannot hold. -/
theorem xmlUnescape_escape (s : GoString) (h : xmlLegal s = true) :
    xmlUnescape (xmlEscape s) = s :=
  xmlUnescape_escapeLoop s.length s (le_refl _) h

theorem xmlScan_text (a : GoString) :
    ∀ (cur rest : GoString), (60 : UInt8) ∉ a →
      xmlScan false cur (a ++ rest) = xmlScan false (cur ++ a) rest := by
  induction a with
  | nil => intro cur rest _; simp
  | cons c t ih =>
    intro cur rest h
    have hc : c ≠ 60 := fun hc => h (by rw [hc]; exact List.mem_cons_self _ _)
    show (if c = 60 then (if cur = [] then [] else [XmlToken.text cur]) ++ xmlScan true [] (t ++ rest)
      else xmlScan false (cur ++ [c]) (t ++ rest)) = _
    rw [if_neg hc, ih (cur ++ [c]) rest (fun hx => h (List.mem_cons_of_mem _ hx))]
    simp

theorem xmlScan_tag (n : GoString) :
    ∀ (cur rest : GoString), (62 : UInt8) ∉ n →
      xmlScan true cur (n ++ 62 :: rest) = XmlToken.tag (cur ++ n) :: xmlScan false [] rest := by
  induction n with
  | nil =>
    intro cur rest _
    show (if (62 : UInt8) = 62 then XmlToken.tag cur :: xmlScan false [] rest
      else xmlScan true (cur ++ [62]) rest) = _
    simp
  | cons c t ih =>
    intro cur rest h
    have hc : c ≠ 62 := fun hc => h (by rw [hc]; exact List.mem_cons_self _ _)
    show (if c = 62 then XmlToken.tag cur :: xmlScan false [] (t ++ 62 :: rest)
      else xmlScan true (cur ++ [c]) (t ++ 62 :: rest)) = _
    rw [if_neg hc, ih (cur ++ [c]) rest (fun hx => h (List.mem_cons_of_mem _ hx))]
    simp

theorem xmlScan_open (cur rest : GoString) :
    xmlScan false cur (60 :: rest) = textToken cur ++ xmlScan true [] rest := rfl

theorem xmlScan_segment (a n rest : GoString) (ha : (60 : UInt8) ∉ a) (hn : (62 : UInt8) ∉ n) :
    xmlScan false [] ((a ++ 60 :: n ++ [62]) ++ rest) =
      segmentTokens (a, n) ++ xmlScan false [] rest := by
  have h1 : (a ++ 60 :: n ++ [62]) ++ rest = a ++ (60 :: (n ++ 62 :: rest)) := by simp
  rw [h1, xmlScan_text a [] _ ha, List.nil_append, xmlScan_open, xmlScan_tag n [] rest hn]
  simp [segmentTokens]

/-- The pieces of a rendered list of segments are the pieces of the segments,
when no character data has a `<` and no tag a `>`. -/
theorem xmlScan_render (segs : List (GoString × GoString))
    (h : ∀ seg ∈ segs, (60 : UInt8) ∉ seg.1 ∧ (62 : UInt8) ∉ seg.2) :
    xmlScan false [] (renderSegments segs) = segs.flatMap segmentTokens := by
  induction segs with
  | nil => rfl
  | cons seg rest ih =>
    have hs := h seg (List.mem_cons_self _ _)
    have hr := ih (fun s hs2 => h s (List.mem_cons_of_mem _ hs2))
    unfold renderSegments at hr ⊢
    rw [List.flatMap_cons, List.flatMap_cons, xmlScan_segment seg.1 seg.2 _ hs.1 hs.2, hr]

theorem renderSegments_append (a b : List (GoString × GoString)) :
    renderSegments (a ++ b) = renderSegments a ++ renderSegments b := by
  unfold renderSegments
  exact List.flatMap_append _ _ _

theorem renderSegments_flatMap {α : Type} (l : List α) (f : α → List (GoString × GoString)) :
    renderSegments (l.flatMap f) = l.flatMap fun x => renderSegments (f x) := by
  induction l with
  | nil => rfl
  | cons x rest ih => simp only [List.flatMap_cons, renderSegments_append, ih]

theorem renderSegments_text (depth : Nat) (name text : GoString) :
    renderSegments (textSegments depth name text) = xmlTextElement depth name text := by
  have h1 : lit "<" = [60] := by decide
  have h2 : lit ">" = [62] := by decide
  have h3 : lit "</" = [60, 47] := by decide
  simp [renderSegments, textSegments, xmlTextElement, h1, h2, h3]

theorem xmlItem_eq (format : Time → GoString) (item : Item) :
    xmlItem format item = renderSegments (itemSegments format item) := by
  have h1 : lit "<item>" = 60 :: lit "item" ++ [62] := by decide
  have h2 : lit "</item>" = 60 :: lit "/item" ++ [62] := by decide
  have h3 : lit "<enclosure url=\"" = 60 :: lit "enclosure url=\"" := by decide
  have h4 : lit "\"></enclosure>" = lit "\"" ++ [62] ++ (60 :: lit "/enclosure" ++ [62]) := by
    decide
  unfold xmlItem itemSegments xmlEnclosure enclosureTag
  simp only [renderSegments_append, renderSegments_text, h1, h2, h3, h4]
  simp [renderSegments]

theorem document_eq (format : Time → GoString) (rss : RSS) (output : GoString)
    (h : xmlMarshalIndent format rss = some output) :
    xmlHeader ++ output = renderSegments (documentSegments format rss) := by
  have h0 : xmlHeader = 60 :: lit "?xml version=\"1.0\" encoding=\"UTF-8\"?" ++ [62] ++ [10] := by
    decide
  have h1 : lit "<rss version=\"" = 60 :: lit "rss version=\"" := by decide
  have h2 : lit "\">" = lit "\"" ++ [62] := by decide
  have h3 : lit "<channel>" = 60 :: lit "channel" ++ [62] := by decide
  have h4 : lit "</channel>" = 60 :: lit "/channel" ++ [62] := by decide
  have h5 : lit "</rss>" = 60 :: lit "/rss" ++ [62] := by decide
  unfold xmlMarshalIndent at h
  injection h with h
  subst h
  unfold documentSegments channelSegments
  simp only [renderSegments_append, renderSegments_text, renderSegments_flatMap, ← xmlItem_eq,
    h0, h1, h2, h3, h4, h5]
  simp [renderSegments]

/-- The indentation has no `<`. -/
theorem xmlIndent_free (depth : Nat) : (60 : UInt8) ∉ xmlIndent depth := by
  unfold xmlIndent
  intro h
  rcases List.mem_cons.1 h with h | h
  · exact absurd h (by decide)
  · exact absurd (List.eq_of_mem_replicate h) (by decide)

theorem textSegments_valid (depth : Nat) (name text : GoString) (hn : (62 : UInt8) ∉ name) :
    ∀ seg ∈ textSegments depth name text, (60 : UInt8) ∉ seg.1 ∧ (62 : UInt8) ∉ seg.2 := by
  intro seg hseg
  simp only [textSegments, List.mem_cons, List.mem_singleton, List.mem_nil_iff, or_false] at hseg
  rcases hseg with rfl | rfl
  · exact ⟨xmlIndent_free depth, hn⟩
  · refine ⟨(xmlEscape_free text).1, ?_⟩
    intro h
    rcases List.mem_cons.1 h with h | h
    · exact absurd h (by decide)
    · exact hn h

theorem enclosureTag_free (e : Enclosure) : (62 : UInt8) ∉ enclosureTag e := by
  unfold enclosureTag
  simp only [List.mem_append, not_or]
  exact ⟨⟨⟨⟨⟨⟨by decide, (xmlEscape_free _).2⟩, by decide⟩, (xmlEscape_free _).2⟩, by decide⟩,
    (xmlEscape_free _).2⟩, by decide⟩

theorem itemSegments_valid (format : Time → GoString) (item : Item) :
    ∀ seg ∈ itemSegments format item, (60 : UInt8) ∉ seg.1 ∧ (62 : UInt8) ∉ seg.2 := by
  intro seg hseg
  unfold itemSegments at hseg
  simp only [List.mem_append] at hseg
  rcases hseg with (((((hseg | hseg) | hseg) | hseg) | hseg) | hseg) | hseg
  · simp only [List.mem_singleton] at hseg
    subst hseg
    exact ⟨xmlIndent_free 2, by decide⟩
  · exact textSegments_valid _ _ _ (by decide) seg hseg
  · exact textSegments_valid _ _ _ (by decide) seg hseg
  · exact textSegments_valid _ _ _ (by decide) seg hseg
  · exact textSegments_valid _ _ _ (by decide) seg hseg
  · exact textSegments_valid _ _ _ (by decide) seg hseg
  · simp only [List.mem_cons, List.mem_singleton, List.mem_nil_iff, or_false] at hseg
    rcases hseg with rfl | rfl | rfl
    · exact ⟨xmlIndent_free 3, enclosureTag_free _⟩
    · exact ⟨by simp, by decide⟩
    · exact ⟨xmlIndent_free 2, by decide⟩

theorem channelSegments_valid (format : Time → GoString) (rss : RSS) :
    ∀ seg ∈ channelSegments format rss, (60 : UInt8) ∉ seg.1 ∧ (62 : UInt8) ∉ seg.2 := by
  intro seg hseg
  unfold channelSegments at hseg
  simp only [List.mem_append] at hseg
  rcases hseg with (((((hseg | hseg) | hseg) | hseg) | hseg) | hseg) | hseg
  · simp only [List.mem_cons, List.mem_singleton, List.mem_nil_iff, or_false] at hseg
    rcases hseg with rfl | rfl | rfl
    · exact ⟨by simp, by decide⟩
    · refine ⟨show (60 : UInt8) ∉ [10] by decide, ?_⟩
      simp only [List.mem_append, not_or]
      exact ⟨⟨by decide, (xmlEscape_free _).2⟩, by decide⟩
    · exact ⟨xmlIndent_free 1, by decide⟩
  · exact textSegments_valid _ _ _ (by decide) seg hseg
  · exact textSegments_valid _ _ _ (by decide) seg hseg
  · exact textSegments_valid _ _ _ (by decide) seg hseg
  · exact textSegments_valid _ _ _ (by decide) seg hseg
  · exact textSegments_valid _ _ _ (by decide) seg hseg
  · exact textSegments_valid _ _ _ (by decide) seg hseg

theorem documentSegments_valid (format : Time → GoString) (rss : RSS) :
    ∀ seg ∈ documentSegments format rss, (60 : UInt8) ∉ seg.1 ∧ (62 : UInt8) ∉ seg.2 := by
  intro seg hseg
  unfold documentSegments at hseg
  simp only [List.mem_append, List.mem_flatMap] at hseg
  rcases hseg with (hseg | ⟨item, _, hseg⟩) | hseg
  · exact channelSegments_valid format rss seg hseg
  · exact itemSegments_valid format item seg hseg
  · simp only [List.mem_cons, List.mem_singleton, List.mem_nil_iff, or_false] at hseg
    rcases hseg with rfl | rfl
    · exact ⟨xmlIndent_free 1, by decide⟩
    · exact ⟨xmlIndent_free 0, by decide⟩

/-- The pieces of an emitted document. -/
theorem xmlScan_document (format : Time → GoString) (rss : RSS) (output : GoString)
    (h : xmlMarshalIndent format rss = some output) :
    xmlScan false [] (xmlHeader ++ output) =
      (documentSegments format rss).flatMap segmentTokens := by
  rw [document_eq format rss output h]
  exact xmlScan_render _ (documentSegments_valid format rss)

/-! ### The reader on the pieces -/

theorem readLoop_text_none (field : GoString) (inItem : Bool) (data : GoString)
    (rest : List XmlToken) :
    readLoop field inItem none (textToken data ++ rest) = readLoop field inItem none rest := by
  unfold textToken
  split
  · rfl
  · rfl

theorem readLoop_tag (field : GoString) (inItem : Bool) (cur : Option GoString)
    (name : GoString) (rest : List XmlToken) :
    readLoop field inItem cur (XmlToken.tag name :: rest) =
      if name = lit "item" then readLoop field true none rest
      else if name = lit "/item" then readLoop field false none rest
      else if inItem = true ∧ name = field then readLoop field inItem (some []) rest
      else if name = lit "/" ++ field then
        match cur with
        | some acc => acc :: readLoop field inItem none rest
        | none => readLoop field inItem none rest
      else readLoop field inItem cur rest := rfl

/-- Outside the items, a segment whose tag is not `item` is passed over. -/
theorem readLoop_outside (field : GoString) (seg : GoString × GoString)
    (rest : List XmlToken) (h : seg.2 ≠ lit "item") :
    readLoop field false none (segmentTokens seg ++ rest) = readLoop field false none rest := by
  unfold segmentTokens
  rw [List.append_assoc, readLoop_text_none, List.singleton_append, readLoop_tag, if_neg h]
  split_ifs <;> first | rfl | simp_all

theorem readLoop_outside_all (field : GoString) (segs : List (GoString × GoString))
    (rest : List XmlToken) (h : ∀ seg ∈ segs, seg.2 ≠ lit "item") :
    readLoop field false none (segs.flatMap segmentTokens ++ rest) =
      readLoop field false none rest := by
  induction segs with
  | nil => rfl
  | cons seg more ih =>
    rw [List.flatMap_cons, List.append_assoc,
      readLoop_outside field seg _ (h seg (List.mem_cons_self _ _)),
      ih (fun s hs => h s (List.mem_cons_of_mem _ hs))]

/-- Inside an item, a segment whose tag is neither `item`, `/item` nor the
field looked for is passed over. -/
theorem readLoop_inside (field : GoString) (seg : GoString × GoString)
    (rest : List XmlToken) (h1 : seg.2 ≠ lit "item") (h2 : seg.2 ≠ lit "/item")
    (h3 : seg.2 ≠ field) :
    readLoop field true none (segmentTokens seg ++ rest) = readLoop field true none rest := by
  unfold segmentTokens
  rw [List.append_assoc, readLoop_text_none, List.singleton_append, readLoop_tag, if_neg h1,
    if_neg h2, if_neg (fun h => h3 h.2)]
  split_ifs <;> rfl

theorem readLoop_inside_all (field : GoString) (segs : List (GoString × GoString))
    (rest : List XmlToken)
    (h : ∀ seg ∈ segs, seg.2 ≠ lit "item" ∧ seg.2 ≠ lit "/item" ∧ seg.2 ≠ field) :
    readLoop field true none (segs.flatMap segmentTokens ++ rest) =
      readLoop field true none rest := by
  induction segs with
  | nil => rfl
  | cons seg more ih =>
    have hs := h seg (List.mem_cons_self _ _)
    rw [List.flatMap_cons, List.append_assoc, readLoop_inside field seg _ hs.1 hs.2.1 hs.2.2,
      ih (fun s hs2 => h s (List.mem_cons_of_mem _ hs2))]

theorem readLoop_item_open (field data : GoString) (rest : List XmlToken) :
    readLoop field false none (segmentTokens (data, lit "item") ++ rest) =
      readLoop field true none rest := by
  unfold segmentTokens
  rw [List.append_assoc, readLoop_text_none, List.singleton_append, readLoop_tag, if_pos rfl]

theorem readLoop_item_close (field data : GoString) (rest : List XmlToken) :
    readLoop field true none (segmentTokens (data, lit "/item") ++ rest) =
      readLoop field false none rest := by
  unfold segmentTokens
  rw [List.append_assoc, readLoop_text_none, List.singleton_append, readLoop_tag,
    if_neg (show ¬ lit "/item" = lit "item" by decide), if_pos rfl]

/-- Inside an item, the element looked for gives its text, read back. -/
theorem readLoop_field (field : GoString) (depth : Nat) (text : GoString)
    (rest : List XmlToken) (h1 : field ≠ lit "item") (h2 : field ≠ lit "/item") :
    readLoop field true none ((textSegments depth field text).flatMap segmentTokens ++ rest) =
      xmlUnescape (xmlEscape text) :: readLoop field true none rest := by
  have hslash : lit "/" ++ field = 47 :: field := rfl
  have hne1 : (47 : UInt8) :: field ≠ lit "item" := by
    intro h
    have h105 : (lit "item").head? = some 105 := by decide
    have this : some (47 : UInt8) = some 105 := by
      rw [← h105]
      exact congrArg List.head? h
    exact absurd this (by decide)
  have hne2 : (47 : UInt8) :: field ≠ lit "/item" := by
    intro h
    apply h1
    have : lit "/item" = 47 :: lit "item" := by decide
    rw [this] at h
    exact List.tail_eq_of_cons_eq h
  have hne3 : ¬ (true = true ∧ (47 : UInt8) :: field = field) := by
    intro h
    have := congrArg List.length h.2
    simp at this
  have hshape : (textSegments depth field text).flatMap segmentTokens ++ rest =
      textToken (xmlIndent depth) ++ (XmlToken.tag field ::
        (textToken (xmlEscape text) ++ (XmlToken.tag (47 :: field) :: rest))) := by
    simp [textSegments, segmentTokens]
  rw [hshape, readLoop_text_none, readLoop_tag, if_neg h1, if_neg h2, if_pos ⟨rfl, rfl⟩]
  unfold textToken
  by_cases he : xmlEscape text = []
  · rw [if_pos he, List.nil_append, readLoop_tag, if_neg hne1, if_neg hne2, if_neg hne3,
      if_pos hslash.symm, he]
    rfl
  · rw [if_neg he, List.singleton_append]
    show readLoop field true (some ([] ++ xmlUnescape (xmlEscape text)))
      (XmlToken.tag (47 :: field) :: rest) = _
    rw [readLoop_tag, if_neg hne1, if_neg hne2, if_neg hne3, if_pos hslash.symm]
    rfl

theorem enclosureTag_ne (e : Enclosure) (name : GoString) (h : name.head? ≠ some 101) :
    enclosureTag e ≠ name := by
  intro heq
  apply h
  rw [← heq]
  rfl

theorem textSegments_skip (field : GoString) (depth : Nat) (name text : GoString)
    (h1 : name ≠ lit "item") (h2 : name ≠ lit "/item") (h3 : name ≠ field)
    (h4 : (47 : UInt8) :: name ≠ lit "/item") (h5 : (47 : UInt8) :: name ≠ field) :
    ∀ seg ∈ textSegments depth name text,
      seg.2 ≠ lit "item" ∧ seg.2 ≠ lit "/item" ∧ seg.2 ≠ field := by
  intro seg hseg
  simp only [textSegments, List.mem_cons, List.mem_singleton, List.mem_nil_iff, or_false] at hseg
  rcases hseg with rfl | rfl
  · exact ⟨h1, h2, h3⟩
  · refine ⟨?_, h4, h5⟩
    intro h
    have h105 : (lit "item").head? = some 105 := by decide
    have this : some (47 : UInt8) = some 105 := by
      rw [← h105]
      exact congrArg List.head? h
    exact absurd this (by decide)

/-- The reader on the pieces of one item, for the element `link`. -/
theorem readLoop_item_link (format : Time → GoString) (item : Item) (rest : List XmlToken) :
    readLoop (lit "link") false none ((itemSegments format item).flatMap segmentTokens ++ rest) =
      xmlUnescape (xmlEscape item.Link) :: readLoop (lit "link") false none rest := by
  unfold itemSegments
  simp only [List.flatMap_append, List.append_assoc, List.flatMap_cons, List.flatMap_nil,
    List.append_nil]
  rw [readLoop_item_open,
    readLoop_inside_all _ (textSegments 3 (lit "title") item.Title) _
      (textSegments_skip _ _ _ _ (by decide) (by decide) (by decide) (by decide) (by decide)),
    readLoop_field _ _ _ _ (by decide) (by decide),
    readLoop_inside_all _ (textSegments 3 (lit "description") item.Description) _
      (textSegments_skip _ _ _ _ (by decide) (by decide) (by decide) (by decide) (by decide)),
    readLoop_inside_all _ (textSegments 3 (lit "pubDate") (format item.PubDate)) _
      (textSegments_skip _ _ _ _ (by decide) (by decide) (by decide) (by decide) (by decide)),
    readLoop_inside_all _ (textSegments 3 (lit "guid") item.GUID) _
      (textSegments_skip _ _ _ _ (by decide) (by decide) (by decide) (by decide) (by decide)),
    readLoop_inside _ (xmlIndent 3, enclosureTag item.Enclosure) _
      (enclosureTag_ne _ _ (by decide)) (enclosureTag_ne _ _ (by decide))
      (enclosureTag_ne _ _ (by decide)),
    readLoop_inside _ ([], lit "/enclosure") _ (by decide) (by decide) (by decide),
    readLoop_item_close]

/-- The reader on the pieces of one item, for the element `guid`. -/
theorem readLoop_item_guid (format : Time → GoString) (item : Item) (rest : List XmlToken) :
    readLoop (lit "guid") false none ((itemSegments format item).flatMap segmentTokens ++ rest) =
      xmlUnescape (xmlEscape item.GUID) :: readLoop (lit "guid") false none rest := by
  unfold itemSegments
  simp only [List.flatMap_append, List.append_assoc, List.flatMap_cons, List.flatMap_nil,
    List.append_nil]
  rw [readLoop_item_open,
    readLoop_inside_all _ (textSegments 3 (lit "title") item.Title) _
      (textSegments_skip _ _ _ _ (by decide) (by decide) (by decide) (by decide) (by decide)),
    readLoop_inside_all _ (textSegments 3 (lit "link") item.Link) _
      (textSegments_skip _ _ _ _ (by decide) (by decide) (by decide) (by decide) (by decide)),
    readLoop_inside_all _ (textSegments 3 (lit "description") item.Description) _
      (textSegments_skip _ _ _ _ (by decide) (by decide) (by decide) (by decide) (by decide)),
    readLoop_inside_all _ (textSegments 3 (lit "pubDate") (format item.PubDate)) _
      (textSegments_skip _ _ _ _ (by decide) (by decide) (by decide) (by decide) (by decide)),
    readLoop_field _ _ _ _ (by decide) (by decide),
    readLoop_inside _ (xmlIndent 3, enclosureTag item.Enclosure) _
      (enclosureTag_ne _ _ (by decide)) (enclosureTag_ne _ _ (by decide))
      (enclosureTag_ne _ _ (by decide)),
    readLoop_inside _ ([], lit "/enclosure") _ (by decide) (by decide) (by decide),
    readLoop_item_close]

theorem textSegments_no_item (depth : Nat) (name text : GoString) (h1 : name ≠ lit "item") :
    ∀ seg ∈ textSegments depth name text, seg.2 ≠ lit "item" := by
  intro seg hseg
  simp only [textSegments, List.mem_cons, List.mem_singleton, List.mem_nil_iff, or_false] at hseg
  rcases hseg with rfl | rfl
  · exact h1
  · intro h
    have h105 : (lit "item").head? = some 105 := by decide
    have this : some (47 : UInt8) = some 105 := by
      rw [← h105]
      exact congrArg List.head? h
    exact absurd this (by decide)

theorem channelSegments_no_item (format : Time → GoString) (rss : RSS) :
    ∀ seg ∈ channelSegments format rss, seg.2 ≠ lit "item" := by
  intro seg hseg
  unfold channelSegments at hseg
  simp only [List.mem_append] at hseg
  rcases hseg with (((((hseg | hseg) | hseg) | hseg) | hseg) | hseg) | hseg
  · simp only [List.mem_cons, List.mem_singleton, List.mem_nil_iff, or_false] at hseg
    rcases hseg with rfl | rfl | rfl
    · show lit "?xml version=\"1.0\" encoding=\"UTF-8\"?" ≠ lit "item"
      decide
    · intro h
      have h105 : (lit "item").head? = some 105 := by decide
      have this : some (114 : UInt8) = some 105 := by
        rw [← h105]
        exact congrArg List.head? h
      exact absurd this (by decide)
    · show lit "channel" ≠ lit "item"
      decide
  · exact textSegments_no_item _ _ _ (by decide) seg hseg
  · exact textSegments_no_item _ _ _ (by decide) seg hseg
  · exact textSegments_no_item _ _ _ (by decide) seg hseg
  · exact textSegments_no_item _ _ _ (by decide) seg hseg
  · exact textSegments_no_item _ _ _ (by decide) seg hseg
  · exact textSegments_no_item _ _ _ (by decide) seg hseg

theorem readLoop_items (field : GoString) (format : Time → GoString) (get : Item → GoString)
    (hitem : ∀ (item : Item) (rest : List XmlToken),
      readLoop field false none ((itemSegments format item).flatMap segmentTokens ++ rest) =
        xmlUnescape (xmlEscape (get item)) :: readLoop field false none rest)
    (items : List Item) (rest : List XmlToken) :
    readLoop field false none
        ((items.flatMap (itemSegments format)).flatMap segmentTokens ++ rest) =
      items.map (fun item => xmlUnescape (xmlEscape (get item)))
        ++ readLoop field false none rest := by
  induction items with
  | nil => rfl
  | cons item more ih =>
    rw [List.flatMap_cons, List.flatMap_append, List.append_assoc, hitem, ih]
    rfl

/-- The reader on an emitted document, for a field of the items. -/
theorem readItemFields_document (field : GoString) (format : Time → GoString)
    (get : Item → GoString)
    (hitem : ∀ (item : Item) (rest : List XmlToken),
      readLoop field false none ((itemSegments format item).flatMap segmentTokens ++ rest) =
        xmlUnescape (xmlEscape (get item)) :: readLoop field false none rest)
    (rss : RSS) (output : GoString) (h : xmlMarshalIndent format rss = some output) :
    readItemFields field (xmlHeader ++ output) =
      rss.Channel.Items.map fun item => xmlUnescape (xmlEscape (get item)) := by
  unfold readItemFields
  rw [xmlScan_document format rss output h]
  unfold documentSegments
  rw [List.flatMap_append, List.flatMap_append, List.append_assoc,
    readLoop_outside_all field _ _ (channelSegments_no_item format rss),
    readLoop_items field format get hitem]
  have htail : readLoop field false none
      ([(xmlIndent 1, lit "/channel"), (xmlIndent 0, lit "/rss")].flatMap segmentTokens) = [] := by
    have := readLoop_outside_all field [(xmlIndent 1, lit "/channel"), (xmlIndent 0, lit "/rss")]
      [] (by
        intro seg hseg
        simp only [List.mem_cons, List.mem_singleton, List.mem_nil_iff, or_false] at hseg
        rcases hseg with rfl | rfl
        · show lit "/channel" ≠ lit "item"
          decide
        · show lit "/rss" ≠ lit "item"
          decide)
    rw [List.append_nil] at this
    rw [this]
    rfl
  rw [htail, List.append_nil]

theorem countP_segmentTokens (segs : List (GoString × GoString)) :
    (segs.flatMap segmentTokens).countP (fun token => token = XmlToken.tag (lit "item")) =
      segs.countP fun seg => seg.2 = lit "item" := by
  induction segs with
  | nil => rfl
  | cons seg more ih =>
    rw [List.flatMap_cons, List.countP_append, ih, List.countP_cons]
    have h1 : (segmentTokens seg).countP (fun token => token = XmlToken.tag (lit "item")) =
        if seg.2 = lit "item" then 1 else 0 := by
      unfold segmentTokens textToken
      by_cases hd : seg.1 = [] <;> by_cases hn : seg.2 = lit "item" <;>
        simp [hd, hn, List.countP_cons]
    rw [h1]
    simp only [decide_eq_true_eq]
    omega

theorem countP_eq_zero_of_no_item (segs : List (GoString × GoString))
    (h : ∀ seg ∈ segs, seg.2 ≠ lit "item") :
    segs.countP (fun seg => seg.2 = lit "item") = 0 := by
  rw [List.countP_eq_zero]
  intro seg hseg
  simpa using h seg hseg

theorem countP_textSegments (depth : Nat) (name text : GoString) (h1 : name ≠ lit "item") :
    (textSegments depth name text).countP (fun seg => seg.2 = lit "item") = 0 :=
  countP_eq_zero_of_no_item _ (textSegments_no_item depth name text h1)

theorem countP_itemSegments (format : Time → GoString) (item : Item) :
    (itemSegments format item).countP (fun seg => seg.2 = lit "item") = 1 := by
  unfold itemSegments
  simp only [List.countP_append, countP_textSegments _ (lit "title") _ (by decide),
    countP_textSegments _ (lit "link") _ (by decide),
    countP_textSegments _ (lit "description") _ (by decide),
    countP_textSegments _ (lit "pubDate") _ (by decide),
    countP_textSegments _ (lit "guid") _ (by decide)]
  have htail : [(xmlIndent 3, enclosureTag item.Enclosure), (([] : GoString), lit "/enclosure"),
      (xmlIndent 2, lit "/item")].countP (fun seg => seg.2 = lit "item") = 0 := by
    apply countP_eq_zero_of_no_item
    intro seg hseg
    simp only [List.mem_cons, List.mem_singleton, List.mem_nil_iff, or_false] at hseg
    rcases hseg with rfl | rfl | rfl
    · exact enclosureTag_ne _ _ (by decide)
    · show lit "/enclosure" ≠ lit "item"
      decide
    · show lit "/item" ≠ lit "item"
      decide
  rw [htail]
  simp

/-- The reader counts one item for each item of the document. -/
theorem readItemCount_document (format : Time → GoString) (rss : RSS) (output : GoString)
    (h : xmlMarshalIndent format rss = some output) :
    readItemCount (xmlHeader ++ output) = rss.Channel.Items.length := by
  unfold readItemCount
  rw [xmlScan_document format rss output h, countP_segmentTokens]
  unfold documentSegments
  rw [List.countP_append, List.countP_append,
    countP_eq_zero_of_no_item _ (channelSegments_no_item format rss)]
  have htail : [(xmlIndent 1, lit "/channel"), (xmlIndent 0, lit "/rss")].countP
      (fun seg => seg.2 = lit "item") = 0 := by
    apply countP_eq_zero_of_no_item
    intro seg hseg
    simp only [List.mem_cons, List.mem_singleton, List.mem_nil_iff, or_false] at hseg
    rcases hseg with rfl | rfl
    · show lit "/channel" ≠ lit "item"
      decide
    · show lit "/rss" ≠ lit "item"
      decide
  rw [htail]
  have hitems : ∀ items : List Item,
      (items.flatMap (itemSegments format)).countP (fun seg => seg.2 = lit "item")
        = items.length := by
    intro items
    induction items with
    | nil => rfl
    | cons item more ih =>
      rw [List.flatMap_cons, List.countP_append, countP_itemSegments, ih, List.length_cons]
      omega
  rw [hitems]
  omega

/-- The result of `GenerateRSSFeed`: the header and the marshalled document of
the items of the posts. -/
theorem GenerateRSSFeed_eq (format : Time → GoString) (posts : List Post)
    (username : GoString) (now : Time) :
    ∃ items output,
      GenerateRSSFeed format posts username now = Result.ok (xmlHeader ++ output) ∧
      xmlMarshalIndent format (feedDocument username now items) = some output ∧
      items.length = posts.length ∧
      items.map (fun item => item.Link) = posts.map (fun p => p.PostURL) ∧
      items.map (fun item => item.GUID) = posts.map (fun p => p.PostURL) := by
  obtain ⟨more, hmore, hlen, hl, hg⟩ := itemsLoop_spec posts []
  simp only [List.nil_append] at hmore
  refine ⟨more, _, ?_, rfl, hlen, hl, hg⟩
  unfold GenerateRSSFeed
  simp only [hmore]
  rfl

/-- Re-reading the result of `GenerateRSSFeed`: as many items as posts, and the
links and unique identifiers are the permalinks written and read back. -/
theorem GenerateRSSFeed_read (format : Time → GoString) (posts : List Post)
    (username : GoString) (now : Time) :
    ∃ text, GenerateRSSFeed format posts username now = Result.ok text ∧
      readItemCount text = posts.length ∧
      readItemFields (lit "link") text =
        posts.map (fun p => xmlUnescape (xmlEscape p.PostURL)) ∧
      readItemFields (lit "guid") text =
        posts.map (fun p => xmlUnescape (xmlEscape p.PostURL)) := by
  obtain ⟨items, output, hgen, hout, hlen, hl, hg⟩ :=
    GenerateRSSFeed_eq format posts username now
  refine ⟨_, hgen, ?_, ?_, ?_⟩
  · rw [readItemCount_document format _ output hout]
    exact hlen
  · rw [readItemFields_document (lit "link") format (fun item => item.Link)
      (readLoop_item_link format) _ output hout]
    show items.map (fun item => xmlUnescape (xmlEscape item.Link)) = _
    have := congrArg (List.map fun u => xmlUnescape (xmlEscape u)) hl
    simpa [List.map_map, Function.comp] using this
  · rw [readItemFields_document (lit "guid") format (fun item => item.GUID)
      (readLoop_item_guid format) _ output hout]
    show items.map (fun item => xmlUnescape (xmlEscape item.GUID)) = _
    have := congrArg (List.map fun u => xmlUnescape (xmlEscape u)) hg
    simpa [List.map_map, Function.comp] using this

theorem linkLoop_eq_find (links : List AtomLink) :
    linkLoop links = ((links.find? isEntryLink).map fun l => l.Href).getD [] := by
  induction links with
  | nil => rfl
  | cons l rest ih =>
    unfold linkLoop
    by_cases h : l.Rel = lit "alternate" ∨ l.Rel = []
    · rw [if_pos h]
      simp [List.find?, isEntryLink, h]
    · rw [if_neg h, ih]
      simp [List.find?, isEntryLink, h]

theorem serversLoop_err_iff (lib : Lib) (w : World) (username : GoString)
    (servers : List GoString) :
    serversLoop lib w username servers = Result.err ↔
      ∀ s ∈ servers, ∀ ps, tryRSSBridgeServer lib w s username = Result.ok ps → ps = [] := by
  induction servers with
  | nil => simp [serversLoop]
  | cons s rest ih =>
    unfold serversLoop
    cases ht : tryRSSBridgeServer lib w s username with
    | ok ps =>
      dsimp only []
      by_cases hp : ps.length > 0
      · rw [if_pos hp]
        constructor
        · intro h; cases h
        · intro h
          have := h s (List.mem_cons_self _ _) ps ht
          subst this
          simp at hp
      · rw [if_neg hp, ih]
        have hnil : ps = [] := List.length_eq_zero.1 (by omega)
        constructor
        · intro h s1 hs1 ps1 h1
          rcases List.mem_cons.1 hs1 with rfl | hs1
          · rw [ht] at h1
            injection h1 with h1
            rw [← h1, hnil]
          · exact h s1 hs1 ps1 h1
        · intro h s1 hs1
          exact h s1 (List.mem_cons_of_mem _ hs1)
    | err =>
      dsimp only []
      rw [ih]
      constructor
      · intro h s1 hs1 ps1 h1
        rcases List.mem_cons.1 hs1 with rfl | hs1
        · rw [ht] at h1; cases h1
        · exact h s1 hs1 ps1 h1
      · intro h s1 hs1
        exact h s1 (List.mem_cons_of_mem _ hs1)
    | panic => exact absurd ht (tryRSSBridgeServer_ne_panic lib w s username)

/-! ## Lemmas on `strings.Index` and the image tag -/

theorem startsWith_iff (s pre : GoString) : startsWith s pre = true ↔ pre <+: s := by
  unfold startsWith
  exact List.isPrefixOf_iff_prefix

theorem stringsIndex_none_iff (s sep : GoString) :
    stringsIndex s sep = none ↔ ¬ sep <:+: s := by
  induction s with
  | nil =>
    unfold stringsIndex
    by_cases h : sep = []
    · simp [h]
    · simp [h, List.infix_nil]
  | cons c t ih =>
    unfold stringsIndex
    rw [List.infix_cons_iff]
    by_cases hs : startsWith (c :: t) sep = true
    · rw [if_pos hs]
      simp [(startsWith_iff _ _).1 hs]
    · rw [if_neg hs]
      have hp : ¬ sep <+: c :: t := fun h => hs ((startsWith_iff _ _).2 h)
      simp [ih, hp]

theorem stringsIndex_some_spec (s sep : GoString) (i : Nat) (h : stringsIndex s sep = some i) :
    s = s.take i ++ sep ++ s.drop (i + sep.length) ∧
    ∀ a b, s.take i ++ sep = a ++ sep ++ b → b = [] := by
  induction s generalizing i with
  | nil =>
    unfold stringsIndex at h
    split at h
    · rename_i hs
      cases h
      subst hs
      refine ⟨by simp, ?_⟩
      intro a b hab
      have := congrArg List.length hab
      simp only [List.take_nil, List.append_nil, List.length_nil, List.length_append,
        List.nil_append] at this
      exact List.length_eq_zero.1 (by omega)
    · cases h
  | cons c t ih =>
    unfold stringsIndex at h
    split at h
    · rename_i hs
      cases h
      obtain ⟨r, hr⟩ := (startsWith_iff _ _).1 hs
      refine ⟨?_, ?_⟩
      · simp only [List.take_zero, List.nil_append, Nat.zero_add]
        rw [← hr]
        simp
      · intro a b hab
        have := congrArg List.length hab
        simp only [List.take_zero, List.nil_append, List.length_append] at this
        exact List.length_eq_zero.1 (by omega)
    · rename_i hs
      simp only [Option.map_eq_some'] at h
      obtain ⟨j, hj, rfl⟩ := h
      obtain ⟨h1, h2⟩ := ih j hj
      refine ⟨?_, ?_⟩
      · simp only [List.take_succ_cons, List.cons_append]
        rw [show j + 1 + sep.length = (j + sep.length) + 1 by omega, List.drop_succ_cons]
        exact congrArg (List.cons c) h1
      · intro a b hab
        simp only [List.take_succ_cons, List.cons_append] at hab
        cases a with
        | nil =>
          exfalso
          apply hs
          rw [startsWith_iff]
          simp only [List.nil_append] at hab
          have hpre : sep <+: c :: (List.take j t ++ sep) := ⟨b, hab.symm⟩
          have hpre2 : c :: (List.take j t ++ sep) <+: c :: t := by
            refine ⟨List.drop (j + sep.length) t, ?_⟩
            rw [List.cons_append]
            exact congrArg (List.cons c) h1.symm
          exact hpre.trans hpre2
        | cons x a1 =>
          simp only [List.cons_append, List.cons.injEq] at hab
          exact h2 a1 b hab.2

/-- What `extractImageURLFromContent` returns, case by case. -/
theorem extractImageURLFromContent_cases (content : GoString) :
    ∃ r, extractImageURLFromContent content = Result.ok r ∧
      ((¬ lit "<img" <:+: content ∧ r = []) ∨
       ∃ pre rest, content = pre ++ lit "<img" ++ rest ∧
         (∀ a b, pre ++ lit "<img" = a ++ lit "<img" ++ b → b = []) ∧
         ((¬ lit ">" <:+: rest ∧ r = []) ∨
          ∃ post, rest = r ++ lit ">" ++ post ∧ ¬ lit ">" <:+: r)) := by
  unfold extractImageURLFromContent
  cases hfound : stringsIndex content (lit "<img") with
  | none =>
    exact ⟨[], rfl, Or.inl ⟨(stringsIndex_none_iff _ _).1 hfound, rfl⟩⟩
  | some found =>
    have hb := stringsIndex_bound _ _ _ hfound
    obtain ⟨hsplit, hfirst⟩ := stringsIndex_some_spec _ _ _ hfound
    dsimp only []
    rw [slice_ok _ _ _ ⟨hb, le_refl _⟩]
    dsimp only []
    have htail : List.take (content.length - (found + (lit "<img").length))
        (List.drop (found + (lit "<img").length) content)
        = List.drop (found + (lit "<img").length) content := by
      apply List.take_of_length_le
      simp
    rw [htail]
    cases hEnd : stringsIndex (List.drop (found + (lit "<img").length) content) (lit ">") with
    | none =>
      refine ⟨[], rfl, Or.inr ⟨_, _, hsplit, hfirst, Or.inl ⟨?_, rfl⟩⟩⟩
      exact (stringsIndex_none_iff _ _).1 hEnd
    | some imgEnd =>
      have hb2 := stringsIndex_bound _ _ _ hEnd
      obtain ⟨hsplit2, hfirst2⟩ := stringsIndex_some_spec _ _ _ hEnd
      simp only [List.length_drop] at hb2
      have hlen1 : (lit ">").length = 1 := by decide
      dsimp only []
      rw [slice_ok _ _ _ ⟨by omega, by omega⟩]
      have hr : List.take (found + (lit "<img").length + imgEnd - (found + (lit "<img").length))
          (List.drop (found + (lit "<img").length) content)
          = List.take imgEnd (List.drop (found + (lit "<img").length) content) := by
        congr 1; omega
      rw [hr]
      refine ⟨_, rfl, Or.inr ⟨_, _, hsplit, hfirst, Or.inr ⟨_, hsplit2, ?_⟩⟩⟩
      intro hin
      obtain ⟨a, b, hab⟩ := hin
      have := hfirst2 a (b ++ lit ">") (by rw [← hab]; simp [List.append_assoc])
      simp at this
      exact absurd this.2 (by decide)

/-! ## Lemmas on permalinks -/

theorem stringsIndex_append_right (s sep b : GoString) (i : Nat)
    (h : stringsIndex s sep = some i) : stringsIndex (s ++ b) sep = some i := by
  induction s generalizing i with
  | nil =>
    unfold stringsIndex at h
    split at h
    · rename_i hs
      cases h
      subst hs
      cases b <;> simp [stringsIndex, startsWith]
    · cases h
  | cons c t ih =>
    unfold stringsIndex at h
    split at h
    · rename_i hs
      cases h
      simp only [List.cons_append]
      unfold stringsIndex
      rw [if_pos]
      rw [startsWith_iff] at hs ⊢
      exact hs.trans ⟨b, rfl⟩
    · rename_i hs
      simp only [Option.map_eq_some'] at h
      obtain ⟨j, hj, rfl⟩ := h
      have hb := stringsIndex_bound _ _ _ hj
      simp only [List.cons_append]
      unfold stringsIndex
      rw [if_neg, ih j hj]
      · rfl
      · intro hs2
        apply hs
        rw [startsWith_iff] at hs2 ⊢
        have hp : c :: t <+: c :: (t ++ b) := ⟨b, rfl⟩
        exact List.prefix_of_prefix_length_le hs2 hp (by simp only [List.length_cons]; omega)

theorem stringsIndex_slash (c rest : GoString) (hc : (47 : UInt8) ∉ c) :
    stringsIndex (c ++ lit "/" ++ rest) (lit "/") = some c.length := by
  have hl : lit "/" = [47] := by decide
  rw [hl]
  induction c with
  | nil => simp [stringsIndex, startsWith, List.isPrefixOf]
  | cons x c1 ih =>
    have hx : x ≠ 47 := fun h => hc (by simp [h])
    have hc1 : (47 : UInt8) ∉ c1 := fun h => hc (List.mem_cons_of_mem _ h)
    simp only [List.cons_append]
    unfold stringsIndex
    rw [if_neg, ih hc1]
    · rfl
    · simp [startsWith, List.isPrefixOf, Ne.symm hx]

theorem stringsIndex_p_none (c : GoString) (hc : (47 : UInt8) ∉ c) :
    stringsIndex (c ++ lit "/") (lit "/p/") = none := by
  have hl : lit "/" = [47] := by decide
  have hp : lit "/p/" = [47, 112, 47] := by decide
  rw [hl, hp]
  induction c with
  | nil => decide
  | cons x c1 ih =>
    have hx : x ≠ 47 := fun h => hc (by simp [h])
    have hc1 : (47 : UInt8) ∉ c1 := fun h => hc (List.mem_cons_of_mem _ h)
    simp only [List.cons_append]
    unfold stringsIndex
    rw [if_neg, ih hc1]
    · rfl
    · simp [startsWith, List.isPrefixOf, Ne.symm hx]

theorem extractShortcodeFromURL_permalink_aux (c : GoString) (hc : (47 : UInt8) ∉ c) :
    extractShortcodeFromURL (lit "https://www.instagram.com/p/" ++ c ++ lit "/") =
      Result.ok c := by
  have hidx0 : stringsIndex (lit "https://www.instagram.com/p/") (lit "/p/") = some 25 := by
    decide
  have hidx : stringsIndex (lit "https://www.instagram.com/p/" ++ c ++ lit "/") (lit "/p/")
      = some 25 := by
    rw [List.append_assoc]
    exact stringsIndex_append_right _ _ _ _ hidx0
  have hlenb : (lit "https://www.instagram.com/p/").length = 28 := by decide
  have hlenp : (lit "/p/").length = 3 := by decide
  have hlens : (lit "/").length = 1 := by decide
  have hdrop : List.drop (25 + (lit "/p/").length)
      (lit "https://www.instagram.com/p/" ++ c ++ lit "/") = c ++ lit "/" := by
    rw [hlenp, List.append_assoc]
    exact List.drop_left' hlenb
  have hparts : stringsSplit (lit "https://www.instagram.com/p/" ++ c ++ lit "/") (lit "/p/")
      = [List.take 25 (lit "https://www.instagram.com/p/" ++ c ++ lit "/"), c ++ lit "/"] := by
    unfold stringsSplit
    have hfuel : (lit "https://www.instagram.com/p/" ++ c ++ lit "/").length
        = (28 + c.length) + 1 := by
      simp only [List.length_append, hlenb, hlens]
    rw [hfuel]
    unfold splitLoop
    rw [hidx]
    dsimp only []
    rw [hdrop]
    congr 1
    cases hn : 28 + c.length with
    | zero => rfl
    | succ n =>
      unfold splitLoop
      rw [stringsIndex_p_none c hc]
  have hsecond : stringsSplit (c ++ lit "/") (lit "/") = [c, []] := by
    unfold stringsSplit
    have hfuel : (c ++ lit "/").length = c.length + 1 := by
      simp only [List.length_append, hlens]
    rw [hfuel]
    unfold splitLoop
    have := stringsIndex_slash c [] hc
    rw [List.append_nil] at this
    rw [this]
    dsimp only []
    have h1 : List.take c.length (c ++ lit "/") = c := by simp
    have h2 : List.drop (c.length + (lit "/").length) (c ++ lit "/") = [] := by
      apply List.drop_eq_nil_of_le
      simp only [List.length_append]
      omega
    rw [h1, h2]
    congr 1
    cases c.length with
    | zero => rfl
    | succ n => rfl
  unfold extractShortcodeFromURL
  have hcont : stringsContains (lit "https://www.instagram.com/p/" ++ c ++ lit "/") (lit "/p/")
      = true := by
    unfold stringsContains
    rw [hidx]
    rfl
  rw [if_pos hcont]
  dsimp only []
  rw [hparts]
  simp only [List.length_cons, List.length_nil]
  rw [if_pos (by omega)]
  simp only [index, List.get?, hsecond]

theorem dummyPost_shortcode (username : GoString) (t : Time) (i : Nat) (hi : i < 8) :
    extractShortcodeFromURL (dummyPost username t i).PostURL =
      Result.ok (dummyPost username t i).Code := by
  interval_cases i <;> rfl

/-! ## Lemmas on the title -/

theorem stringsIndex_byte_take (s : GoString) (b : UInt8) :
    (stringsIndex s [b] = none → s.takeWhile (fun c => c != b) = s) ∧
    (∀ m, stringsIndex s [b] = some m → s.take m = s.takeWhile (fun c => c != b)) := by
  induction s with
  | nil =>
    refine ⟨fun _ => rfl, ?_⟩
    intro m h
    simp [stringsIndex] at h
  | cons c t ih =>
    unfold stringsIndex
    by_cases hc : c = b
    · subst hc
      have hs : startsWith (c :: t) [c] = true := by simp [startsWith, List.isPrefixOf]
      rw [if_pos hs]
      constructor
      · intro h
        cases h
      · intro m h
        cases h
        simp [List.takeWhile]
    · have hs : ¬ startsWith (c :: t) [b] = true := by
        simp [startsWith, List.isPrefixOf, Ne.symm hc]
      rw [if_neg hs]
      have hne : (c != b) = true := by simpa using hc
      refine ⟨?_, ?_⟩
      · intro h
        simp only [Option.map_eq_none'] at h
        simp only [List.takeWhile, hne]
        exact congrArg (List.cons c) (ih.1 h)
      · intro m h
        simp only [Option.map_eq_some'] at h
        obtain ⟨j, hj, rfl⟩ := h
        simp only [List.takeWhile, hne, List.take_succ_cons]
        exact congrArg (List.cons c) (ih.2 j hj)

theorem stringsSplit_head_line (caption : GoString) :
    index (stringsSplit caption (lit "\n")) 0 = Result.ok (firstLine caption) := by
  have hl : lit "\n" = [10] := by decide
  rw [hl]
  unfold stringsSplit firstLine
  have h := stringsIndex_byte_take caption 10
  cases caption with
  | nil => rfl
  | cons c t =>
    simp only [List.length_cons]
    unfold splitLoop
    cases hi : stringsIndex (c :: t) [10] with
    | none =>
      simp only [index, List.get?]
      rw [h.1 hi]
    | some m =>
      simp only [index, List.get?]
      rw [h.2 m hi]

theorem cleanLoop_eq (words acc : List GoString) :
    cleanLoop words acc = acc ++ words.filter (fun word => !isTag word) := by
  induction words generalizing acc with
  | nil => simp [cleanLoop]
  | cons w rest ih =>
    unfold cleanLoop
    by_cases h : (!startsWith w (lit "#") && !startsWith w (lit "@")) = true
    · rw [if_pos h, ih]
      have : (!isTag w) = true := by
        simpa [isTag, Bool.not_or] using h
      simp [List.filter, this]
    · rw [if_neg h, ih]
      have : (!isTag w) = false := by
        simpa [isTag, Bool.not_or] using h
      simp [List.filter, this]

/-- The title of a post, in one expression. -/
theorem createItemTitle_eq (post : Post) :
    createItemTitle post = Result.ok (stripTags (truncateTitle (firstLine post.Caption))) := by
  unfold createItemTitle
  simp only [bind, Result.bind, stringsSplit_head_line]
  have hfinal : ∀ title : GoString,
      (if (cleanLoop (stringsFields title) []).length > 0 then
        (pure (stringsJoin (lit " ") (cleanLoop (stringsFields title) [])) : Result GoString)
       else pure []) = Result.ok (stripTags title) := by
    intro title
    rw [cleanLoop_eq, List.nil_append]
    unfold stripTags
    split
    · rfl
    · rename_i hlen
      have : List.filter (fun word => !isTag word) (stringsFields title) = [] :=
        List.length_eq_zero.1 (by omega)
      rw [this]
      rfl
  unfold truncateTitle
  split
  · rename_i hlen
    rw [slice_ok _ _ _ ⟨Nat.zero_le _, by omega⟩]
    simp only [pure, Result.bind, List.drop_zero, Nat.sub_zero]
    exact hfinal _
  · simp only [pure, Result.bind]
    exact hfinal _

/-! ## Lemmas on `strings.Fields` -/

theorem spaceWidth_default (c : UInt8) (t : GoString) (h1 : c ≠ 194) (h2 : c ≠ 225)
    (h3 : c ≠ 226) (h4 : c ≠ 227)
    (h : ¬ (c = 9 ∨ c = 10 ∨ c = 11 ∨ c = 12 ∨ c = 13 ∨ c = 32)) : spaceWidth (c :: t) = 0 := by
  unfold spaceWidth
  dsimp only
  rw [if_neg h]
  split <;> first | rfl | (exfalso; simp_all)

theorem spaceWidth_ascii (c : UInt8) (t : GoString)
    (h : c = 9 ∨ c = 10 ∨ c = 11 ∨ c = 12 ∨ c = 13 ∨ c = 32) : spaceWidth (c :: t) = 1 := by
  unfold spaceWidth
  dsimp only
  rw [if_pos h]

theorem spaceWidth_space (t : GoString) : spaceWidth (32 :: t) = 1 :=
  spaceWidth_ascii 32 t (by decide)

/-- Whether a white-space rune starts at the head of a non-empty run `a` does
not depend on what follows the run, as long as that is the end of the text or
a space. -/
theorem spaceWidth_transfer (a r1 r2 : GoString) (ha : a ≠ [])
    (h : spaceWidth (a ++ r1) = 0) (hr : r2 = [] ∨ r2.head? = some 32) :
    spaceWidth (a ++ r2) = 0 := by
  have hr2 : r2 = [] ∨ ∃ r3, r2 = 32 :: r3 := by
    rcases hr with hr | hr
    · exact Or.inl hr
    · cases r2 with
      | nil => exact Or.inl rfl
      | cons x r3 =>
        simp only [List.head?_cons, Option.some.injEq] at hr
        exact Or.inr ⟨r3, by rw [hr]⟩
  cases a with
  | nil => exact absurd rfl ha
  | cons c a1 =>
    by_cases hsp : c = 9 ∨ c = 10 ∨ c = 11 ∨ c = 12 ∨ c = 13 ∨ c = 32
    · rw [List.cons_append, spaceWidth_ascii c _ hsp] at h
      cases h
    · by_cases h1 : c = 194
      · subst h1
        rcases a1 with _ | ⟨d, a2⟩
        · rcases hr2 with rfl | ⟨r3, rfl⟩
          · rfl
          · rfl
        · exact h
      · by_cases h2 : c = 225
        · subst h2
          rcases a1 with _ | ⟨d, _ | ⟨e, a3⟩⟩
          · rcases hr2 with rfl | ⟨r3, rfl⟩
            · rfl
            · cases r3 <;> rfl
          · rcases hr2 with rfl | ⟨r3, rfl⟩
            · rfl
            · show (if d = 154 ∧ (32 : UInt8) = 128 then 3 else 0) = 0
              simp +decide
          · exact h
        · by_cases h3 : c = 226
          · subst h3
            rcases a1 with _ | ⟨d, _ | ⟨e, a3⟩⟩
            · rcases hr2 with rfl | ⟨r3, rfl⟩
              · rfl
              · cases r3 <;> rfl
            · rcases hr2 with rfl | ⟨r3, rfl⟩
              · rfl
              · show (if d = 128 ∧ (128 ≤ (32 : UInt8) ∧ (32 : UInt8) ≤ 138 ∨ (32 : UInt8) = 168
                    ∨ (32 : UInt8) = 169 ∨ (32 : UInt8) = 175) then 3
                  else if d = 129 ∧ (32 : UInt8) = 159 then 3 else 0) = 0
                simp +decide
            · exact h
          · by_cases h4 : c = 227
            · subst h4
              rcases a1 with _ | ⟨d, _ | ⟨e, a3⟩⟩
              · rcases hr2 with rfl | ⟨r3, rfl⟩
                · rfl
                · cases r3 <;> rfl
              · rcases hr2 with rfl | ⟨r3, rfl⟩
                · rfl
                · show (if d = 128 ∧ (32 : UInt8) = 128 then 3 else 0) = 0
                  simp +decide
              · exact h
            · exact spaceWidth_default c _ h1 h2 h3 h4 hsp

theorem fieldsLoop_nil (skip : Nat) (cur : GoString) :
    fieldsLoop skip cur [] = if cur = [] then [] else [cur] := by
  cases skip <;> rfl

theorem fieldsLoop_skip (skip : Nat) (cur : GoString) (c : UInt8) (t : GoString) :
    fieldsLoop (skip + 1) cur (c :: t) = fieldsLoop skip cur t := rfl

theorem fieldsLoop_zero (cur : GoString) (c : UInt8) (t : GoString) :
    fieldsLoop 0 cur (c :: t) =
      if spaceWidth (c :: t) = 0 then fieldsLoop 0 (cur ++ [c]) t
      else if cur = [] then fieldsLoop (spaceWidth (c :: t) - 1) [] t
      else cur :: fieldsLoop (spaceWidth (c :: t) - 1) [] t := rfl

/-- Every token that the scan of `strings.Fields` emits is a field. -/
theorem fieldsLoop_fields (s : GoString) :
    ∀ (skip : Nat) (cur : GoString), (0 < skip → cur = []) →
      (∀ k, k < cur.length → spaceWidth (cur.drop k ++ s) = 0) →
      ∀ w ∈ fieldsLoop skip cur s, IsField w := by
  induction s with
  | nil =>
    intro skip cur _ hinv w hw
    rw [fieldsLoop_nil] at hw
    by_cases hc : cur = []
    · rw [if_pos hc] at hw
      cases hw
    · rw [if_neg hc] at hw
      simp only [List.mem_singleton] at hw
      subst hw
      refine ⟨hc, ?_⟩
      intro k hk rest hrest
      exact spaceWidth_transfer _ [] rest
        (by intro h0; have := congrArg List.length h0; simp at this; omega) (hinv k hk) hrest
  | cons c t ih =>
    intro skip cur hskip hinv w hw
    cases skip with
    | succ n =>
      rw [fieldsLoop_skip] at hw
      have hcur : cur = [] := hskip (Nat.succ_pos _)
      subst hcur
      exact ih n [] (fun _ => rfl) (fun k hk => by simp at hk) w hw
    | zero =>
      rw [fieldsLoop_zero] at hw
      by_cases h0 : spaceWidth (c :: t) = 0
      · rw [if_pos h0] at hw
        refine ih 0 (cur ++ [c]) (fun h => absurd h (by decide)) ?_ w hw
        intro k hk
        by_cases hk1 : k < cur.length
        · have := hinv k hk1
          rw [List.drop_append_of_le_length (Nat.le_of_lt hk1)]
          simpa using this
        · have hk2 : k = cur.length := by
            simp only [List.length_append, List.length_singleton] at hk
            omega
          subst hk2
          simpa using h0
      · rw [if_neg h0] at hw
        by_cases hc : cur = []
        · rw [if_pos hc] at hw
          exact ih _ [] (fun _ => rfl) (fun k hk => by simp at hk) w hw
        · rw [if_neg hc] at hw
          rcases List.mem_cons.1 hw with hw | hw
          · subst hw
            refine ⟨hc, ?_⟩
            intro k hk rest hrest
            exact spaceWidth_transfer _ (c :: t) rest
              (by intro h0; have := congrArg List.length h0; simp at this; omega)
              (hinv k hk) hrest
          · exact ih _ [] (fun _ => rfl) (fun k hk => by simp at hk) w hw

theorem stringsFields_fields (s : GoString) : ∀ w ∈ stringsFields s, IsField w :=
  fieldsLoop_fields s 0 [] (fun h => absurd h (by decide)) (fun k hk => by simp at hk)

theorem fieldsLoop_run (w : GoString) :
    ∀ (cur rest : GoString), (∀ k, k < w.length → spaceWidth (w.drop k ++ rest) = 0) →
      fieldsLoop 0 cur (w ++ rest) = fieldsLoop 0 (cur ++ w) rest := by
  induction w with
  | nil => intro cur rest _; simp
  | cons c w1 ih =>
    intro cur rest h
    have h0 : spaceWidth (c :: (w1 ++ rest)) = 0 := by simpa using h 0 (by simp)
    rw [List.cons_append, fieldsLoop_zero, if_pos h0]
    rw [ih (cur ++ [c]) rest (fun k hk => by simpa using h (k + 1) (by simpa using hk))]
    simp

/-- Splitting a text that was joined from fields by single spaces gives the
fields back. -/
theorem stringsFields_join (ws : List GoString) (h : ∀ w ∈ ws, IsField w) :
    stringsFields (stringsJoin (lit " ") ws) = ws := by
  have hsp : lit " " = [32] := by decide
  rw [hsp]
  unfold stringsFields
  induction ws with
  | nil => rfl
  | cons a rest ih =>
    have ha := h a (List.mem_cons_self _ _)
    cases rest with
    | nil =>
      have := fieldsLoop_run a [] [] (fun k hk => ha.2 k hk [] (Or.inl rfl))
      simp only [List.append_nil, List.nil_append] at this
      simp only [stringsJoin]
      rw [this, fieldsLoop_nil, if_neg ha.1]
    | cons b rest2 =>
      have hrest := ih (fun w hw => h w (List.mem_cons_of_mem _ hw))
      simp only [stringsJoin] at hrest ⊢
      have := fieldsLoop_run a [] ([32] ++ stringsJoin [32] (b :: rest2))
        (fun k hk => ha.2 k hk _ (Or.inr (by simp)))
      simp only [List.nil_append] at this
      rw [List.append_assoc, this]
      simp only [List.singleton_append]
      rw [fieldsLoop_zero, if_neg (by rw [spaceWidth_space]; decide), if_neg ha.1,
        spaceWidth_space]
      exact congrArg (List.cons a) hrest

theorem stripTags_fields (line : GoString) :
    stringsFields (stripTags line) = (stringsFields line).filter fun word => !isTag word := by
  unfold stripTags
  apply stringsFields_join
  intro w hw
  exact stringsFields_fields line w (List.mem_of_mem_filter hw)

/-! ## Lemmas on the pattern of hashtags and mentions -/

theorem hashtagRegex_eq : hashtagRegex = tagRegex 35 := rfl

theorem mentionRegex_eq : mentionRegex = tagRegex 64 := rfl

theorem word_ne (c : UInt8) (h : Cls.word.test c = true) :
    c ≠ 35 ∧ c ≠ 64 ∧ c ≠ 10 ∧ c ≠ 38 ∧ c ≠ 39 ∧ c ≠ 60 ∧ c ≠ 62 ∧ c ≠ 34 := by
  refine ⟨?_, ?_, ?_, ?_, ?_, ?_, ?_, ?_⟩ <;>
    (rintro rfl; exact absurd h (by decide))

theorem take_length_sub_dropWhile (p : UInt8 → Bool) (l : GoString) :
    l.take (l.length - (l.dropWhile p).length) = l.takeWhile p := by
  have h := List.takeWhile_append_dropWhile p l
  have hlen : l.length = (l.takeWhile p).length + (l.dropWhile p).length := by
    conv_lhs => rw [← h]
    exact List.length_append _ _
  have h2 : l.length - (l.dropWhile p).length = (l.takeWhile p).length := by omega
  rw [h2]
  have h3 := List.take_left (l.takeWhile p) (l.dropWhile p)
  rwa [h] at h3

/-- The greedy loop of `\w*` before a continuation that always succeeds stops
right after the longest run of word bytes. -/
theorem starLoop_word {R : Type}
    (step : GoString → List GoString → (GoString → List GoString → Option R) → Option R)
    (hstep : ∀ s caps k0, step s caps k0 = (Re.cls Cls.word).run s caps k0)
    (k : GoString → List GoString → Option R)
    (hk : ∀ s caps, k s caps ≠ none) :
    ∀ (fuel : Nat) (u : GoString) (caps : List GoString), u.length ≤ fuel →
      starLoop step true fuel u caps k = k (u.dropWhile Cls.word.test) caps := by
  intro fuel
  induction fuel with
  | zero =>
    intro u caps hu
    have : u = [] := List.length_eq_zero.1 (by omega)
    subst this
    rfl
  | succ n ih =>
    intro u caps hu
    unfold starLoop
    simp only [if_true]
    rw [hstep]
    cases u with
    | nil => rfl
    | cons d v =>
      simp only [Re.run]
      by_cases hd : Cls.word.test d = true
      · simp only [hd, if_true, List.length_cons, Nat.lt_succ_self, List.dropWhile]
        have := ih v caps (by simpa using hu)
        rw [this]
        cases hres : k (List.dropWhile Cls.word.test v) caps with
        | none => exact absurd hres (hk _ _)
        | some res => rfl
      · simp only [hd, List.dropWhile]
        rfl

theorem matchHere_tag_some (b d : UInt8) (u : GoString) (hd : Cls.word.test d = true) :
    (tagRegex b).matchHere (b :: d :: u) =
      some ([b :: d :: u.takeWhile Cls.word.test, d :: u.takeWhile Cls.word.test],
        u.dropWhile Cls.word.test) := by
  unfold Re.matchHere tagRegex Re.plus
  simp only [Re.run, Re.numSubexp, if_true, hd]
  refine Eq.trans (starLoop_word _ ?_ _ ?_ _ _ _ (le_refl _)) ?_
  · intro s caps k0
    rfl
  · intro s caps
    simp
  have hle : (u.dropWhile Cls.word.test).length ≤ u.length :=
    (List.dropWhile_suffix _).length_le
  have h1 : (d :: u).length - (u.dropWhile Cls.word.test).length
      = (u.length - (u.dropWhile Cls.word.test).length) + 1 := by
    simp only [List.length_cons]; omega
  have h2 : (b :: d :: u).length - (u.dropWhile Cls.word.test).length
      = (u.length - (u.dropWhile Cls.word.test).length) + 2 := by
    simp only [List.length_cons]; omega
  rw [h1, h2]
  simp only [List.take_succ_cons, take_length_sub_dropWhile]
  rfl

theorem matchHere_tag_none (b : UInt8) (s : GoString)
    (h : ∀ d u, s = b :: d :: u → Cls.word.test d = false) :
    (tagRegex b).matchHere s = none := by
  unfold Re.matchHere tagRegex Re.plus
  simp only [Re.run]
  cases s with
  | nil => rfl
  | cons c t =>
    by_cases hc : c = b
    · subst hc
      cases t with
      | nil => simp
      | cons d u =>
        have := h d u rfl
        simp [this]
    · simp [hc]

theorem matchHere_tag_cases (b : UInt8) (s : GoString) :
    ((tagRegex b).matchHere s = none ∧ ∀ d u, s = b :: d :: u → Cls.word.test d = false) ∨
    ∃ d u, s = b :: d :: u ∧ Cls.word.test d = true := by
  by_cases h : ∃ d u, s = b :: d :: u ∧ Cls.word.test d = true
  · exact Or.inr h
  · have h2 : ∀ d u, s = b :: d :: u → Cls.word.test d = false := by
      intro d u hs
      by_contra hd
      exact h ⟨d, u, hs, by simpa using hd⟩
    exact Or.inl ⟨matchHere_tag_none b s h2, h2⟩

theorem search_tag_rest (b : UInt8) (s : GoString) :
    ∀ pre m rest, (tagRegex b).search s = some (pre, m, rest) → rest.length < s.length := by
  induction s with
  | nil =>
    intro pre m rest h
    simp [Re.search, matchHere_tag_none b [] (by intro d u h; cases h)] at h
  | cons c t ih =>
    intro pre m rest h
    unfold Re.search at h
    rcases matchHere_tag_cases b (c :: t) with ⟨hn, _⟩ | ⟨d, u, hs, hd⟩
    · rw [hn] at h
      simp only [Option.map_eq_some'] at h
      obtain ⟨⟨p1, m1, r1⟩, h1, h2⟩ := h
      have := ih p1 m1 r1 h1
      simp only [Prod.mk.injEq] at h2
      obtain ⟨_, _, rfl⟩ := h2
      simp only [List.length_cons]
      omega
    · rw [hs, matchHere_tag_some b d u hd] at h
      simp only [Option.some.injEq, Prod.mk.injEq] at h
      obtain ⟨_, _, rfl⟩ := h
      have hle : (u.dropWhile Cls.word.test).length ≤ u.length :=
        (List.dropWhile_suffix _).length_le
      rw [hs]
      simp only [List.length_cons]
      omega

/-! ## Lemmas on `ReplaceAllStringFunc` -/

theorem replaceAllLoop_succ (r : Re) (repl : GoString → GoString) (fuel : Nat) (s : GoString) :
    replaceAllLoop r repl (fuel + 1) s =
      match r.search s with
      | none => s
      | some (pre, m, rest) =>
        if rest.length < s.length then
          pre ++ repl (m.headD []) ++ replaceAllLoop r repl fuel rest
        else s := rfl

theorem search_cons (r : Re) (c : UInt8) (t : GoString) :
    r.search (c :: t) =
      match r.matchHere (c :: t) with
      | some m => some ([], m.1, m.2)
      | none => (r.search t).map fun m => (c :: m.1, m.2.1, m.2.2) := rfl

theorem replaceAllLoop_tag_nil (b : UInt8) (repl : GoString → GoString) (fuel : Nat) :
    replaceAllLoop (tagRegex b) repl fuel [] = [] := by
  cases fuel with
  | zero => rfl
  | succ n =>
    rw [replaceAllLoop_succ]
    simp [Re.search, matchHere_tag_none b [] (by intro d u h; cases h)]

/-- The result of the replacement loop does not depend on the fuel, once the
fuel covers the length of the text. -/
theorem replaceAllLoop_tag_fuel (b : UInt8) (repl : GoString → GoString) :
    ∀ (n : Nat) (s : GoString) (f1 f2 : Nat), s.length ≤ n → s.length ≤ f1 → s.length ≤ f2 →
      replaceAllLoop (tagRegex b) repl f1 s = replaceAllLoop (tagRegex b) repl f2 s := by
  intro n
  induction n with
  | zero =>
    intro s f1 f2 hn _ _
    have : s = [] := List.length_eq_zero.1 (by omega)
    subst this
    rw [replaceAllLoop_tag_nil, replaceAllLoop_tag_nil]
  | succ n ih =>
    intro s f1 f2 hn h1 h2
    cases s with
    | nil => rw [replaceAllLoop_tag_nil, replaceAllLoop_tag_nil]
    | cons c t =>
      cases f1 with
      | zero => simp at h1
      | succ a =>
        cases f2 with
        | zero => simp at h2
        | succ e =>
          rw [replaceAllLoop_succ, replaceAllLoop_succ]
          cases hs : (tagRegex b).search (c :: t) with
          | none => rfl
          | some res =>
            obtain ⟨pre, m, rest⟩ := res
            have hlt := search_tag_rest b (c :: t) pre m rest hs
            simp only [if_pos hlt]
            rw [ih rest a e (by omega) (by omega) (by omega)]

theorem replaceAll_tag_nil (b : UInt8) (repl : GoString → GoString) :
    (tagRegex b).ReplaceAllStringFunc [] repl = [] := rfl

theorem replaceAll_tag_skip (b : UInt8) (repl : GoString → GoString) (c : UInt8)
    (t : GoString) (h : (tagRegex b).matchHere (c :: t) = none) :
    (tagRegex b).ReplaceAllStringFunc (c :: t) repl =
      c :: (tagRegex b).ReplaceAllStringFunc t repl := by
  unfold Re.ReplaceAllStringFunc
  simp only [List.length_cons]
  rw [replaceAllLoop_succ, search_cons, h]
  dsimp only []
  cases hs : (tagRegex b).search t with
  | none =>
    simp only [Option.map_none']
    cases ht : t.length with
    | zero => rfl
    | succ n => rw [replaceAllLoop_succ, hs]
  | some res =>
    obtain ⟨pre, m, rest⟩ := res
    have hlt := search_tag_rest b t pre m rest hs
    simp only [Option.map_some']
    rw [if_pos (by simp only [List.length_cons]; omega)]
    cases ht : t.length with
    | zero => omega
    | succ n =>
      rw [replaceAllLoop_succ (tagRegex b) repl n t]
      rw [hs]
      dsimp only []
      rw [if_pos (by omega)]
      rw [replaceAllLoop_tag_fuel b repl rest.length rest (n + 1) n (le_refl _) (by omega)
        (by omega)]
      simp only [List.cons_append, List.append_assoc]

theorem replaceAll_tag_hit (b : UInt8) (repl : GoString → GoString) (d : UInt8)
    (u : GoString) (hd : Cls.word.test d = true) :
    (tagRegex b).ReplaceAllStringFunc (b :: d :: u) repl =
      repl (b :: d :: u.takeWhile Cls.word.test) ++
        (tagRegex b).ReplaceAllStringFunc (u.dropWhile Cls.word.test) repl := by
  have hle : (u.dropWhile Cls.word.test).length ≤ u.length :=
    (List.dropWhile_suffix _).length_le
  unfold Re.ReplaceAllStringFunc
  simp only [List.length_cons]
  rw [replaceAllLoop_succ, search_cons, matchHere_tag_some b d u hd]
  dsimp only []
  rw [if_pos (by simp only [List.length_cons]; omega)]
  rw [replaceAllLoop_tag_fuel b repl _ (u.dropWhile Cls.word.test) (u.length + 1)
    (u.dropWhile Cls.word.test).length (le_refl _) (by omega) (le_refl _)]
  simp only [List.nil_append, List.headD]

theorem takeWhile_append_stops (u rest : GoString) (h : Stops rest) :
    (u ++ rest).takeWhile Cls.word.test = u.takeWhile Cls.word.test ∧
    (u ++ rest).dropWhile Cls.word.test = u.dropWhile Cls.word.test ++ rest := by
  induction u with
  | nil =>
    cases rest with
    | nil => exact ⟨rfl, rfl⟩
    | cons c t =>
      have := h c rfl
      simp [List.takeWhile, List.dropWhile, this]
  | cons d v ih =>
    by_cases hd : Cls.word.test d = true
    · simp [List.takeWhile, List.dropWhile, hd, ih.1, ih.2]
    · simp [List.takeWhile, List.dropWhile, hd]

/-- The replacement works on the two sides of a cut separately when the text
after the cut is empty or begins with a byte that is no word byte. -/
theorem replaceAll_tag_append (b : UInt8) (repl : GoString → GoString) (rest : GoString)
    (hrest : Stops rest) :
    ∀ (n : Nat) (a : GoString), a.length ≤ n →
      (tagRegex b).ReplaceAllStringFunc (a ++ rest) repl =
        (tagRegex b).ReplaceAllStringFunc a repl ++
          (tagRegex b).ReplaceAllStringFunc rest repl := by
  intro n
  induction n with
  | zero =>
    intro a ha
    have : a = [] := List.length_eq_zero.1 (by omega)
    subst this
    simp [replaceAll_tag_nil]
  | succ n ih =>
    intro a ha
    cases a with
    | nil => simp [replaceAll_tag_nil]
    | cons c t =>
      rcases matchHere_tag_cases b (c :: t) with ⟨hn, hno⟩ | ⟨d, u, hs, hd⟩
      · have hn2 : (tagRegex b).matchHere (c :: (t ++ rest)) = none := by
          apply matchHere_tag_none
          intro d u hs
          cases t with
          | nil =>
            simp only [List.nil_append] at hs
            injection hs with _ hs
            exact hrest d (by rw [hs]; rfl)
          | cons d1 u1 =>
            simp only [List.cons_append] at hs
            injection hs with hc hs
            injection hs with hd1 _
            subst hc hd1
            exact hno d1 u1 rfl
        rw [List.cons_append, replaceAll_tag_skip b repl c _ hn2,
          replaceAll_tag_skip b repl c _ hn, ih t (by simpa using ha)]
        rfl
      · injection hs with hc ht
        rw [hc, ht] at ha ⊢
        have htd := takeWhile_append_stops u rest hrest
        have hle : (u.dropWhile Cls.word.test).length ≤ u.length :=
          (List.dropWhile_suffix _).length_le
        simp only [List.cons_append]
        rw [replaceAll_tag_hit b repl d _ hd, replaceAll_tag_hit b repl d _ hd, htd.1, htd.2,
          ih _ (by simp only [List.length_cons] at ha; omega)]
        simp only [List.append_assoc]

/-- A stretch of text without the marker byte is copied as it is. -/
theorem replaceAll_tag_free (b : UInt8) (repl : GoString → GoString) (l rest : GoString)
    (h : b ∉ l) :
    (tagRegex b).ReplaceAllStringFunc (l ++ rest) repl =
      l ++ (tagRegex b).ReplaceAllStringFunc rest repl := by
  induction l with
  | nil => rfl
  | cons c t ih =>
    have hc : c ≠ b := fun hcb => h (by rw [hcb]; exact List.mem_cons_self _ _)
    have hn : (tagRegex b).matchHere (c :: (t ++ rest)) = none := by
      apply matchHere_tag_none
      intro d u hs
      injection hs with hcb _
      exact absurd hcb hc
    rw [List.cons_append, replaceAll_tag_skip b repl c _ hn,
      ih (fun ht => h (List.mem_cons_of_mem _ ht))]
    rfl

/-- The marker followed by a complete run of word bytes is replaced as a
whole. -/
theorem replaceAll_tag_word (b : UInt8) (repl : GoString → GoString) (w rest : GoString)
    (hw : w ≠ []) (hword : ∀ c ∈ w, Cls.word.test c = true) (hrest : Stops rest) :
    (tagRegex b).ReplaceAllStringFunc (b :: w ++ rest) repl =
      repl (b :: w) ++ (tagRegex b).ReplaceAllStringFunc rest repl := by
  cases w with
  | nil => exact absurd rfl hw
  | cons d w1 =>
    have hd := hword d (List.mem_cons_self _ _)
    have hw1 : ∀ c ∈ w1, Cls.word.test c = true := fun c hc =>
      hword c (List.mem_cons_of_mem _ hc)
    have htake : w1.takeWhile Cls.word.test = w1 := List.takeWhile_eq_self_iff.2 hw1
    have hdrop : w1.dropWhile Cls.word.test = [] := List.dropWhile_eq_nil_iff.2 hw1
    have htd := takeWhile_append_stops w1 rest hrest
    simp only [List.cons_append]
    rw [replaceAll_tag_hit b repl d _ hd, htd.1, htd.2, htake, hdrop]
    rfl

theorem replaceAll_tag_stops (b : UInt8) (repl : GoString → GoString)
    (hrepl : ∀ m, repl m ≠ [] ∧ Stops (repl m)) (s : GoString) (hs : Stops s) :
    Stops ((tagRegex b).ReplaceAllStringFunc s repl) := by
  cases s with
  | nil => exact hs
  | cons c t =>
    rcases matchHere_tag_cases b (c :: t) with ⟨hn, _⟩ | ⟨d, u, hcs, hd⟩
    · rw [replaceAll_tag_skip b repl c t hn]
      intro x hx
      exact hs x hx
    · rw [hcs, replaceAll_tag_hit b repl d u hd]
      intro x hx
      obtain ⟨hne, hst⟩ := hrepl (b :: d :: u.takeWhile Cls.word.test)
      apply hst x
      rw [← hx]
      cases hr : repl (b :: d :: u.takeWhile Cls.word.test) with
      | nil => exact absurd hr hne
      | cons y ys => rfl

/-! ## Lemmas on the caption of the body -/

theorem lit_hash : lit "#" = [35] := by decide

theorem lit_at : lit "@" = [64] := by decide

theorem stops_cons (c : UInt8) (t : GoString) (h : Cls.word.test c = false) : Stops (c :: t) := by
  intro x hx
  simp only [List.head?_cons, Option.some.injEq] at hx
  rw [← hx]
  exact h

theorem stops_nil : Stops [] := by
  intro x hx
  cases hx

theorem hashtagLink_eq (w : GoString) :
    hashtagLink w = 60 :: (lit "a href=\"https://www.instagram.com/explore/tags/" ++ w
      ++ lit "\">#" ++ w ++ lit "</a>") := by
  unfold hashtagLink
  have : lit "<a href=\"https://www.instagram.com/explore/tags/"
      = 60 :: lit "a href=\"https://www.instagram.com/explore/tags/" := by decide
  rw [this]
  simp only [List.cons_append, List.append_assoc]

theorem mentionLink_eq (w : GoString) :
    mentionLink w = 60 :: (lit "a href=\"https://www.instagram.com/" ++ w
      ++ lit "\">@" ++ w ++ lit "</a>") := by
  unfold mentionLink
  have : lit "<a href=\"https://www.instagram.com/"
      = 60 :: lit "a href=\"https://www.instagram.com/" := by decide
  rw [this]
  simp only [List.cons_append, List.append_assoc]

theorem convertHashtags_eq (text : GoString) :
    convertHashtags text =
      (tagRegex 35).ReplaceAllStringFunc text fun m => hashtagLink (trimStart m (lit "#")) := rfl

theorem convertMentions_eq (text : GoString) :
    convertMentions text =
      (tagRegex 64).ReplaceAllStringFunc text fun m => mentionLink (trimStart m (lit "@")) := rfl

theorem trimStart_cons (b : UInt8) (w : GoString) : trimStart (b :: w) [b] = w := by
  simp [trimStart, startsWith, List.isPrefixOf]

theorem convertHashtags_append (a rest : GoString) (h : Stops rest) :
    convertHashtags (a ++ rest) = convertHashtags a ++ convertHashtags rest := by
  simp only [convertHashtags_eq]
  exact replaceAll_tag_append 35 _ rest h a.length a (le_refl _)

theorem convertMentions_append (a rest : GoString) (h : Stops rest) :
    convertMentions (a ++ rest) = convertMentions a ++ convertMentions rest := by
  simp only [convertMentions_eq]
  exact replaceAll_tag_append 64 _ rest h a.length a (le_refl _)

theorem convertHashtags_free (l rest : GoString) (h : (35 : UInt8) ∉ l) :
    convertHashtags (l ++ rest) = l ++ convertHashtags rest := by
  simp only [convertHashtags_eq]
  exact replaceAll_tag_free 35 _ l rest h

theorem convertMentions_free (l rest : GoString) (h : (64 : UInt8) ∉ l) :
    convertMentions (l ++ rest) = l ++ convertMentions rest := by
  simp only [convertMentions_eq]
  exact replaceAll_tag_free 64 _ l rest h

theorem convertHashtags_word (w rest : GoString) (hw : w ≠ [])
    (hword : ∀ c ∈ w, Cls.word.test c = true) (hrest : Stops rest) :
    convertHashtags (35 :: (w ++ rest)) = hashtagLink w ++ convertHashtags rest := by
  simp only [convertHashtags_eq]
  rw [← List.cons_append, replaceAll_tag_word 35 _ w rest hw hword hrest, lit_hash, trimStart_cons]

theorem convertMentions_word (w rest : GoString) (hw : w ≠ [])
    (hword : ∀ c ∈ w, Cls.word.test c = true) (hrest : Stops rest) :
    convertMentions (64 :: (w ++ rest)) = mentionLink w ++ convertMentions rest := by
  simp only [convertMentions_eq]
  rw [← List.cons_append, replaceAll_tag_word 64 _ w rest hw hword hrest, lit_at, trimStart_cons]

theorem convertHashtags_stops (s : GoString) (h : Stops s) : Stops (convertHashtags s) := by
  rw [convertHashtags_eq]
  apply replaceAll_tag_stops 35 _ _ s h
  intro m
  rw [hashtagLink_eq]
  exact ⟨List.cons_ne_nil _ _, stops_cons _ _ (by decide)⟩

theorem htmlEscapeString_append (a b : GoString) :
    htmlEscapeString (a ++ b) = htmlEscapeString a ++ htmlEscapeString b := by
  unfold htmlEscapeString
  exact List.flatMap_append _ _ _

theorem htmlEscapeString_cons (c : UInt8) (t : GoString) :
    htmlEscapeString (c :: t) = htmlEscapeString [c] ++ htmlEscapeString t :=
  htmlEscapeString_append [c] t

theorem htmlEscapeString_word (w : GoString) (hword : ∀ c ∈ w, Cls.word.test c = true) :
    htmlEscapeString w = w := by
  induction w with
  | nil => rfl
  | cons c t ih =>
    obtain ⟨_, _, _, h38, h39, h60, h62, h34⟩ := word_ne c (hword c (List.mem_cons_self _ _))
    rw [htmlEscapeString_cons, ih (fun x hx => hword x (List.mem_cons_of_mem _ hx))]
    simp [htmlEscapeString, h38, h39, h60, h62, h34]

theorem htmlEscapeString_stops (s : GoString) (h : Stops s) : Stops (htmlEscapeString s) := by
  cases s with
  | nil => exact stops_nil
  | cons c t =>
    have hc := h c rfl
    rw [htmlEscapeString_cons]
    have key : ∃ x xs, htmlEscapeString [c] = x :: xs ∧ Cls.word.test x = false := by
      by_cases h38 : c = 38
      · subst h38; exact ⟨38, lit "amp;", by decide, by decide⟩
      by_cases h39 : c = 39
      · subst h39; exact ⟨38, lit "#39;", by decide, by decide⟩
      by_cases h60 : c = 60
      · subst h60; exact ⟨38, lit "lt;", by decide, by decide⟩
      by_cases h62 : c = 62
      · subst h62; exact ⟨38, lit "gt;", by decide, by decide⟩
      by_cases h34 : c = 34
      · subst h34; exact ⟨38, lit "#34;", by decide, by decide⟩
      exact ⟨c, [], by simp [htmlEscapeString, h38, h39, h60, h62, h34], hc⟩
    obtain ⟨x, xs, hx, hxw⟩ := key
    rw [hx]
    exact stops_cons _ _ hxw

theorem replaceByte_append (old : UInt8) (new a b : GoString) :
    replaceByte old new (a ++ b) = replaceByte old new a ++ replaceByte old new b := by
  unfold replaceByte
  exact List.flatMap_append _ _ _

theorem replaceByte_free (old : UInt8) (new l : GoString) (h : old ∉ l) :
    replaceByte old new l = l := by
  induction l with
  | nil => rfl
  | cons c t ih =>
    have hc : c ≠ old := fun hco => h (by rw [hco]; exact List.mem_cons_self _ _)
    have ht := ih (fun hx => h (List.mem_cons_of_mem _ hx))
    unfold replaceByte at ht ⊢
    simp only [List.flatMap_cons, if_neg hc, ht, List.singleton_append]

theorem hashtagLink_free (w : GoString) (hword : ∀ c ∈ w, Cls.word.test c = true) :
    (64 : UInt8) ∉ hashtagLink w ∧ (10 : UInt8) ∉ hashtagLink w := by
  have h1 : (64 : UInt8) ∉ lit "<a href=\"https://www.instagram.com/explore/tags/" := by decide
  have h2 : (64 : UInt8) ∉ lit "\">#" := by decide
  have h3 : (64 : UInt8) ∉ lit "</a>" := by decide
  have h4 : (10 : UInt8) ∉ lit "<a href=\"https://www.instagram.com/explore/tags/" := by decide
  have h5 : (10 : UInt8) ∉ lit "\">#" := by decide
  have h6 : (10 : UInt8) ∉ lit "</a>" := by decide
  have h7 : (64 : UInt8) ∉ w := fun h => (word_ne _ (hword _ h)).2.1 rfl
  have h8 : (10 : UInt8) ∉ w := fun h => (word_ne _ (hword _ h)).2.2.1 rfl
  unfold hashtagLink
  simp only [List.mem_append, not_or]
  exact ⟨⟨⟨⟨⟨h1, h7⟩, h2⟩, h7⟩, h3⟩, ⟨⟨⟨⟨h4, h8⟩, h5⟩, h8⟩, h6⟩⟩

theorem mentionLink_free (w : GoString) (hword : ∀ c ∈ w, Cls.word.test c = true) :
    (10 : UInt8) ∉ mentionLink w := by
  have h4 : (10 : UInt8) ∉ lit "<a href=\"https://www.instagram.com/" := by decide
  have h5 : (10 : UInt8) ∉ lit "\">@" := by decide
  have h6 : (10 : UInt8) ∉ lit "</a>" := by decide
  have h8 : (10 : UInt8) ∉ w := fun h => (word_ne _ (hword _ h)).2.2.1 rfl
  unfold mentionLink
  simp only [List.mem_append, not_or]
  exact ⟨⟨⟨⟨h4, h8⟩, h5⟩, h8⟩, h6⟩

/-- The mention pass copies a hashtag link as it is, whatever surrounds it. -/
theorem convertMentions_keeps_link (w x y : GoString)
    (hword : ∀ c ∈ w, Cls.word.test c = true) :
    convertMentions (x ++ hashtagLink w ++ y) =
      convertMentions x ++ hashtagLink w ++ convertMentions y := by
  have hst : Stops (hashtagLink w ++ y) := by
    rw [hashtagLink_eq]
    exact stops_cons _ _ (by decide)
  rw [List.append_assoc, convertMentions_append x _ hst,
    convertMentions_free _ y (hashtagLink_free w hword).1, List.append_assoc]

/-- The caption part of the body, between what precedes and what follows
it. -/
theorem createItemDescription_caption (post : Post) (h : post.Caption ≠ []) :
    ∃ a b, createItemDescription post =
      a ++ replaceByte 10 (lit "<br>")
        (convertMentions (convertHashtags (htmlEscapeString post.Caption))) ++ b := by
  have hassoc : ∀ m x b : GoString,
      m ++ (lit "<p>" ++ (x ++ b)) = (m ++ lit "<p>") ++ (x ++ b) := by
    intro m x b
    simp only [List.append_assoc]
  unfold createItemDescription
  simp only [if_pos h, List.nil_append, List.append_assoc]
  exact ⟨_, _, hassoc _ _ _⟩

theorem hashtag_rendered (pre w rest : GoString) (hw : w ≠ [])
    (hword : ∀ c ∈ w, Cls.word.test c = true) (hrest : Stops rest) :
    ∃ a b, replaceByte 10 (lit "<br>")
        (convertMentions (convertHashtags (htmlEscapeString (pre ++ lit "#" ++ w ++ rest)))) =
      a ++ hashtagLink w ++ b := by
  have hesc : htmlEscapeString (pre ++ lit "#" ++ w ++ rest) =
      htmlEscapeString pre ++ 35 :: (w ++ htmlEscapeString rest) := by
    rw [lit_hash]
    simp only [htmlEscapeString_append, htmlEscapeString_word w hword, List.append_assoc]
    rfl
  have hP := htmlEscapeString_stops rest hrest
  rw [hesc, convertHashtags_append _ _ (stops_cons _ _ (by decide)),
    convertHashtags_word w _ hw hword hP, ← List.append_assoc,
    convertMentions_keeps_link w _ _ hword, replaceByte_append, replaceByte_append,
    replaceByte_free 10 _ (hashtagLink w) (hashtagLink_free w hword).2]
  exact ⟨_, _, rfl⟩

theorem mention_rendered (pre w rest : GoString) (hw : w ≠ [])
    (hword : ∀ c ∈ w, Cls.word.test c = true) (hrest : Stops rest) :
    ∃ a b, replaceByte 10 (lit "<br>")
        (convertMentions (convertHashtags (htmlEscapeString (pre ++ lit "@" ++ w ++ rest)))) =
      a ++ mentionLink w ++ b := by
  have hesc : htmlEscapeString (pre ++ lit "@" ++ w ++ rest) =
      htmlEscapeString pre ++ 64 :: (w ++ htmlEscapeString rest) := by
    rw [lit_at]
    simp only [htmlEscapeString_append, htmlEscapeString_word w hword, List.append_assoc]
    rfl
  have hP := convertHashtags_stops _ (htmlEscapeString_stops rest hrest)
  have hfree : (35 : UInt8) ∉ (64 :: w) := by
    intro h
    rcases List.mem_cons.1 h with h | h
    · exact absurd h (by decide)
    · exact (word_ne _ (hword _ h)).1 rfl
  rw [hesc, convertHashtags_append _ _ (stops_cons _ _ (by decide)), ← List.cons_append,
    convertHashtags_free _ _ hfree, List.cons_append,
    convertMentions_append _ _ (stops_cons _ _ (by decide)),
    convertMentions_word w _ hw hword hP, replaceByte_append, replaceByte_append,
    replaceByte_free 10 _ (mentionLink w) (mentionLink_free w hword)]
  exact ⟨_, _, (List.append_assoc _ _ _).symm⟩


/-! ## The claims -/

/-- C1 (fails on the code): `FetchInstagramFeed` should return a list of 1 to 8
posts and no error whatever the upstream does. With every proxy endpoint
unreachable and a profile page that embeds a `"shortcode_media":{...}}` block,
the run ends in an index-out-of-range panic instead. -/
theorem FetchInstagramFeed_panics_on_media_page :
    FetchInstagramFeed noDecoders bridgesDownWorld (lit "nasa") = Result.panic := by
  decide

/-- C2 (fails on the code): `extractPostsFromHTML` should return normally on
every page. On a page where its pattern matches, the submatch list has one
element (the pattern has no capturing group) and `match[1]` panics, whatever
the JSON decoder does. -/
theorem extractPostsFromHTML_panics_on_media_page (lib : Lib) :
    extractPostsFromHTML lib mediaPage = Result.panic := by
  rfl

/-- C3: for a decoded feed with `N ≥ 1` entries, `parseAtomFeed` returns the
list of length `min N 8` whose `j`-th post is `convertAtomEntryToPost` of the
`j`-th entry; and when the feed is the answer of the first proxy endpoint
that succeeds (every earlier endpoint gave an error or no post),
`FetchInstagramFeed` returns that very list. -/
theorem feed_proxy_priority (lib : Lib) (w : World) (username server xmlData : GoString)
    (pre post : List GoString) (feed : AtomFeed)
    (hservers : rssBridgeServers = pre ++ server :: post)
    (hearlier : ∀ s ∈ pre, ∀ ps, tryRSSBridgeServer lib w s username = Result.ok ps → ps = [])
    (hresp : w.bridge server username = HttpOutcome.response 200 (some xmlData))
    (hxml : lib.xmlUnmarshal xmlData = some feed)
    (hN : 1 ≤ feed.Entries.length) :
    ∃ posts, parseAtomFeed lib (w.entryClock server) xmlData username = Result.ok posts ∧
      posts.length = min feed.Entries.length 8 ∧
      (∀ j, j < min feed.Entries.length 8 → ∃ e p, feed.Entries.get? j = some e ∧
        posts.get? j = some p ∧
        convertAtomEntryToPost lib (w.entryClock server j) e username = Result.ok p) ∧
      FetchInstagramFeed lib w username = Result.ok posts := by
  obtain ⟨posts, hp, hlen, hall⟩ :=
    parseAtomFeed_spec lib (w.entryClock server) xmlData username feed hxml
  refine ⟨posts, hp, hlen, hall, ?_⟩
  have hne : posts ≠ [] := by
    intro h
    rw [h] at hlen
    simp only [List.length_nil] at hlen
    omega
  have htry : tryRSSBridgeServer lib w server username = Result.ok posts := by
    unfold tryRSSBridgeServer
    rw [hresp]
    simpa using hp
  have hloop := serversLoop_first_success lib w username server pre post posts hearlier htry hne
  unfold FetchInstagramFeed FetchFromRSSBridge
  rw [hservers, hloop]
  dsimp only []
  rw [if_pos (List.length_pos.2 hne)]

/-- C3 at a concrete input: the first endpoint is unreachable, the second one
answers with a feed of one entry. -/
theorem feed_proxy_priority_witness :
    ∃ posts, parseAtomFeed sampleLib
        (secondServerWorld.entryClock (lit "https://wtf.roflcopter.fr/rss-bridge/"))
        (lit "<feed/>") (lit "nasa") = Result.ok posts ∧
      posts.length = min sampleFeed.Entries.length 8 ∧
      (∀ j, j < min sampleFeed.Entries.length 8 → ∃ e p, sampleFeed.Entries.get? j = some e ∧
        posts.get? j = some p ∧
        convertAtomEntryToPost sampleLib
          (secondServerWorld.entryClock (lit "https://wtf.roflcopter.fr/rss-bridge/") j) e
          (lit "nasa") = Result.ok p) ∧
      FetchInstagramFeed sampleLib secondServerWorld (lit "nasa") = Result.ok posts :=
  feed_proxy_priority sampleLib secondServerWorld (lit "nasa")
    (lit "https://wtf.roflcopter.fr/rss-bridge/") (lit "<feed/>")
    [lit "https://rss-bridge.org/bridge01/"] [lit "https://rssbridge.flossboxin.org.in/"]
    sampleFeed rfl
    (by
      intro s hs ps h
      simp only [List.mem_singleton] at hs
      subst hs
      have herr : tryRSSBridgeServer sampleLib secondServerWorld
          (lit "https://rss-bridge.org/bridge01/") (lit "nasa") = Result.err := by decide
      rw [herr] at h
      cases h)
    (by decide) rfl (by decide)

/-- C4: for every username and base time `t`, `generateDummyPosts` returns
exactly 8 posts; the `i`-th has `Code` `ABC123DE` followed by `i + 1` in
decimal and `Timestamp` `t` minus `i` times 24 hours, so the codes are
`ABC123DE1` to `ABC123DE8` and each timestamp is exactly 24 hours before the
previous one. -/
theorem generateDummyPosts_shape (username : GoString) (t : Time) :
    (generateDummyPosts username t).length = 8 ∧
    (generateDummyPosts username t).map (fun p => p.Code) =
      [lit "ABC123DE1", lit "ABC123DE2", lit "ABC123DE3", lit "ABC123DE4",
       lit "ABC123DE5", lit "ABC123DE6", lit "ABC123DE7", lit "ABC123DE8"] ∧
    (∀ i, i < 8 → ∃ p, (generateDummyPosts username t).get? i = some p ∧
      p.Code = lit "ABC123DE" ++ fmtNat (i + 1) ∧
      p.Timestamp = t.add (-((i : Int) * (24 * hour)))) ∧
    (∀ i, i + 1 < 8 → ∃ p q, (generateDummyPosts username t).get? i = some p ∧
      (generateDummyPosts username t).get? (i + 1) = some q ∧
      q.Timestamp.unixNano < p.Timestamp.unixNano ∧
      p.Timestamp.unixNano - q.Timestamp.unixNano = 24 * hour) := by
  refine ⟨rfl, rfl, ?_, ?_⟩
  · intro i hi
    rw [generateDummyPosts_eq]
    refine ⟨dummyPost username t i, ?_, rfl, ?_⟩
    · simp [List.getElem?_map, List.getElem?_range hi]
    · simp only [dummyPost, Time.add]
      congr 1
      ring
  · intro i hi
    rw [generateDummyPosts_eq]
    refine ⟨dummyPost username t i, dummyPost username t (i + 1), ?_, ?_, ?_, ?_⟩
    · simp [List.getElem?_map, List.getElem?_range (by omega : i < 8)]
    · simp [List.getElem?_map, List.getElem?_range hi]
    · simp only [dummyPost, Time.add, hour]
      push_cast
      omega
    · simp only [dummyPost, Time.add, hour]
      push_cast
      ring

/-- C5: every post in a list returned by `parseSharedData` or by
`extractPostsFromHTML` has a non-empty `Code`; it is `parseMediaData` of a
record whose `shortcode` is a non-empty string, so a record whose `shortcode`
is missing, not a string or empty contributes no post. -/
theorem parsers_keep_only_coded_posts (lib : Lib) (data : JMap) (html : GoString)
    (posts : List Post) (p : Post)
    (h : parseSharedData data = Result.ok posts ∨
      extractPostsFromHTML lib html = Result.ok posts)
    (hp : p ∈ posts) :
    p.Code ≠ [] ∧
    ∃ m s, p = parseMediaData m ∧ m.get (lit "shortcode") = some (JVal.str s) ∧ s ≠ [] ∧
      p.Code = s := by
  have hfrom : FromShortcode p := by
    rcases h with h | h
    · exact parseSharedData_fromShortcode data posts h p hp
    · exact extractPostsFromHTML_fromShortcode lib html posts h p hp
  obtain ⟨m, s, hm, hs, hne, hcode, _⟩ := hfrom
  exact ⟨by rw [hcode]; exact hne, m, s, hm, hs, hne, hcode⟩

/-- C5 at a concrete input: of the two timeline edges of `profileData` only
the one with a `shortcode` gives a post. -/
theorem parsers_keep_only_coded_posts_witness :
    parseSharedData profileData = Result.ok [parseMediaData stillPost] ∧
    (parseMediaData stillPost).Code ≠ [] ∧
    ∃ m s, parseMediaData stillPost = parseMediaData m ∧
      m.get (lit "shortcode") = some (JVal.str s) ∧ s ≠ [] ∧
      (parseMediaData stillPost).Code = s :=
  ⟨by decide,
   parsers_keep_only_coded_posts noDecoders profileData [] [parseMediaData stillPost]
     (parseMediaData stillPost) (Or.inl (by decide)) (List.mem_singleton_self _)⟩

/-- C6 as stated fails: `parseAtomFeed` keeps an entry that has no link, with an
empty `PostURL`. -/
theorem parseAtomFeed_keeps_entry_without_link :
    ∃ p, parseAtomFeed bareLib (fun _ => ⟨0⟩) (lit "<feed/>") (lit "nasa") = Result.ok [p] ∧
      p.PostURL = [] :=
  ⟨_, rfl, rfl⟩

/-- C6, amended: every post returned by the direct-fetch parsers
(`parseSharedData`, `extractPostsFromHTML`) has a non-empty `PostURL`, the
permalink of its non-empty `Code`. `parseAtomFeed` discards nothing: the
`PostURL`s of its posts are `extractLinkFromAtomEntry` of the first 8 entries,
which is the empty string for an entry without a link of relation `alternate`
or of empty relation. -/
theorem real_source_postURL (lib : Lib) (data : JMap) (html : GoString)
    (posts : List Post) (p : Post)
    (h : parseSharedData data = Result.ok posts ∨
      extractPostsFromHTML lib html = Result.ok posts)
    (hp : p ∈ posts) :
    (p.PostURL ≠ [] ∧ p.Code ≠ [] ∧
      p.PostURL = lit "https://www.instagram.com/p/" ++ p.Code ++ lit "/") ∧
    (∀ (clock : Nat → Time) (xmlData username : GoString) (feed : AtomFeed),
      lib.xmlUnmarshal xmlData = some feed →
      ∃ ps, parseAtomFeed lib clock xmlData username = Result.ok ps ∧
        ps.map (fun q => q.PostURL) = (feed.Entries.take 8).map extractLinkFromAtomEntry) ∧
    (∀ e : AtomEntry, (∀ l ∈ e.Link, l.Rel ≠ lit "alternate" ∧ l.Rel ≠ []) →
      extractLinkFromAtomEntry e = []) := by
  have hfrom : FromShortcode p := by
    rcases h with h | h
    · exact parseSharedData_fromShortcode data posts h p hp
    · exact extractPostsFromHTML_fromShortcode lib html posts h p hp
  obtain ⟨m, s, _, _, hne, hcode, hurl⟩ := hfrom
  refine ⟨⟨?_, by rw [hcode]; exact hne, by rw [hurl, hcode]⟩, ?_, ?_⟩
  · rw [hurl]
    have hlit : lit "https://www.instagram.com/p/" ≠ [] := by decide
    simp [hlit]
  · intro clock xmlData username feed hxml
    exact parseAtomFeed_postURLs lib clock xmlData username feed hxml
  · intro e he
    exact linkLoop_eq_nil e.Link he

/-- C6, amended, at a concrete input: the legacy page `sharedDataPage`, decoded
as `profileData`, gives one post with its permalink. -/
theorem real_source_postURL_witness :
    extractPostsFromHTML blobDecoders sharedDataPage = Result.ok [parseMediaData stillPost] ∧
    (parseMediaData stillPost).PostURL = lit "https://www.instagram.com/p/Cx1/" ∧
    (parseMediaData stillPost).PostURL ≠ [] :=
  ⟨by decide, by decide,
   (real_source_postURL blobDecoders [] sharedDataPage [parseMediaData stillPost]
     (parseMediaData stillPost) (Or.inr (by decide)) (List.mem_singleton_self _)).1.1⟩

/-- C7: `parseMediaData` is total, and each field of its result is read from its
own key alone: `ID`, `ImageURL`, `VideoURL` are the strings under `id`,
`display_url`, `video_url`; `IsVideo` is the boolean under `is_video`; `Code` is
the string under `shortcode` and `PostURL` is the permalink of `Code` exactly
when `shortcode` is a string; `Caption` is the `text` of the `node` of the
first element of `edge_media_to_caption.edges`; `Likes` and `Comments` are the
numbers `edge_liked_by.count` and `edge_media_to_comment.count` converted to
`int`; `Timestamp` is `taken_at_timestamp` in seconds. A key that is missing or
of the wrong type leaves the zero value. The conversion to `int` gives a
64-bit integer: the number itself when it is an integer of that range, and
the number rounded towards zero when it has a fraction. -/
theorem parseMediaData_fields (m : JMap) :
    (parseMediaData m).ID = (asString (m.get (lit "id"))).getD [] ∧
    (parseMediaData m).ImageURL = (asString (m.get (lit "display_url"))).getD [] ∧
    (parseMediaData m).VideoURL = (asString (m.get (lit "video_url"))).getD [] ∧
    (parseMediaData m).IsVideo = (asBool (m.get (lit "is_video"))).getD false ∧
    (parseMediaData m).Code = (asString (m.get (lit "shortcode"))).getD [] ∧
    (parseMediaData m).PostURL =
      (match asString (m.get (lit "shortcode")) with
        | some _ => lit "https://www.instagram.com/p/" ++ (parseMediaData m).Code ++ lit "/"
        | none => []) ∧
    (parseMediaData m).Caption = (captionText m).getD [] ∧
    (parseMediaData m).Likes =
      ((countOf m (lit "edge_liked_by")).map Float64.toInt).getD 0 ∧
    (parseMediaData m).Comments =
      ((countOf m (lit "edge_media_to_comment")).map Float64.toInt).getD 0 ∧
    (parseMediaData m).Timestamp =
      (match asFloat (m.get (lit "taken_at_timestamp")) with
        | some f => Time.unix f.toInt
        | none => Time.zero) ∧
    (∀ f : Float64,
      -2 ^ 63 ≤ f.toInt ∧ f.toInt < 2 ^ 63 ∧
      (-2 ^ 63 ≤ truncate f.value → truncate f.value < 2 ^ 63 →
        f.toInt = truncate f.value) ∧
      (∀ n : Int, f.value = n → -2 ^ 63 ≤ n → n < 2 ^ 63 → f.toInt = n)) ∧
    (∀ f : Float64, countOf m (lit "edge_liked_by") = some f →
      ∀ n : Int, f.value = n → -2 ^ 63 ≤ n → n < 2 ^ 63 → (parseMediaData m).Likes = n) ∧
    (∀ f : Float64, countOf m (lit "edge_media_to_comment") = some f →
      ∀ n : Int, f.value = n → -2 ^ 63 ≤ n → n < 2 ^ 63 →
        (parseMediaData m).Comments = n) := by
  have hconv : ∀ (f : Float64) (n : Int), f.value = n → -2 ^ 63 ≤ n → n < 2 ^ 63 →
      f.toInt = n := by
    intro f n hv h1 h2
    have ht : truncate f.value = n := by rw [hv]; exact truncate_intCast n
    rw [Float64.toInt_eq f (by rw [ht]; exact ⟨h1, h2⟩), ht]
  rw [parseMediaData_eq]
  refine ⟨rfl, rfl, rfl, rfl, rfl, ?_, rfl, rfl, rfl, rfl, ?_, ?_, ?_⟩
  · simp only [mediaRecord]
    cases asString (m.get (lit "shortcode")) <;> rfl
  · intro f
    exact ⟨(Float64.toInt_range f).1, (Float64.toInt_range f).2,
      fun h1 h2 => Float64.toInt_eq f ⟨h1, h2⟩, hconv f⟩
  · intro f hf n hv h1 h2
    simp only [mediaRecord, hf, Option.map_some', Option.getD_some]
    exact hconv f n hv h1 h2
  · intro f hf n hv h1 h2
    simp only [mediaRecord, hf, Option.map_some', Option.getD_some]
    exact hconv f n hv h1 h2

/-- C7 at a concrete input: the record `countedMedia`; 12.5 likes are stored as
12, and 3 comments as 3. -/
theorem parseMediaData_fields_witness :
    (parseMediaData countedMedia).Likes = 12 ∧
    (parseMediaData countedMedia).Timestamp = Time.unix 1700000000 ∧
    (parseMediaData countedMedia).Comments = 3 :=
  ⟨by decide, by decide,
   (parseMediaData_fields countedMedia).2.2.2.2.2.2.2.2.2.2.2.2 ⟨3, 0⟩ rfl 3
     (by norm_num [Float64.value]) (by norm_num) (by norm_num)⟩

/-- C8: `parseSharedData` never returns an error. Its result is the empty list
when a step of the path to the timeline edges is absent or wrongly typed, and
otherwise the posts, in order, of those of the first 8 edges that are objects
with an object-valued `node` and a non-empty `Code`; at most 8 posts. -/
theorem parseSharedData_path (d : JMap) :
    ∃ posts, parseSharedData d = Result.ok posts ∧
      posts = (match timelineEdges d with
        | none => []
        | some edges => (edges.take 8).filterMap edgePost) ∧
      posts.length ≤ 8 :=
  ⟨_, (parseSharedData_spec d).1, rfl, (parseSharedData_spec d).2 _ (parseSharedData_spec d).1⟩

/-- C9: for a media record with `is_video` false and a non-empty string
`display_url`, the item of the normalized post has the enclosure
(`display_url`, `"0"`, `image/jpeg`); with `is_video` true and a non-empty
string `video_url` it has (`video_url`, `"0"`, `video/mp4`). -/
theorem createRSSItem_media_enclosure (m : JMap) (video : Bool) (url : GoString)
    (hkind : m.get (lit "is_video") = some (JVal.bool video))
    (hurl : m.get (if video then lit "video_url" else lit "display_url") = some (JVal.str url))
    (hne : url ≠ []) :
    ∃ item, createRSSItem (parseMediaData m) = Result.ok item ∧
      item.Enclosure =
        { URL := url, Length := lit "0",
          Type_ := if video then lit "video/mp4" else lit "image/jpeg" } := by
  obtain ⟨item, hitem, _, _, _, henc⟩ := createRSSItem_enclosure_eq (parseMediaData m)
  refine ⟨item, hitem, ?_⟩
  rw [henc, parseMediaData_eq]
  cases video with
  | false =>
    simp only [Bool.false_eq_true, if_false] at hurl ⊢
    simp [mediaRecord, hkind, hurl, asBool, asString, hne]
  | true =>
    simp only [if_true] at hurl ⊢
    simp [mediaRecord, hkind, hurl, asBool, asString, hne]

/-- C9 at a concrete input: the still image `stillPost`. -/
theorem createRSSItem_media_enclosure_witness :
    ∃ item, createRSSItem (parseMediaData stillPost) = Result.ok item ∧
      item.Enclosure =
        { URL := lit "https://cdn.example/a.jpg", Length := lit "0",
          Type_ := lit "image/jpeg" } :=
  createRSSItem_media_enclosure stillPost false (lit "https://cdn.example/a.jpg")
    rfl rfl (by decide)

/-- C10 as stated fails: a post with `IsVideo = true`, an empty `VideoURL` and a
non-empty `ImageURL` is rendered with its image, as an `image/jpeg` enclosure
and as an `<img>` tag at the head of the description. -/
theorem video_without_url_renders_image :
    mutedVideo.IsVideo = true ∧ mutedVideo.VideoURL = [] ∧
    (∃ item, createRSSItem mutedVideo = Result.ok item ∧
      item.Enclosure = { URL := lit "https://cdn.example/a.jpg", Length := lit "0",
                         Type_ := lit "image/jpeg" }) ∧
    startsWith (createItemDescription mutedVideo)
      (lit "<img src=\"https://cdn.example/a.jpg\"") = true :=
  ⟨rfl, rfl, ⟨_, rfl, rfl⟩, by decide⟩

/-- C10, amended: for a post with `IsVideo = true` and an empty `VideoURL` the
description never starts with a `<video>` tag; when `ImageURL` is non-empty the
serializer falls back to the image (an `image/jpeg` enclosure with `ImageURL`,
and the `<img>` tag at the head of the description); only when `ImageURL` is
empty too is the enclosure absent and no media tag put at the head of the
description. -/
theorem video_without_url_fallback (p : Post) (_hv : p.IsVideo = true)
    (hu : p.VideoURL = []) :
    ∃ item, createRSSItem p = Result.ok item ∧
      item.Description = createItemDescription p ∧
      startsWith (createItemDescription p) (lit "<video") = false ∧
      (p.ImageURL ≠ [] →
        item.Enclosure = { URL := p.ImageURL, Length := lit "0", Type_ := lit "image/jpeg" } ∧
        startsWith (createItemDescription p)
          (lit "<img src=\"" ++ htmlEscapeString p.ImageURL) = true) ∧
      (p.ImageURL = [] →
        item.Enclosure = { URL := [], Length := [], Type_ := [] } ∧
        startsWith (createItemDescription p) (lit "<img") = false) := by
  obtain ⟨item, hitem, _, _, hdesc, henc⟩ := createRSSItem_enclosure_eq p
  have hno : ¬ (p.IsVideo = true ∧ p.VideoURL ≠ []) := fun h => h.2 hu
  rw [if_neg hno] at henc
  refine ⟨item, hitem, hdesc, ?_, ?_, ?_⟩
  · unfold createItemDescription
    simp only [if_neg hno]
    by_cases hi : p.ImageURL = []
    · by_cases hc : p.Caption = []
      · simp +decide [hi, hc, List.isPrefixOf, startsWith, lit_video_tag, lit_comments]
      · simp +decide [hi, hc, List.isPrefixOf, startsWith, lit_video_tag, lit_par]
    · by_cases hc : p.Caption = []
      · simp +decide [hi, hc, List.isPrefixOf, startsWith, lit_video_tag, lit_img_src]
      · simp +decide [hi, hc, List.isPrefixOf, startsWith, lit_video_tag, lit_img_src]
  · intro hi
    rw [if_pos hi] at henc
    refine ⟨henc, ?_⟩
    unfold createItemDescription
    simp only [if_neg hno, if_pos hi, startsWith]
    rw [ List.isPrefixOf_iff_prefix]
    by_cases hc : p.Caption = []
    · simp only [hc, ne_eq, not_true_eq_false, if_false, List.nil_append, List.append_assoc]
      exact ⟨_, by simp only [List.append_assoc]; rfl⟩
    · simp only [hc, ne_eq, not_false_eq_true, if_true, List.nil_append, List.append_assoc]
      exact ⟨_, by simp only [List.append_assoc]; rfl⟩
  · intro hi
    rw [if_neg (by simpa using hi)] at henc
    refine ⟨henc, ?_⟩
    unfold createItemDescription
    simp only [if_neg hno]
    by_cases hc : p.Caption = []
    · simp +decide [hi, hc, List.isPrefixOf, startsWith, lit_img_tag, lit_comments]
    · simp +decide [hi, hc, List.isPrefixOf, startsWith, lit_img_tag, lit_par]

/-- C10, amended, at a concrete input: the post `mutedVideo`. -/
theorem video_without_url_fallback_witness :
    ∃ item, createRSSItem mutedVideo = Result.ok item ∧
      item.Description = createItemDescription mutedVideo ∧
      startsWith (createItemDescription mutedVideo) (lit "<video") = false ∧
      (mutedVideo.ImageURL ≠ [] →
        item.Enclosure = { URL := mutedVideo.ImageURL, Length := lit "0",
                           Type_ := lit "image/jpeg" } ∧
        startsWith (createItemDescription mutedVideo)
          (lit "<img src=\"" ++ htmlEscapeString mutedVideo.ImageURL) = true) ∧
      (mutedVideo.ImageURL = [] →
        item.Enclosure = { URL := [], Length := [], Type_ := [] } ∧
        startsWith (createItemDescription mutedVideo) (lit "<img") = false) :=
  video_without_url_fallback mutedVideo rfl rfl

/-- C11 (as stated, refuted): the length test and the cut of `createItemTitle`
count bytes, not characters. A first line of 26 characters (52 bytes) is
truncated although it has fewer than 51 characters, and on a first line of 52
characters whose 50th character has two bytes the cut falls inside that
character: the title keeps its first byte `0xC3` only. -/
theorem createItemTitle_counts_bytes :
    accentCaption.length = 26 ∧
    createItemTitle { Post.zero with Caption := lit accentCaption } =
      Result.ok (lit "ééééééééééééééééééééééééé...") ∧
    straddleCaption.length = 52 ∧
    createItemTitle { Post.zero with Caption := lit straddleCaption } =
      Result.ok (lit "aaaaaaaaaaaaaaaaaaaaaaaaaaaaaaaaaaaaaaaaaaaaaaaaa" ++ [195] ++ lit "...") ∧
    createItemTitle { Post.zero with Caption := lit straddleCaption } ≠
      Result.ok (lit "aaaaaaaaaaaaaaaaaaaaaaaaaaaaaaaaaaaaaaaaaaaaaaaaaé...") := by
  refine ⟨by decide, ?_, by decide, ?_, ?_⟩
  · rw [createItemTitle_eq]; decide
  · rw [createItemTitle_eq]; decide
  · rw [createItemTitle_eq]; decide

/-- C11 (amended): the first line of the caption is `lines[0]` of
`strings.Split(caption, "\n")`. If it has more than 50 bytes, the title is the
stripped form of its first 50 bytes followed by `...`; if it has at most 50
bytes, the title is the stripped form of the line itself, nothing is cut and
no `...` is added. -/
theorem createItemTitle_truncates_bytes (post : Post) :
    index (stringsSplit post.Caption (lit "\n")) 0 = Result.ok (firstLine post.Caption) ∧
    (50 < (firstLine post.Caption).length →
      ((firstLine post.Caption).take 50).length = 50 ∧
      createItemTitle post =
        Result.ok (stripTags ((firstLine post.Caption).take 50 ++ lit "..."))) ∧
    ((firstLine post.Caption).length ≤ 50 →
      createItemTitle post = Result.ok (stripTags (firstLine post.Caption))) := by
  refine ⟨stringsSplit_head_line _, ?_, ?_⟩
  · intro h
    refine ⟨by rw [List.length_take]; omega, ?_⟩
    rw [createItemTitle_eq, truncateTitle, if_pos h]
  · intro h
    rw [createItemTitle_eq, truncateTitle, if_neg (by omega)]

/-- C11, amended, at a concrete input: a first line of 26 characters of two
bytes each. -/
theorem createItemTitle_truncates_bytes_witness :
    ((firstLine (lit accentCaption)).take 50).length = 50 ∧
    createItemTitle { Post.zero with Caption := lit accentCaption } =
      Result.ok (stripTags ((firstLine (lit accentCaption)).take 50 ++ lit "...")) :=
  (createItemTitle_truncates_bytes { Post.zero with Caption := lit accentCaption }).2.1
    (by decide)

/-- C12: `createItemTitle` returns the white-space delimited tokens of the
(possibly truncated) first line of the caption that do not begin with `#` or
`@`, in their order, joined by single spaces, and the empty string when none
remains. The tokens of the title are those very tokens, so none of them
begins with `#` or `@`. The caption `Hello #world @friend` gives `Hello`. -/
theorem createItemTitle_strips_tags (post : Post) :
    ∃ line title,
      index (stringsSplit post.Caption (lit "\n")) 0 = Result.ok line ∧
      createItemTitle post = Result.ok title ∧
      title = stringsJoin (lit " ")
        ((stringsFields (truncateTitle line)).filter fun word =>
          !startsWith word (lit "#") && !startsWith word (lit "@")) ∧
      stringsFields title =
        (stringsFields (truncateTitle line)).filter (fun word =>
          !startsWith word (lit "#") && !startsWith word (lit "@")) ∧
      (∀ word ∈ stringsFields title,
        startsWith word (lit "#") = false ∧ startsWith word (lit "@") = false) ∧
      ((∀ word ∈ stringsFields (truncateTitle line),
        startsWith word (lit "#") = true ∨ startsWith word (lit "@") = true) → title = []) ∧
      createItemTitle { Post.zero with Caption := lit "Hello #world @friend" } =
        Result.ok (lit "Hello") := by
  have hfilter : (fun word : GoString =>
      !startsWith word (lit "#") && !startsWith word (lit "@")) = fun word => !isTag word := by
    funext word
    simp [isTag, Bool.not_or]
  refine ⟨firstLine post.Caption, stripTags (truncateTitle (firstLine post.Caption)),
    stringsSplit_head_line _, createItemTitle_eq post, ?_, ?_, ?_, ?_, ?_⟩
  · rw [hfilter]; rfl
  · rw [hfilter]; exact stripTags_fields _
  · intro word hword
    rw [stripTags_fields] at hword
    have := (List.mem_filter.1 hword).2
    simpa [isTag, Bool.not_or] using this
  · intro hall
    unfold stripTags
    have : (stringsFields (truncateTitle (firstLine post.Caption))).filter
        (fun word => !isTag word) = [] := by
      rw [List.filter_eq_nil_iff]
      intro word hword
      rcases hall word hword with h | h <;> simp [isTag, h]
    rw [this]
    rfl
  · rw [createItemTitle_eq]; decide

/-- C13: for a caption `pre ++ "#" ++ w ++ rest` (or `pre ++ "@" ++ w ++ rest`)
where `w` is a non-empty run of word bytes `[0-9A-Za-z_]` that `rest` does not
continue, the output of `createItemDescription` contains the link
`<a href="https://www.instagram.com/explore/tags/w">#w</a>` (or
`<a href="https://www.instagram.com/w">@w</a>`). The mention pass copies a
hashtag link unchanged, whatever text surrounds it. -/
theorem createItemDescription_links (post : Post) (pre w rest : GoString)
    (hw : w ≠ []) (hword : ∀ c ∈ w, Cls.word.test c = true) (hrest : Stops rest) :
    (post.Caption = pre ++ lit "#" ++ w ++ rest →
      hashtagLink w <:+: createItemDescription post) ∧
    (post.Caption = pre ++ lit "@" ++ w ++ rest →
      mentionLink w <:+: createItemDescription post) ∧
    (∀ x y, convertMentions (x ++ hashtagLink w ++ y) =
      convertMentions x ++ hashtagLink w ++ convertMentions y) := by
  refine ⟨?_, ?_, fun x y => convertMentions_keeps_link w x y hword⟩
  · intro hcap
    have hne : post.Caption ≠ [] := by
      rw [hcap, lit_hash]
      simp
    obtain ⟨a, b, hd⟩ := createItemDescription_caption post hne
    obtain ⟨a2, b2, hr⟩ := hashtag_rendered pre w rest hw hword hrest
    rw [hd, hcap, hr]
    exact ⟨a ++ a2, b2 ++ b, by simp only [List.append_assoc]⟩
  · intro hcap
    have hne : post.Caption ≠ [] := by
      rw [hcap, lit_at]
      simp
    obtain ⟨a, b, hd⟩ := createItemDescription_caption post hne
    obtain ⟨a2, b2, hr⟩ := mention_rendered pre w rest hw hword hrest
    rw [hd, hcap, hr]
    exact ⟨a ++ a2, b2 ++ b, by simp only [List.append_assoc]⟩

/-- C13 at a concrete input: the caption `Hello #world @friend` gives the links
to `.../explore/tags/world` and to `.../friend`. -/
theorem createItemDescription_links_witness :
    lit "<a href=\"https://www.instagram.com/explore/tags/world\">#world</a>" <:+:
      createItemDescription taggedPost ∧
    lit "<a href=\"https://www.instagram.com/friend\">@friend</a>" <:+:
      createItemDescription taggedPost :=
  ⟨(createItemDescription_links taggedPost (lit "Hello ") (lit "world") (lit " @friend")
      (by decide) (by decide) (by intro c h; cases h; decide)).1 (by decide),
   (createItemDescription_links taggedPost (lit "Hello #world ") (lit "friend") []
      (by decide) (by decide) (by intro c h; cases h)).2.1 (by decide)⟩

set_option maxRecDepth 100000 in
/-- C14 (as stated, refuted): a permalink with the control character U+0001 is
not reproduced. `GenerateRSSFeed` writes U+FFFD in its place, so re-reading the
document gives one item whose link differs from the `PostURL` of the post; the
document is the very text emitted for the post whose permalink has U+FFFD
there, so no reader can tell the two posts apart. -/
theorem GenerateRSSFeed_replaces_control_character :
    controlPost.PostURL ≠ replacementPost.PostURL ∧
    GenerateRSSFeed sampleFormat [controlPost] (lit "nasa") ⟨0⟩ =
      GenerateRSSFeed sampleFormat [replacementPost] (lit "nasa") ⟨0⟩ ∧
    ∃ text, GenerateRSSFeed sampleFormat [controlPost] (lit "nasa") ⟨0⟩ = Result.ok text ∧
      readItemCount text = 1 ∧
      readItemFields (lit "link") text = [replacementPost.PostURL] ∧
      readItemFields (lit "link") text ≠ [controlPost.PostURL] := by
  refine ⟨by decide, by decide, ?_⟩
  obtain ⟨text, hgen, hcount, hlink, _⟩ :=
    GenerateRSSFeed_read sampleFormat [controlPost] (lit "nasa") ⟨0⟩
  have hread : xmlUnescape (xmlEscape controlPost.PostURL) = replacementPost.PostURL := by decide
  refine ⟨text, hgen, hcount, ?_, ?_⟩
  · rw [hlink]
    simp only [List.map_cons, List.map_nil, hread]
  · rw [hlink]
    simp only [List.map_cons, List.map_nil, hread]
    decide

/-- C14 (amended): `GenerateRSSFeed` never fails. The document handed to the
encoder has `len(posts)` items in the order of the posts, the link and the
unique identifier of the `i`-th item both being `posts[i].PostURL`. Re-reading
the emitted text gives as many items as posts, and for the link and for the
unique identifier of each item the `PostURL` as the encoder writes it and a
reader reads it back: the `PostURL` itself whenever it has no byte or code
point that XML cannot hold. -/
theorem GenerateRSSFeed_round_trip (format : Time → GoString) (posts : List Post)
    (username : GoString) (now : Time) :
    ∃ items output,
      GenerateRSSFeed format posts username now = Result.ok (xmlHeader ++ output) ∧
      xmlMarshalIndent format (feedDocument username now items) = some output ∧
      items.length = posts.length ∧
      itemLinks (feedDocument username now items) = posts.map (fun p => p.PostURL) ∧
      itemGUIDs (feedDocument username now items) = posts.map (fun p => p.PostURL) ∧
      readItemCount (xmlHeader ++ output) = posts.length ∧
      readItemFields (lit "link") (xmlHeader ++ output) =
        posts.map (fun p => xmlUnescape (xmlEscape p.PostURL)) ∧
      readItemFields (lit "guid") (xmlHeader ++ output) =
        posts.map (fun p => xmlUnescape (xmlEscape p.PostURL)) ∧
      ((∀ p ∈ posts, xmlLegal p.PostURL = true) →
        readItemFields (lit "link") (xmlHeader ++ output) = posts.map (fun p => p.PostURL) ∧
        readItemFields (lit "guid") (xmlHeader ++ output) = posts.map (fun p => p.PostURL)) := by
  obtain ⟨items, output, hgen, hout, hlen, hl, hg⟩ :=
    GenerateRSSFeed_eq format posts username now
  obtain ⟨text, hgen2, hcount, hlink, hguid⟩ := GenerateRSSFeed_read format posts username now
  rw [hgen] at hgen2
  injection hgen2 with htext
  subst htext
  refine ⟨items, output, hgen, hout, hlen, hl, hg, hcount, hlink, hguid, ?_⟩
  intro hlegal
  have hmap : posts.map (fun p => xmlUnescape (xmlEscape p.PostURL))
      = posts.map (fun p => p.PostURL) := by
    apply List.map_congr_left
    intro p hp
    exact xmlUnescape_escape p.PostURL (hlegal p hp)
  rw [hlink, hguid, hmap]
  exact ⟨rfl, rfl⟩

/-- C14, amended, at a concrete input: the post `mutedVideo` with the permalink
of the shortcode `Cx1`. -/
theorem GenerateRSSFeed_round_trip_witness :
    ∃ text,
      GenerateRSSFeed sampleFormat
        [{ mutedVideo with PostURL := lit "https://www.instagram.com/p/Cx1/" }]
        (lit "nasa") ⟨0⟩ = Result.ok text ∧
      readItemCount text = 1 ∧
      readItemFields (lit "link") text = [lit "https://www.instagram.com/p/Cx1/"] ∧
      readItemFields (lit "guid") text = [lit "https://www.instagram.com/p/Cx1/"] :=
  match GenerateRSSFeed_round_trip sampleFormat
      [{ mutedVideo with PostURL := lit "https://www.instagram.com/p/Cx1/" }]
      (lit "nasa") ⟨0⟩ with
  | ⟨_, output, hgen, _, _, _, _, hcount, _, _, hlegal⟩ =>
    ⟨xmlHeader ++ output, hgen, hcount,
      (hlegal (by decide)).1, (hlegal (by decide)).2⟩

/-- C15: `FetchFromRSSBridge` never panics. When, in the fixed order of
`rssBridgeServers`, every endpoint before `server` gave an error or no post
and `server` gives a non-empty list, the result is exactly that list, in this
world and in every world with the same outcomes up to `server` (no later
endpoint is consulted). The result is an error exactly when no endpoint
gives a non-empty list without error. -/
theorem FetchFromRSSBridge_first_success (lib : Lib) (w : World) (username : GoString) :
    FetchFromRSSBridge lib w username ≠ Result.panic ∧
    (∀ (pre post : List GoString) (server : GoString) (posts : List Post),
      rssBridgeServers = pre ++ server :: post →
      (∀ s ∈ pre, ∀ ps, tryRSSBridgeServer lib w s username = Result.ok ps → ps = []) →
      tryRSSBridgeServer lib w server username = Result.ok posts →
      posts ≠ [] →
      FetchFromRSSBridge lib w username = Result.ok posts ∧
      ∀ w2 : World,
        (∀ s ∈ pre ++ [server],
          tryRSSBridgeServer lib w2 s username = tryRSSBridgeServer lib w s username) →
        FetchFromRSSBridge lib w2 username = Result.ok posts) ∧
    (FetchFromRSSBridge lib w username = Result.err ↔
      ∀ s ∈ rssBridgeServers, ∀ ps,
        tryRSSBridgeServer lib w s username = Result.ok ps → ps = []) := by
  refine ⟨?_, ?_, ?_⟩
  · unfold FetchFromRSSBridge
    intro h
    generalize rssBridgeServers = servers at h
    induction servers with
    | nil => simp [serversLoop] at h
    | cons s rest ih =>
      unfold serversLoop at h
      split at h
      · split at h
        · cases h
        · exact ih h
      · exact ih h
      · rename_i hp
        exact tryRSSBridgeServer_ne_panic lib w s username hp
  · intro pre post server posts hservers hearlier hok hne
    unfold FetchFromRSSBridge
    rw [hservers]
    refine ⟨serversLoop_first_success lib w username server pre post posts hearlier hok hne, ?_⟩
    intro w2 hsame
    refine serversLoop_first_success lib w2 username server pre post posts ?_ ?_ hne
    · intro s hs ps h2
      rw [hsame s (List.mem_append_left _ hs)] at h2
      exact hearlier s hs ps h2
    · rw [hsame server (List.mem_append_right _ (List.mem_singleton_self _))]
      exact hok
  · exact serversLoop_err_iff lib w username rssBridgeServers

/-- C15 at a concrete input: the first endpoint is unreachable, the second one
answers with a feed of one entry. -/
theorem FetchFromRSSBridge_first_success_witness :
    ∃ posts, posts.length = 1 ∧
      FetchFromRSSBridge sampleLib secondServerWorld (lit "nasa") = Result.ok posts :=
by
  refine ⟨_, ?_,
    ((FetchFromRSSBridge_first_success sampleLib secondServerWorld (lit "nasa")).2.1
      [lit "https://rss-bridge.org/bridge01/"] [lit "https://rssbridge.flossboxin.org.in/"]
      (lit "https://wtf.roflcopter.fr/rss-bridge/") _ rfl
      (by
        intro s hs ps h
        simp only [List.mem_singleton] at hs
        subst hs
        have herr : tryRSSBridgeServer sampleLib secondServerWorld
            (lit "https://rss-bridge.org/bridge01/") (lit "nasa") = Result.err := by decide
        rw [herr] at h
        cases h)
      rfl (List.cons_ne_nil _ _)).1⟩
  rfl

/-- C16 as stated fails: when a link of empty relation stands before the link
of relation `alternate`, `extractLinkFromAtomEntry` returns the address of the
former, not of the `alternate` link. -/
theorem extractLinkFromAtomEntry_prefers_position :
    extractLinkFromAtomEntry twoLinkEntry = lit "https://example.com/self" ∧
    (twoLinkEntry.Link.find? (fun l => decide (l.Rel = lit "alternate"))).map
      (fun l => l.Href) = some (lit "https://www.instagram.com/p/Cx1/") ∧
    extractLinkFromAtomEntry twoLinkEntry ≠ lit "https://www.instagram.com/p/Cx1/" := by
  decide

/-- C16, amended: `extractLinkFromAtomEntry` returns the address of the first
link, in document order, whose relation is `alternate` or empty (a link
without relation counts like an `alternate` one), and the empty string when
the entry has no such link. -/
theorem extractLinkFromAtomEntry_first_entry_link (entry : AtomEntry) :
    extractLinkFromAtomEntry entry =
      ((entry.Link.find? isEntryLink).map fun l => l.Href).getD [] ∧
    ((∀ l ∈ entry.Link, l.Rel ≠ lit "alternate" ∧ l.Rel ≠ []) →
      extractLinkFromAtomEntry entry = []) ∧
    (∀ (pre post : List AtomLink) (l : AtomLink),
      entry.Link = pre ++ l :: post →
      (∀ l1 ∈ pre, l1.Rel ≠ lit "alternate" ∧ l1.Rel ≠ []) →
      (l.Rel = lit "alternate" ∨ l.Rel = []) →
      extractLinkFromAtomEntry entry = l.Href) := by
  refine ⟨linkLoop_eq_find entry.Link, fun h => linkLoop_eq_nil entry.Link h, ?_⟩
  intro pre post l hsplit hpre hl
  unfold extractLinkFromAtomEntry
  rw [hsplit]
  clear hsplit
  induction pre with
  | nil => simp [linkLoop, hl]
  | cons l1 rest ih =>
    have h1 := hpre l1 (List.mem_cons_self _ _)
    simp only [List.cons_append, linkLoop]
    rw [if_neg (by simp [h1.1, h1.2])]
    exact ih (fun l2 h2 => hpre l2 (List.mem_cons_of_mem _ h2))

/-- C16, amended, at a concrete input: the entry `twoLinkEntry`, whose first
link has an empty relation. -/
theorem extractLinkFromAtomEntry_first_entry_link_witness :
    extractLinkFromAtomEntry twoLinkEntry = lit "https://example.com/self" :=
  (extractLinkFromAtomEntry_first_entry_link twoLinkEntry).2.2 []
    [{ Href := lit "https://www.instagram.com/p/Cx1/", Rel := lit "alternate", Type_ := [] }]
    { Href := lit "https://example.com/self", Rel := [], Type_ := [] } rfl
    (by intro l hl; cases hl) (Or.inr rfl)

/-- C17 (fails on the code): `extractPostsFromHTML` returns what
`extractFromSharedData` returns on the documents in which the embedded-media
pattern matches nothing, and panics on every other document. On `mediaPage`
one fragment matches and no post comes out of the scan; the claim asks for
the result of `extractFromSharedData`, the empty list, and the code panics at
`match[1]` instead, whatever the JSON decoder does. -/
theorem extractPostsFromHTML_panics_instead_of_delegating (lib : Lib) :
    (∀ html, jsonPattern.FindAllStringSubmatch html = [] →
      extractPostsFromHTML lib html = extractFromSharedData lib html) ∧
    (∀ html, jsonPattern.FindAllStringSubmatch html ≠ [] →
      extractPostsFromHTML lib html = Result.panic) ∧
    jsonPattern.FindAllStringSubmatch mediaPage ≠ [] ∧
    extractFromSharedData lib mediaPage = Result.ok [] ∧
    extractPostsFromHTML lib mediaPage = Result.panic := by
  refine ⟨?_, ?_, by decide, rfl, rfl⟩
  · intro html h
    rw [extractPostsFromHTML_eq, h]
    rfl
  · intro html h
    rw [extractPostsFromHTML_eq, if_neg]
    intro hlen
    exact h (List.length_eq_zero.1 (Nat.le_zero.1 hlen))

/-- C18: `extractImageURLFromContent` never slices out of range. It returns
the empty string when the content has no `<img`, or no `>` after the first
`<img`; otherwise it returns the text `r` between the first `<img` and the
first `>` after it: `r` has no `>`, and the content is
`pre ++ "<img" ++ r ++ ">" ++ post` where `pre ++ "<img"` has `<img` at its
end only. -/
theorem extractImageURLFromContent_first_tag (content : GoString) :
    ∃ r, extractImageURLFromContent content = Result.ok r ∧
      ((¬ lit "<img" <:+: content ∧ r = []) ∨
       ∃ pre rest, content = pre ++ lit "<img" ++ rest ∧
         (∀ a b, pre ++ lit "<img" = a ++ lit "<img" ++ b → b = []) ∧
         ((¬ lit ">" <:+: rest ∧ r = []) ∨
          ∃ post, rest = r ++ lit ">" ++ post ∧ ¬ lit ">" <:+: r ∧
            content = pre ++ lit "<img" ++ r ++ lit ">" ++ post)) := by
  obtain ⟨r, hr, h⟩ := extractImageURLFromContent_cases content
  refine ⟨r, hr, ?_⟩
  rcases h with h | ⟨pre, rest, hc, hfirst, h⟩
  · exact Or.inl h
  · refine Or.inr ⟨pre, rest, hc, hfirst, ?_⟩
    rcases h with h | ⟨post, hrest, hno⟩
    · exact Or.inl h
    · refine Or.inr ⟨post, hrest, hno, ?_⟩
      rw [hc, hrest]
      simp only [List.append_assoc]

/-- C19 (fails on the code): the caption `it's` contains no hashtag, yet the
description links the hashtag `#39`: the apostrophe is escaped to `&#39;`
before the hashtags are rewritten. -/
theorem createItemDescription_links_escaped_apostrophe :
    stringsContains apostrophePost.Caption (lit "#") = false ∧
    htmlEscapeString apostrophePost.Caption = lit "it&#39;s" ∧
    stringsContains (createItemDescription apostrophePost)
      (lit "<p>it&<a href=\"https://www.instagram.com/explore/tags/39\">#39</a>;s</p>")
      = true := by
  decide

/-- C20: for a shortcode `c` without `/`, `extractShortcodeFromURL` reads `c`
back from the permalink `https://www.instagram.com/p/` + `c` + `/`. So the post
that `parseMediaData` builds from a record with the string shortcode `c` has
that permalink and that code, and `extractShortcodeFromURL` of its `PostURL`
is its `Code`; the same holds for every post of `generateDummyPosts`. -/
theorem extractShortcodeFromURL_permalink (c : GoString) (hc : (47 : UInt8) ∉ c) :
    extractShortcodeFromURL (lit "https://www.instagram.com/p/" ++ c ++ lit "/") =
      Result.ok c ∧
    (∀ m : JMap, m.get (lit "shortcode") = some (JVal.str c) →
      (parseMediaData m).PostURL = lit "https://www.instagram.com/p/" ++ c ++ lit "/" ∧
      (parseMediaData m).Code = c ∧
      extractShortcodeFromURL (parseMediaData m).PostURL =
        Result.ok (parseMediaData m).Code) ∧
    (∀ (username : GoString) (t : Time), ∀ p ∈ generateDummyPosts username t,
      extractShortcodeFromURL p.PostURL = Result.ok p.Code) := by
  have hmain := extractShortcodeFromURL_permalink_aux c hc
  refine ⟨hmain, ?_, ?_⟩
  · intro m hm
    have hurl : (parseMediaData m).PostURL
        = lit "https://www.instagram.com/p/" ++ c ++ lit "/" := by
      rw [parseMediaData_eq]
      simp only [mediaRecord, hm, asString]
    have hcode : (parseMediaData m).Code = c := by
      rw [parseMediaData_eq]
      simp only [mediaRecord, hm, asString, Option.getD]
    refine ⟨hurl, hcode, ?_⟩
    rw [hurl, hcode]
    exact hmain
  · intro username t p hp
    rw [generateDummyPosts_eq] at hp
    obtain ⟨i, hi, rfl⟩ := List.mem_map.1 hp
    exact dummyPost_shortcode username t i (List.mem_range.1 hi)

/-- C20 at a concrete input: the shortcode `Cx1`. -/
theorem extractShortcodeFromURL_permalink_witness :
    extractShortcodeFromURL (lit "https://www.instagram.com/p/" ++ lit "Cx1" ++ lit "/") =
      Result.ok (lit "Cx1") ∧
    (∀ m : JMap, m.get (lit "shortcode") = some (JVal.str (lit "Cx1")) →
      (parseMediaData m).PostURL = lit "https://www.instagram.com/p/" ++ lit "Cx1" ++ lit "/" ∧
      (parseMediaData m).Code = lit "Cx1" ∧
      extractShortcodeFromURL (parseMediaData m).PostURL =
        Result.ok (parseMediaData m).Code) ∧
    (∀ (username : GoString) (t : Time), ∀ p ∈ generateDummyPosts username t,
      extractShortcodeFromURL p.PostURL = Result.ok p.Code) :=
  extractShortcodeFromURL_permalink (lit "Cx1") (by decide)

end Rss
